import Mathlib

/-!
# gitfame: per-contributor line, commit and file statistics

A shallow embedding of `internal/gitfame` (Go) and theorems about it.

Modelling conventions.

* A Go `string` is a Lean `String`. Go strings are byte sequences; only the
  valid UTF-8 ones are represented. `len(s)` is `String.utf8ByteSize`, the
  comparison `a < b` of Go (bytewise) agrees with the code-point order of
  Lean on valid UTF-8. The JSON presenter is the one place where a byte that
  is not valid UTF-8 changes what is written; there a name is a `RawString`.
* A Go `int` is an `Int`; the counters of the program count lines of text and
  elements of maps and stay far below `2^63`, so no wrap-around is modelled.
* A Go `map[string]struct{}` is a `Finset String`. A Go `map[string]bool`
  that only ever stores `true` (the two filter allow-sets) is the `Finset
  String` of its keys: `len(m) > 0` is `m ≠ ∅` and `m[k]` is `k ∈ m`.
* The map `map[string]*AuthorData` is an association list in insertion
  order; Go leaves the iteration order of a map unspecified, so statements
  about such a map are statements about its lookups, or hold for every order.
* The results of external commands (`git ls-tree`, `cat-file`, `log`,
  `blame`) and the language table read from the configuration file are
  inputs of the functions that consume them.
-/

namespace Gitfame

/-! ## The parts of the Go standard library the program uses -/

namespace Strings

/-- The predicate `unicode.IsSpace`: the white space characters of Unicode. -/
def isSpace (c : Char) : Bool :=
  let n := c.toNat
  n == 0x20 || (0x09 ≤ n && n ≤ 0x0D) || n == 0x85 || n == 0xA0 || n == 0x1680 ||
    (0x2000 ≤ n && n ≤ 0x200A) || n == 0x2028 || n == 0x2029 || n == 0x202F ||
    n == 0x205F || n == 0x3000

/-- Drop trailing white space from a list of characters. -/
def trimRight (cs : List Char) : List Char :=
  (cs.reverse.dropWhile isSpace).reverse

/-- The function `strings.TrimSpace`: the string without leading and trailing
white space. -/
def TrimSpace (s : String) : String :=
  String.mk (trimRight (s.data.dropWhile isSpace))

/-- The function `strings.ToLower`, which maps `unicode.ToLower` over the
characters of the string; the character mapping is the parameter `lower`. -/
def ToLower (lower : Char → Char) (s : String) : String :=
  String.mk (s.data.map lower)

/-- The function `strings.HasPrefix`. -/
def HasPrefix (s pre : String) : Bool :=
  pre.data.isPrefixOf s.data

/-- Pieces of a list of characters between the occurrences of `sep`. -/
def splitChars (sep : Char) : List Char → List (List Char)
  | [] => [[]]
  | c :: cs =>
    if c = sep then [] :: splitChars sep cs
    else
      match splitChars sep cs with
      | [] => [[c]]
      | p :: ps => (c :: p) :: ps

/-- The function `strings.Split(s, sep)` for a separator of one character,
the only kind the program uses. -/
def Split (s : String) (sep : Char) : List String :=
  (splitChars sep s.data).map String.mk

/-- At most `n` pieces of a list of characters; the last one is the unsplit
rest. -/
def splitNChars (sep : Char) : Nat → List Char → List (List Char)
  | 0, _ => []
  | 1, cs => [cs]
  | n + 2, cs =>
    match cs.span (fun c => c != sep) with
    | (p, []) => [p]
    | (p, _ :: rest) => p :: splitNChars sep (n + 1) rest

/-- The function `strings.SplitN(s, sep, n)` for `n ≥ 0` and a separator of
one character. -/
def SplitN (s : String) (sep : Char) (n : Nat) : List String :=
  (splitNChars sep n s.data).map String.mk

end Strings

/-- The function `sort.Slice`: the slice sorted by `less`. The comparison
functions of this program order any two distinct values (for the three order
keys), so the sorted arrangement is unique and insertion sort returns what
any correct sorting algorithm returns. -/
def sortSlice {α : Type} (less : α → α → Bool) (xs : List α) : List α :=
  xs.insertionSort (fun a b => less b a = false)

/-! ## types.go -/

/-- The struct `AuthorStats`. -/
structure AuthorStats where
  Name : String
  Lines : Int
  Commits : Int
  Files : Int
  deriving DecidableEq, Repr

/-- The struct `AuthorData`: the accumulator of one identity. -/
structure AuthorData where
  name : String
  lines : Int
  commits : Finset String
  files : Finset String
  deriving DecidableEq

/-- The struct `LanguageDefinition`. -/
structure LanguageDefinition where
  Name : String
  Type_ : String
  Extensions : List String
  deriving DecidableEq, Repr

/-- The struct `Options`. -/
structure Options where
  Repo : String
  Rev : String
  Order : String
  UseCmtr : Bool
  Format : String
  Exts : List String
  Langs : List String
  Excls : List String
  Rests : List String
  deriving DecidableEq, Repr

/-! ## The accumulator map `map[string]*AuthorData` -/

/-- The Go type `map[string]*AuthorData`, as an association list. -/
abbrev AuthorMap : Type := List (String × AuthorData)

/-- The lookup `authorData[name]`; `none` is the nil pointer of a missing key. -/
def mapGet : AuthorMap → String → Option AuthorData
  | [], _ => none
  | (k, d) :: rest, name => if k = name then some d else mapGet rest name

/-- The accumulator of `name` replaced by `d` (a write through the pointer
stored under `name`), or stored as a new entry (`authorData[name] = data`). -/
def mapSet : AuthorMap → String → AuthorData → AuthorMap
  | [], name, d => [(name, d)]
  | (k, d0) :: rest, name, d =>
    if k = name then (k, d) :: rest else (k, d0) :: mapSet rest name d

/-! ## git_operations.go -/

/-- The external commands of git_operations.go: what `cmd.Output()` returns
for `git ls-tree`, `git cat-file`, `git log -1` and `git blame`, as functions
of the repository path, the revision and (but for the first) the file path.
A failed command returns its error message. -/
structure Git where
  lsTree : String → String → Except String String
  catFile : String → String → String → Except String String
  log : String → String → String → Except String String
  blame : String → String → String → Except String String

/-- The function `getRepositoryFiles`. -/
def getRepositoryFiles (git : Git) (repoPath revision : String) : Except String (List String) :=
  match git.lsTree repoPath revision with
  | .error err => .error err
  | .ok output => .ok ((Strings.Split output '\n').filter (fun file => file ≠ ""))

/-- The function `getFileContent`. -/
def getFileContent (git : Git) (repoPath revision filePath : String) : Except String String :=
  git.catFile repoPath revision filePath

/-- The function `getEmptyFileCommitInfo`: hash, author and committer of the
most recent history entry of the path. -/
def getEmptyFileCommitInfo (git : Git) (repoPath revision filePath : String) :
    Except String (String × String × String) :=
  match git.log repoPath revision filePath with
  | .error err => .error err
  | .ok output =>
    let parts := Strings.Split (Strings.TrimSpace output) '\x00'
    if parts.length ≠ 3 then .error "invalid log output format"
    else .ok (parts.getD 0 "", parts.getD 1 "", parts.getD 2 "")

/-- The function `getBlameOutput`. -/
def getBlameOutput (git : Git) (repoPath revision filePath : String) : Except String String :=
  git.blame repoPath revision filePath

/-- The function `isHash`. -/
def isHash (s : String) : Bool :=
  if s.utf8ByteSize ≠ 40 then false
  else s.data.all (fun c => !((c < '0' || c > '9') && (c < 'a' || c > 'f')))

/-! ## file_processing.go -/

namespace Filepath

/-- The scan of `filepath.Ext` from the end of the path (the characters come
in reverse order): stop at a separator, return the suffix from the first dot
met. -/
def extScan : List Char → List Char → List Char
  | [], _ => []
  | c :: cs, acc =>
    if c = '/' then [] else if c = '.' then '.' :: acc else extScan cs (c :: acc)

/-- The function `filepath.Ext` (with `/` as the path separator): the suffix
beginning at the final dot in the final element of the path, or the empty
string. -/
def Ext (path : String) : String :=
  String.mk (extScan path.data.reverse [])

end Filepath

/-- The function `matchesAnyPattern`. The parameter `pathMatch pattern name`
is the first result of `filepath.Match`, whose error the function drops. -/
def matchesAnyPattern (pathMatch : String → String → Bool) (filePath : String) :
    List String → Bool
  | [] => false
  | pattern :: patterns =>
    let pattern := Strings.TrimSpace pattern
    if pattern = "" then matchesAnyPattern pathMatch filePath patterns
    else if pathMatch pattern filePath then true
    else matchesAnyPattern pathMatch filePath patterns

/-- The function `shouldProcessFile`. -/
def shouldProcessFile (lower : Char → Char) (pathMatch : String → String → Bool)
    (filePath : String) (allowedExtensions allowedLanguageExtensions : Finset String)
    (useLanguageFilter : Bool) (restrictPatterns excludePatterns : List String) : Bool :=
  if restrictPatterns.length > 0 ∧ ¬ matchesAnyPattern pathMatch filePath restrictPatterns then
    false
  else if excludePatterns.length > 0 ∧ matchesAnyPattern pathMatch filePath excludePatterns then
    false
  else
    let extension := Strings.ToLower lower (Filepath.Ext filePath)
    if allowedExtensions.card > 0 ∧ (extension = "" ∨ ¬ extension ∈ allowedExtensions) then
      false
    else if useLanguageFilter = true ∧
        (extension = "" ∨ ¬ extension ∈ allowedLanguageExtensions) then
      false
    else true

/-! ## main_logic.go: filters -/

/-- The normal form in which `buildExtensionFilter` and `buildLanguageFilter`
store a trimmed, non-empty extension: a leading dot, lower case. -/
def normalizeExtension (lower : Char → Char) (ext : String) : String :=
  let ext := if ¬ Strings.HasPrefix ext "." then "." ++ ext else ext
  Strings.ToLower lower ext

/-- The function `buildExtensionFilter` (it never fails). -/
def buildExtensionFilter (lower : Char → Char) (extensions : List String) :
    Except String (Finset String) :=
  .ok (extensions.foldl (fun allowed ext =>
    let ext := Strings.TrimSpace ext
    if ext = "" then allowed else insert (normalizeExtension lower ext) allowed) ∅)

/-- The first loop of `buildLanguageFilter`: the requested names in lower
case and the trimmed, non-empty names as given. -/
def requestedLanguages (lower : Char → Char) (languages : List String) :
    Finset String × List String :=
  languages.foldl (fun acc lang =>
    let lang := Strings.TrimSpace lang
    if lang = "" then acc
    else (insert (Strings.ToLower lower lang) acc.1, acc.2 ++ [lang])) (∅, [])

/-- The second loop of `buildLanguageFilter`: the names found in the table,
the flag `useFilter` and the allow-set. -/
def scanDefinitions (lower : Char → Char) (requested : Finset String)
    (definitions : List LanguageDefinition) : Finset String × Bool × Finset String :=
  definitions.foldl (fun acc definition =>
    let nameLower := Strings.ToLower lower (Strings.TrimSpace definition.Name)
    if ¬ nameLower ∈ requested then acc
    else
      (insert nameLower acc.1, true,
        definition.Extensions.foldl (fun allowed ext =>
          let ext := Strings.TrimSpace ext
          if ext = "" then allowed else insert (normalizeExtension lower ext) allowed) acc.2.2))
    (∅, false, ∅)

/-- The function `buildLanguageFilter`. The parameter `table` is what
`loadLanguageDefinitions` returns. The first component of the result is the
sequence of lines written to `errorOutput`. -/
def buildLanguageFilter (lower : Char → Char) (table : Except String (List LanguageDefinition))
    (languages : List String) : List String × Except String (Finset String × Bool) :=
  if languages.length = 0 then ([], .ok (∅, false))
  else
    match table with
    | .error err => ([err ++ "\n"], .error err)
    | .ok languageDefinitions =>
      let (requested, originalLanguages) := requestedLanguages lower languages
      let (foundLanguages, useFilter, allowed) :=
        scanDefinitions lower requested languageDefinitions
      let warnings := (originalLanguages.filter (fun original =>
        ¬ Strings.ToLower lower original ∈ foundLanguages)).map
          (fun original => "warning: unknown language " ++ original ++ "\n")
      (warnings, .ok (allowed, useFilter))

/-! ## main_logic.go: aggregation -/

/-- The local variables of `processFileWithContent` that its loop and the
closure `processCurrentBlock` share, with the accumulator map. -/
structure BlameState where
  currentHash : String
  currentAuthor : String
  currentCommitter : String
  currentLines : Int
  authorData : AuthorMap

/-- The closure `processCurrentBlock` of `processFileWithContent`; it changes
the accumulator map only, which is its result. -/
def processCurrentBlock (options : Options) (filePath : String) (st : BlameState) : AuthorMap :=
  if st.currentHash = "" ∨ st.currentLines = 0 then st.authorData
  else
    let name := if options.UseCmtr then st.currentCommitter else st.currentAuthor
    if name = "" then st.authorData
    else
      let data := match mapGet st.authorData name with
        | some data => data
        | none => { name := name, lines := 0, commits := ∅, files := ∅ }
      mapSet st.authorData name
        { data with
          lines := data.lines + st.currentLines
          commits := insert st.currentHash data.commits
          files := insert filePath data.files }

/-- One turn of the loop of `processFileWithContent` over the lines of the
blame output. -/
def processLine (options : Options) (filePath : String) (st : BlameState) (line : String) :
    BlameState :=
  if line.utf8ByteSize = 0 then st
  else if line.data.head? = some '\t' then { st with currentLines := st.currentLines + 1 }
  else
    let parts := Strings.SplitN line ' ' 4
    if parts.length ≥ 3 ∧ isHash (parts.headD "") = true then
      { currentHash := parts.headD ""
        currentAuthor := ""
        currentCommitter := ""
        currentLines := 0
        authorData :=
          if st.currentHash ≠ "" then processCurrentBlock options filePath st
          else st.authorData }
    else
      let parts := Strings.SplitN line ' ' 2
      let key := parts.headD ""
      let value := if parts.length > 1 then parts.getD 1 "" else ""
      if key = "author" then { st with currentAuthor := value }
      else if key = "committer" then { st with currentCommitter := value }
      else st

/-- The body of `processFileWithContent` after the blame output is read:
the loop over its lines and the final flush. -/
def foldBlame (authorData : AuthorMap) (options : Options) (filePath : String)
    (output : String) : AuthorMap :=
  let st := (Strings.Split output '\n').foldl (processLine options filePath)
    { currentHash := "", currentAuthor := "", currentCommitter := "", currentLines := 0,
      authorData := authorData }
  if st.currentHash ≠ "" then processCurrentBlock options filePath st else st.authorData

/-- The function `processFileWithContent`. -/
def processFileWithContent (git : Git) (authorData : AuthorMap) (options : Options)
    (filePath : String) : Except String AuthorMap :=
  match getBlameOutput git options.Repo options.Rev filePath with
  | .error err => .error err
  | .ok output => .ok (foldBlame authorData options filePath output)

/-- The body of `processEmptyFile` after the history entry is read. -/
def foldEmptyFile (authorData : AuthorMap) (options : Options) (filePath : String)
    (hash author committer : String) : AuthorMap :=
  if hash = "" then authorData
  else
    let name := if options.UseCmtr then committer else author
    if name = "" then authorData
    else
      let data := match mapGet authorData name with
        | some data => data
        | none => { name := name, lines := 0, commits := ∅, files := ∅ }
      mapSet authorData name
        { data with commits := insert hash data.commits, files := insert filePath data.files }

/-- The function `processEmptyFile`. -/
def processEmptyFile (git : Git) (authorData : AuthorMap) (options : Options)
    (filePath : String) : Except String AuthorMap :=
  match getEmptyFileCommitInfo git options.Repo options.Rev filePath with
  | .error err => .error err
  | .ok (hash, author, committer) =>
    .ok (foldEmptyFile authorData options filePath hash author committer)

/-- The loop of `processFiles`, from the accumulator map built so far. The
first component of the result is the sequence of lines written to
`errorOutput`. -/
def processFilesLoop (git : Git) (lower : Char → Char) (pathMatch : String → String → Bool)
    (options : Options) (allowedExtensions allowedLanguageExtensions : Finset String)
    (useLanguageFilter : Bool) : List String → AuthorMap → List String × Except String AuthorMap
  | [], authorData => ([], .ok authorData)
  | file :: files, authorData =>
    if ¬ shouldProcessFile lower pathMatch file allowedExtensions allowedLanguageExtensions
        useLanguageFilter options.Rests options.Excls then
      processFilesLoop git lower pathMatch options allowedExtensions allowedLanguageExtensions
        useLanguageFilter files authorData
    else
      match getFileContent git options.Repo options.Rev file with
      | .error err => ([err ++ "\n"], .error err)
      | .ok content =>
        if content.utf8ByteSize = 0 then
          match processEmptyFile git authorData options file with
          | .error err => ([err ++ "\n"], .error err)
          | .ok authorData =>
            processFilesLoop git lower pathMatch options allowedExtensions
              allowedLanguageExtensions useLanguageFilter files authorData
        else
          match processFileWithContent git authorData options file with
          | .error err => ([err ++ "\n"], .error err)
          | .ok authorData =>
            processFilesLoop git lower pathMatch options allowedExtensions
              allowedLanguageExtensions useLanguageFilter files authorData

/-- The function `processFiles`. -/
def processFiles (git : Git) (lower : Char → Char) (pathMatch : String → String → Bool)
    (files : List String) (options : Options)
    (allowedExtensions allowedLanguageExtensions : Finset String) (useLanguageFilter : Bool) :
    List String × Except String AuthorMap :=
  processFilesLoop git lower pathMatch options allowedExtensions allowedLanguageExtensions
    useLanguageFilter files []

/-- The function `calculateResults`, in the order of the association list;
Go iterates the map in an unspecified order, so the slice it returns is some
permutation of this list. -/
def calculateResults (authorData : AuthorMap) : List AuthorStats :=
  authorData.map (fun entry =>
    { Name := entry.2.name
      Lines := entry.2.lines
      Commits := entry.2.commits.card
      Files := entry.2.files.card })


/-! ## main_logic.go: ranking -/

/-- The comparison closure that `sortResults` passes to `sort.Slice`, on the
two elements `a = results[i]` and `b = results[j]`. -/
def sortLess (order : String) (a b : AuthorStats) : Bool :=
  if order = "lines" then
    if a.Lines ≠ b.Lines then decide (a.Lines > b.Lines)
    else if a.Commits ≠ b.Commits then decide (a.Commits > b.Commits)
    else if a.Files ≠ b.Files then decide (a.Files > b.Files)
    else decide (a.Name < b.Name)
  else if order = "commits" then
    if a.Commits ≠ b.Commits then decide (a.Commits > b.Commits)
    else if a.Lines ≠ b.Lines then decide (a.Lines > b.Lines)
    else if a.Files ≠ b.Files then decide (a.Files > b.Files)
    else decide (a.Name < b.Name)
  else if order = "files" then
    if a.Files ≠ b.Files then decide (a.Files > b.Files)
    else if a.Lines ≠ b.Lines then decide (a.Lines > b.Lines)
    else if a.Commits ≠ b.Commits then decide (a.Commits > b.Commits)
    else decide (a.Name < b.Name)
  else decide (a.Name < b.Name)

/-- The function `sortResults`. -/
def sortResults (results : List AuthorStats) (order : String) : List AuthorStats :=
  sortSlice (sortLess order) results

/-- The ranking of the specification, in its words: `a` may stand before `b`
when the keys `k1`, `k2`, `k3` (in this order) are descending and, when all
three tie, the names are ascending. -/
def descThenName (k1 k2 k3 : AuthorStats → Int) (a b : AuthorStats) : Prop :=
  k1 a > k1 b ∨ (k1 a = k1 b ∧ (k2 a > k2 b ∨ (k2 a = k2 b ∧
    (k3 a > k3 b ∨ (k3 a = k3 b ∧ a.Name ≤ b.Name)))))

/-- The ranking of the specification for an order key: lines, then commits,
then files; commits, then lines, then files; files, then lines, then commits. -/
def rankedBefore (order : String) (a b : AuthorStats) : Prop :=
  (order = "lines" ∧ descThenName AuthorStats.Lines AuthorStats.Commits AuthorStats.Files a b) ∨
  (order = "commits" ∧ descThenName AuthorStats.Commits AuthorStats.Lines AuthorStats.Files a b) ∨
  (order = "files" ∧ descThenName AuthorStats.Files AuthorStats.Lines AuthorStats.Commits a b)

/-- The comparison of `sortResults` for three keys in a row. -/
def lessBy (k1 k2 k3 : AuthorStats → Int) (a b : AuthorStats) : Bool :=
  if k1 a ≠ k1 b then decide (k1 a > k1 b)
  else if k2 a ≠ k2 b then decide (k2 a > k2 b)
  else if k3 a ≠ k3 b then decide (k3 a > k3 b)
  else decide (a.Name < b.Name)

/-! ## Auxiliary definitions for the statements about aggregation -/

/-- What one flush adds to the accumulator of `name`: `lines` lines, the
commit `hash` and the file `filePath`. -/
structure Contribution where
  name : String
  lines : Int
  hash : String
  filePath : String
  deriving DecidableEq, Repr

/-- The accumulator that `processCurrentBlock` and `processEmptyFile` create
for an identity seen for the first time. -/
def freshData (name : String) : AuthorData :=
  { name := name, lines := 0, commits := ∅, files := ∅ }

/-- The accumulator `data` after a contribution. -/
def bump (data : AuthorData) (c : Contribution) : AuthorData :=
  { data with
    lines := data.lines + c.lines
    commits := insert c.hash data.commits
    files := insert c.filePath data.files }

/-- The accumulator map after a contribution to `c.name`. -/
def contribute (m : AuthorMap) (c : Contribution) : AuthorMap :=
  mapSet m c.name (bump ((mapGet m c.name).getD (freshData c.name)) c)

/-- The same update on the lookup function of a map. -/
def contributeFn (f : String → Option AuthorData) (c : Contribution) :
    String → Option AuthorData :=
  fun k => if c.name = k then some (bump ((f c.name).getD (freshData c.name)) c) else f k

/-- The block of the blame output that the parser has open: the values of
`currentHash`, `currentAuthor`, `currentCommitter` and `currentLines`. -/
structure Block where
  hash : String
  author : String
  committer : String
  lines : Int
  deriving DecidableEq, Repr

/-- The open block of a parser state. -/
def BlameState.block (st : BlameState) : Block :=
  { hash := st.currentHash, author := st.currentAuthor, committer := st.currentCommitter,
    lines := st.currentLines }

/-- The identity a block is attributed to: the committer when `UseCmtr` is
set, else the author. -/
def Block.identity (options : Options) (b : Block) : String :=
  if options.UseCmtr then b.committer else b.author

/-- A flushed block contributes when it has a hash, at least one content line
and a non-empty identity. -/
def Block.contributions (options : Options) (filePath : String) (b : Block) :
    List Contribution :=
  if b.hash = "" ∨ b.lines = 0 ∨ b.identity options = "" then []
  else [{ name := b.identity options, lines := b.lines, hash := b.hash, filePath := filePath }]

/-- A content line: a line that begins with a tab. -/
def isContentLine (line : String) : Bool :=
  line.data.head? = some '\t'

/-- The condition under which the loop of `processFileWithContent` takes its
header branch for a line. -/
def isHeaderLine (line : String) : Bool :=
  decide (line.utf8ByteSize ≠ 0) && !isContentLine line &&
    (decide ((Strings.SplitN line ' ' 4).length ≥ 3) &&
      isHash ((Strings.SplitN line ' ' 4).headD ""))

/-- The open block after one more line of the blame output. -/
def stepBlock (b : Block) (line : String) : Block :=
  if line.utf8ByteSize = 0 then b
  else if isContentLine line then { b with lines := b.lines + 1 }
  else if isHeaderLine line then
    { hash := (Strings.SplitN line ' ' 4).headD "", author := "", committer := "", lines := 0 }
  else
    let parts := Strings.SplitN line ' ' 2
    let value := if parts.length > 1 then parts.getD 1 "" else ""
    if parts.headD "" = "author" then { b with author := value }
    else if parts.headD "" = "committer" then { b with committer := value }
    else b

/-- The blocks that the parser flushes on the given lines, in order, when it
starts with the open block `b`: at every header line and at the end of the
input the open block is flushed if it has a hash. -/
def blocksFrom (b : Block) : List String → List Block
  | [] => if b.hash ≠ "" then [b] else []
  | line :: rest =>
    (if isHeaderLine line = true ∧ b.hash ≠ "" then [b] else []) ++
      blocksFrom (stepBlock b line) rest

/-- The blocks of a blame output: the attribution records of the
specification. -/
def blameBlocks (output : String) : List Block :=
  blocksFrom { hash := "", author := "", committer := "", lines := 0 }
    (Strings.Split output '\n')

/-- The number of content lines of a blame output. -/
def contentLines (output : String) : Nat :=
  (Strings.Split output '\n').countP isContentLine

/-- The number of content lines before the first header line. -/
def orphanLinesOf (lines : List String) : Nat :=
  (lines.takeWhile (fun line => !isHeaderLine line)).countP isContentLine

/-- The number of content lines of a blame output before its first header
line. -/
def orphanLines (output : String) : Nat :=
  orphanLinesOf (Strings.Split output '\n')

/-- The sum of the `Lines` of a sequence of statistics. -/
def totalLines (results : List AuthorStats) : Int :=
  (results.map AuthorStats.Lines).sum

/-- A file as `processFiles` folds it: the blame output of a file with
content, or the history entry of an empty file. -/
inductive FileInput where
  | blame (filePath output : String)
  | emptyFile (filePath hash author committer : String)
  deriving DecidableEq, Repr

/-- The accumulator map after a file is folded into it. -/
def foldFile (options : Options) (authorData : AuthorMap) : FileInput → AuthorMap
  | .blame filePath output => foldBlame authorData options filePath output
  | .emptyFile filePath hash author committer =>
    foldEmptyFile authorData options filePath hash author committer

/-- The contributions of a file, in the order in which they are made. -/
def FileInput.contributions (options : Options) : FileInput → List Contribution
  | .blame filePath output =>
    (blameBlocks output).flatMap (Block.contributions options filePath)
  | .emptyFile filePath hash author committer =>
    if hash = "" ∨ (if options.UseCmtr then committer else author) = "" then []
    else [{ name := if options.UseCmtr then committer else author, lines := 0, hash := hash,
            filePath := filePath }]

/-! ## Auxiliary definitions for the statements about header lines -/

/-- A character in `0-9` or `a-f`. -/
def isHexLower (c : Char) : Bool :=
  ('0' ≤ c && c ≤ '9') || ('a' ≤ c && c ≤ 'f')

/-- The white-space-delimited tokens of a list of characters; `token` holds
the characters of the token being read, last one first. -/
def tokensFrom : List Char → List Char → List String
  | [], token => if token = [] then [] else [String.mk token.reverse]
  | c :: cs, token =>
    if Strings.isSpace c then
      if token = [] then tokensFrom cs [] else String.mk token.reverse :: tokensFrom cs []
    else tokensFrom cs (c :: token)

/-- The white-space-delimited tokens of a line: the maximal runs of
characters that are not white space. -/
def whitespaceTokens (line : String) : List String :=
  tokensFrom line.data []

/-- The header line of the specification, in its words: the first
white-space-delimited token has exactly 40 characters, all in `0-9` or `a-f`,
and the line has at least 3 white-space-delimited tokens. -/
def specHeaderLine (line : String) : Bool :=
  match whitespaceTokens line with
  | [] => false
  | token :: rest =>
    token.length == 40 && token.data.all isHexLower && decide ((token :: rest).length ≥ 3)

/-- The parser treats a line as a header line: whatever its state, one turn
of the loop on this line flushes the open block, if there is one, and opens a
new block with no author, no committer and no lines, whose hash is the text of
the line before the first space. -/
def treatsAsHeader (line : String) : Prop :=
  ∀ (options : Options) (filePath : String) (st : BlameState),
    processLine options filePath st line =
      { currentHash := (Strings.SplitN line ' ' 4).headD ""
        currentAuthor := ""
        currentCommitter := ""
        currentLines := 0
        authorData :=
          if st.currentHash ≠ "" then processCurrentBlock options filePath st
          else st.authorData }

/-- A line with three tokens between tabs, the first a commit hash. -/
def tabbedHeader : String :=
  "0123456789abcdef0123456789abcdef01234567\t1\t2"

/-! ## Auxiliary definitions for the statements about the path filter -/

/-- The test of one pattern in the loop of `matchesAnyPattern`: the path
glob-matches the pattern when the pattern, trimmed of white space, is not
empty and `filepath.Match` accepts the path for it. -/
def patternMatches (pathMatch : String → String → Bool) (filePath pattern : String) : Bool :=
  decide (Strings.TrimSpace pattern ≠ "") && pathMatch (Strings.TrimSpace pattern) filePath

/-- The patterns of a list that are not made of white space only. -/
def dropBlankPatterns (patterns : List String) : List String :=
  patterns.filter (fun pattern => decide (Strings.TrimSpace pattern ≠ ""))

/-! ## Sample inputs -/

/-- A repository in which every history lookup returns the entry of commit
`hash3`, written by Carol and committed by Dave. -/
def carolGit : Git :=
  { lsTree := fun _ _ => .ok "empty.txt\n"
    catFile := fun _ _ _ => .ok ""
    log := fun _ _ _ => .ok "hash3\x00Carol\x00Dave\n"
    blame := fun _ _ _ => .ok "" }

/-- The options of a run with the defaults of the command line. -/
def defaultOptions : Options :=
  { Repo := ".", Rev := "HEAD", Order := "lines", UseCmtr := false, Format := "tabular",
    Exts := [], Langs := [], Excls := [], Rests := [] }

/-- A blame output whose first content line comes before any header line:
one orphan line, then a block of commit `0123…4567` by Alice with one line. -/
def orphanBlame : String :=
  "\tfirst\n0123456789abcdef0123456789abcdef01234567 1 1 1\nauthor Alice\n\tsecond\n"

/-! ## Auxiliary definitions for the invariants of the accumulator map -/

/-- An entry of the accumulator map as the folds leave it: a non-empty key
that is the name of the accumulator, at least one commit and one file, and a
line total that is not negative. -/
def validEntry (entry : String × AuthorData) : Prop :=
  entry.1 ≠ "" ∧ entry.2.name = entry.1 ∧ entry.2.commits.Nonempty ∧ entry.2.files.Nonempty ∧
    0 ≤ entry.2.lines

/-- An accumulator map as the folds leave it: no key twice (as in every Go
map) and every entry valid. -/
def validMap (m : AuthorMap) : Prop :=
  (m.map Prod.fst).Nodup ∧ ∀ entry ∈ m, validEntry entry

/-- The accumulator `after` holds all that `before` holds: the same name, at
least as many lines, every commit and every file. -/
def grownFrom (before after : AuthorData) : Prop :=
  after.name = before.name ∧ before.lines ≤ after.lines ∧ before.commits ⊆ after.commits ∧
    before.files ⊆ after.files

/-- An accumulator of Alice: four lines, one commit, one file. -/
def aliceData : AuthorData :=
  { name := "Alice", lines := 4, commits := {"c0ffee"}, files := {"main.go"} }

/-! ## Auxiliary definitions for the statements about metadata lines -/

/-- A metadata line: a line that is not blank, not a content line and not a
header line. -/
def isMetadataLine (line : String) : Bool :=
  decide (line.utf8ByteSize ≠ 0) && !isContentLine line && !isHeaderLine line

/-- The key of a metadata line: the text before its first space. -/
def lineKey (line : String) : String :=
  (Strings.SplitN line ' ' 2).headD ""

/-- The value of a metadata line: the text after its first space, if any. -/
def lineValue (line : String) : String :=
  if (Strings.SplitN line ' ' 2).length > 1 then (Strings.SplitN line ' ' 2).getD 1 "" else ""

/-- Two lines that are equal, or are both metadata lines with the key `key`
(and any values). -/
def sameUpTo (key : String) (line1 line2 : String) : Prop :=
  line1 = line2 ∨
    (isMetadataLine line1 = true ∧ isMetadataLine line2 = true ∧ lineKey line1 = key ∧
      lineKey line2 = key)

/-- A metadata line whose key is neither `author` nor `committer`. -/
def isOtherKeyLine (line : String) : Bool :=
  isMetadataLine line && decide (lineKey line ≠ "author") && decide (lineKey line ≠ "committer")

/-- Two open blocks with the same hash, the same line count and the same
identity under the policy `useCmtr`. -/
def sameIdentity (useCmtr : Bool) (b1 b2 : Block) : Prop :=
  b1.hash = b2.hash ∧ b1.lines = b2.lines ∧
    (if useCmtr then b1.committer = b2.committer else b1.author = b2.author)

/-! ## Auxiliary definitions for the statements about well-formed blame output -/

/-- A block of blame output as text: the hash and the other fields of its
header line, the name of its `author` line, and its content lines (each
without the tab that precedes it). -/
structure SourceBlock where
  hash : String
  fields : String
  author : String
  content : List String
  deriving DecidableEq, Repr

/-- A string that holds no line feed. -/
def noNewline (s : String) : Bool :=
  !s.data.contains '\n'

/-- A well-formed block: the hash has 40 characters in `0-9` or `a-f`, at
least two more space-separated fields follow it on the header line, the name
of the author is not empty, there is at least one content line, and no part
holds a line feed. -/
def SourceBlock.wellFormed (b : SourceBlock) : Bool :=
  isHash b.hash && b.fields.data.contains ' ' && noNewline b.fields &&
    decide (b.author ≠ "") && noNewline b.author &&
    decide (b.content ≠ []) && b.content.all noNewline

/-- The lines of a block: the header line, the `author` line and the content
lines, each after a tab. -/
def SourceBlock.lines (b : SourceBlock) : List String :=
  (b.hash ++ " " ++ b.fields) :: ("author " ++ b.author) ::
    b.content.map (fun content => "\t" ++ content)

/-- The blame output made of the given blocks, every line ended by a line
feed. -/
def blameText (blocks : List SourceBlock) : String :=
  String.mk ((blocks.flatMap SourceBlock.lines).flatMap (fun line => line.data ++ ['\n']))

/-- The blocks of the given author. -/
def blocksOf (blocks : List SourceBlock) (author : String) : List SourceBlock :=
  blocks.filter (fun b => decide (b.author = author))

/-- The two blocks of the scenario: commit `hash1` by Alice with three
content lines, commit `hash2` by Bob with two. -/
def aliceBobBlocks : List SourceBlock :=
  [{ hash := "1111111111111111111111111111111111111111", fields := "1 1 3", author := "Alice",
     content := ["a", "b", "c"] },
   { hash := "2222222222222222222222222222222222222222", fields := "4 4 2", author := "Bob",
     content := ["d", "e"] }]

/-- The block that the parser has open after the lines of a well-formed
block: its hash, its author, no committer, and the number of its content
lines. -/
def SourceBlock.block (b : SourceBlock) : Block :=
  { hash := b.hash, author := b.author, committer := "", lines := b.content.length }

/-! ## output_formatters.go

The writer `output` is a buffer that never fails: the result of a formatter
is the text it writes and the error it returns. -/

/-- The decimal digit of a number below ten. -/
def digitChar (d : Nat) : Char :=
  Char.ofNat (48 + d)

/-- The decimal digits of `n`, the least significant first; `fuel` bounds
their number and `n + 1` is always enough. -/
def digitsRev : Nat → Nat → List Char
  | 0, _ => []
  | fuel + 1, n => if n < 10 then [digitChar n] else digitChar (n % 10) :: digitsRev fuel (n / 10)

/-- The function `strconv.Itoa`, which is also how `%d` and `encoding/json`
write an `int`: the decimal digits, after a minus sign for a negative number. -/
def Itoa (n : Int) : String :=
  match n with
  | Int.ofNat k => String.mk (digitsRev (k + 1) k).reverse
  | Int.negSucc k => String.mk ('-' :: (digitsRev (k + 2) (k + 1)).reverse)

/-- A Go string as `encoding/json` reads it: a sequence of characters, and of
single bytes that are not part of any valid UTF-8 sequence. -/
inductive GoRune where
  | rune (c : Char)
  | invalid (byte : Nat)
  deriving DecidableEq, Repr

/-- A Go string that need not be valid UTF-8. -/
abbrev RawString : Type := List GoRune

/-- A valid UTF-8 string as a Go string. -/
def RawString.ofString (s : String) : RawString :=
  s.data.map GoRune.rune

/-- The struct `JSONAuthor` (and `AuthorStats`, which has the same fields),
with a name that need not be valid UTF-8. -/
structure JSONAuthor where
  Name : RawString
  Lines : Int
  Commits : Int
  Files : Int
  deriving DecidableEq, Repr

/-- The conversion `JSONAuthor(result)`. -/
def JSONAuthor.ofStats (result : AuthorStats) : JSONAuthor :=
  { Name := RawString.ofString result.Name, Lines := result.Lines, Commits := result.Commits,
    Files := result.Files }

/-- The hexadecimal digit of a number below sixteen, in lower case. -/
def hexDigitChar (d : Nat) : Char :=
  if d < 10 then Char.ofNat (48 + d) else Char.ofNat (87 + d)

/-- How `encoding/json` writes one character of a string: the quote and the
backslash after a backslash; backspace, form feed, line feed, carriage return
and tab as a backslash and `b`, `f`, `n`, `r`, `t`; the other control
characters below U+0020 and `<`, `>`, `&` as a backslash, `u00` and two
hexadecimal digits; U+2028 and U+2029 as a backslash and `u2028`, `u2029`; a
byte that is not valid UTF-8 as a backslash and `ufffd`, the escape of the
replacement character U+FFFD; any other character as it is. (Before Go 1.22
backspace and form feed are written `u0008` and `u000c` after the backslash,
which a JSON parser reads as the same characters.) -/
def escapeRune : GoRune → List Char
  | GoRune.invalid _ => ['\x5c', 'u', 'f', 'f', 'f', 'd']
  | GoRune.rune c =>
    if c = '\x22' ∨ c = '\x5c' then ['\x5c', c]
    else if c = '\x08' then ['\x5c', 'b']
    else if c = '\x0c' then ['\x5c', 'f']
    else if c = '\n' then ['\x5c', 'n']
    else if c = '\r' then ['\x5c', 'r']
    else if c = '\t' then ['\x5c', 't']
    else if c.toNat < 32 ∨ c = '<' ∨ c = '>' ∨ c = '&' then
      ['\x5c', 'u', '0', '0', hexDigitChar (c.toNat / 16), hexDigitChar (c.toNat % 16)]
    else if c = Char.ofNat 0x2028 then ['\x5c', 'u', '2', '0', '2', '8']
    else if c = Char.ofNat 0x2029 then ['\x5c', 'u', '2', '0', '2', '9']
    else [c]

/-- How `encoding/json` writes a string: between quotes, every character
escaped as needed. -/
def jsonString (s : RawString) : List Char :=
  '\x22' :: (s.flatMap escapeRune ++ ['\x22'])

/-- The value `json.Marshal(jsonAuthor)`: an object with the keys `name`,
`lines`, `commits`, `files`. -/
def marshalAuthor (author : JSONAuthor) : List Char :=
  "\x7b\"name\":".data ++ jsonString author.Name ++ ",\"lines\":".data ++
    (Itoa author.Lines).data ++ ",\"commits\":".data ++ (Itoa author.Commits).data ++
    ",\"files\":".data ++ (Itoa author.Files).data ++ ['\x7d']

/-- The elements of a JSON array after the first, each after a comma. -/
def marshalRest : List JSONAuthor → List Char
  | [] => []
  | author :: rest => ',' :: (marshalAuthor author ++ marshalRest rest)

/-- The value `json.Marshal(jsonAuthors)` for a slice that is not nil: an
array of objects. -/
def marshalAuthors : List JSONAuthor → List Char
  | [] => ['[', ']']
  | author :: rest => '[' :: (marshalAuthor author ++ marshalRest rest ++ [']'])

/-- The row of a contributor as `formatTabularOutput` prints it to the
tabwriter. -/
def tabularRow (result : AuthorStats) : String :=
  result.Name ++ "\t" ++ Itoa result.Lines ++ "\t" ++ Itoa result.Commits ++ "\t" ++
    Itoa result.Files ++ "\n"

/-- The function `formatTabularOutput`. The parameter `tabwriter` is the
filter of `text/tabwriter` with the settings of the call
(`NewWriter(output, 0, 0, 1, ' ', 0)`): the text it writes on `Flush` for the
text printed to it. -/
def formatTabularOutput (tabwriter : String → String) (results : List AuthorStats) :
    String × Option String :=
  (tabwriter ("Name\tLines\tCommits\tFiles\n" ++ String.join (results.map tabularRow)), none)

/-- The function `formatCSVOutput`. The parameter `csvRecord` is the text
that `csv.Writer.Write` writes for one record. -/
def formatCSVOutput (csvRecord : List String → String) (results : List AuthorStats) :
    String × Option String :=
  (csvRecord ["Name", "Lines", "Commits", "Files"] ++
    String.join (results.map (fun result =>
      csvRecord [result.Name, Itoa result.Lines, Itoa result.Commits, Itoa result.Files])),
    none)

/-- The function `formatJSONOutput` for statistics whose names need not be
valid UTF-8: the array, then a line feed. -/
def formatJSONOutputRaw (jsonAuthors : List JSONAuthor) : String × Option String :=
  (String.mk (marshalAuthors jsonAuthors ++ ['\n']), none)

/-- The function `formatJSONOutput`. -/
def formatJSONOutput (results : List AuthorStats) : String × Option String :=
  formatJSONOutputRaw (results.map JSONAuthor.ofStats)

/-- The function `formatJSONLinesOutput`. -/
def formatJSONLinesOutput (results : List AuthorStats) : String × Option String :=
  (String.join (results.map (fun result =>
    String.mk (marshalAuthor (JSONAuthor.ofStats result) ++ ['\n']))), none)

/-! ## main_logic.go: the run -/

/-- The function `formatOutput`. -/
def formatOutput (tabwriter : String → String) (csvRecord : List String → String)
    (results : List AuthorStats) (format : String) : String × Option String :=
  if format = "tabular" then formatTabularOutput tabwriter results
  else if format = "csv" then formatCSVOutput csvRecord results
  else if format = "json" then formatJSONOutput results
  else if format = "json-lines" then formatJSONLinesOutput results
  else ("", some ("unsupported format: " ++ format))

/-- The function `validateOptions`: the error it returns, `none` for nil. -/
def validateOptions (options : Options) : Option String :=
  if options.Order ≠ "lines" ∧ options.Order ≠ "commits" ∧ options.Order ≠ "files" then
    some "invalid value for --order-by"
  else if options.Format ≠ "tabular" ∧ options.Format ≠ "csv" ∧ options.Format ≠ "json" ∧
      options.Format ≠ "json-lines" then
    some "invalid value for --format"
  else none

/-- What a run leaves: the text written to `output`, the lines written to
`errorOutput`, and the error returned (`none` for nil). -/
structure RunResult where
  output : String
  errorOutput : List String
  err : Option String
  deriving DecidableEq, Repr

/-- The function `Run`. -/
def Run (git : Git) (lower : Char → Char) (pathMatch : String → String → Bool)
    (tabwriter : String → String) (csvRecord : List String → String)
    (table : Except String (List LanguageDefinition)) (options : Options) : RunResult :=
  match validateOptions options with
  | some err => { output := "", errorOutput := [err ++ "\n"], err := some err }
  | none =>
    match buildExtensionFilter lower options.Exts with
    | .error err => { output := "", errorOutput := [], err := some err }
    | .ok allowedExtensions =>
      match buildLanguageFilter lower table options.Langs with
      | (warnings, .error err) => { output := "", errorOutput := warnings, err := some err }
      | (warnings, .ok (allowedLanguageExtensions, useLanguageFilter)) =>
        match getRepositoryFiles git options.Repo options.Rev with
        | .error err =>
          { output := "", errorOutput := warnings ++ [err ++ "\n"], err := some err }
        | .ok files =>
          match processFiles git lower pathMatch files options allowedExtensions
              allowedLanguageExtensions useLanguageFilter with
          | (written, .error err) =>
            { output := "", errorOutput := warnings ++ written, err := some err }
          | (written, .ok authorData) =>
            let results := sortResults (calculateResults authorData) options.Order
            { output := (formatOutput tabwriter csvRecord results options.Format).1
              errorOutput := warnings ++ written
              err := (formatOutput tabwriter csvRecord results options.Format).2 }

/-! ## Auxiliary definitions for the statements about letter case -/

/-- What the statements about letter case use of the character mapping
`unicode.ToLower`: it keeps the dot, maps no other character to the dot, and
maps a character that is already in lower case to itself. -/
structure LowerLaws (lower : Char → Char) : Prop where
  dot : lower '.' = '.'
  dot_only : ∀ c, lower c = '.' → c = '.'
  idem : ∀ c, lower (lower c) = lower c

/-- Two entries of an extension list that name the same extension: both are
blank, or neither is and, trimmed and in lower case, they are equal or one is
the other after a leading dot that the other does not have. -/
def sameExtension (lower : Char → Char) (e1 e2 : String) : Prop :=
  (Strings.TrimSpace e1 = "" ∧ Strings.TrimSpace e2 = "") ∨
    (Strings.TrimSpace e1 ≠ "" ∧ Strings.TrimSpace e2 ≠ "" ∧
      (Strings.ToLower lower (Strings.TrimSpace e1) =
          Strings.ToLower lower (Strings.TrimSpace e2) ∨
        (Strings.HasPrefix (Strings.TrimSpace e1) "." = false ∧
          "." ++ Strings.ToLower lower (Strings.TrimSpace e1) =
            Strings.ToLower lower (Strings.TrimSpace e2)) ∨
        (Strings.HasPrefix (Strings.TrimSpace e2) "." = false ∧
          "." ++ Strings.ToLower lower (Strings.TrimSpace e2) =
            Strings.ToLower lower (Strings.TrimSpace e1))))

/-- The stored form of an extension entry as the specification words it: the
entry in lower case, after a dot if it does not start with one. -/
def dottedLower (lower : Char → Char) (ext : String) : String :=
  if Strings.HasPrefix ext "." then Strings.ToLower lower ext
  else "." ++ Strings.ToLower lower ext

/-! ## A JSON reader, to read back what the presenter writes -/

/-- A JSON value; a number is an integer. -/
inductive Json where
  | null
  | bool (b : Bool)
  | num (n : Int)
  | str (s : String)
  | arr (items : List Json)
  | obj (members : List (String × Json))
  deriving Repr

/-- The white space of JSON: space, tab, line feed, carriage return. -/
def isJsonSpace (c : Char) : Bool :=
  c = ' ' || c = '\t' || c = '\n' || c = '\r'

/-- The input after its leading white space. -/
def skipSpace (cs : List Char) : List Char :=
  cs.dropWhile isJsonSpace

/-- The value of a hexadecimal digit. -/
def hexValue (c : Char) : Option Nat :=
  if '0' ≤ c ∧ c ≤ '9' then some (c.toNat - 48)
  else if 'a' ≤ c ∧ c ≤ 'f' then some (c.toNat - 87)
  else if 'A' ≤ c ∧ c ≤ 'F' then some (c.toNat - 55)
  else none

/-- The number that four hexadecimal digits write. -/
def hexValue4 (a b c d : Char) : Option Nat :=
  match hexValue a, hexValue b, hexValue c, hexValue d with
  | some x, some y, some z, some w => some (((x * 16 + y) * 16 + z) * 16 + w)
  | _, _, _, _ => none

/-- The character of a `\u` escape, and of a pair of them that is a surrogate
pair; a surrogate without its partner reads as U+FFFD. The result holds the
input that follows the escape. -/
def readUnicodeEscape (n : Nat) (rest : List Char) : Char × List Char :=
  if 0xD800 ≤ n ∧ n ≤ 0xDBFF then
    match rest with
    | '\x5c' :: 'u' :: a :: b :: c :: d :: rest2 =>
      match hexValue4 a b c d with
      | some m =>
        if 0xDC00 ≤ m ∧ m ≤ 0xDFFF then
          (Char.ofNat (0x10000 + (n - 0xD800) * 0x400 + (m - 0xDC00)), rest2)
        else (Char.ofNat 0xFFFD, rest)
      | none => (Char.ofNat 0xFFFD, rest)
    | _ => (Char.ofNat 0xFFFD, rest)
  else if 0xDC00 ≤ n ∧ n ≤ 0xDFFF then (Char.ofNat 0xFFFD, rest)
  else (Char.ofNat n, rest)

/-- The characters of a JSON string, read from after its opening quote to
its closing quote, and the input that follows; `fuel` bounds the number of
characters and escapes read. -/
def readString : Nat → List Char → Option (List Char × List Char)
  | 0, _ => none
  | _ + 1, [] => none
  | fuel + 1, c :: cs =>
    if c = '\x22' then some ([], cs)
    else if c = '\x5c' then
      match cs with
      | [] => none
      | e :: rest =>
        if e = 'u' then
          match rest with
          | a :: b :: c :: d :: rest2 =>
            match hexValue4 a b c d with
            | some n =>
              match readString fuel (readUnicodeEscape n rest2).2 with
              | some (s, r) => some ((readUnicodeEscape n rest2).1 :: s, r)
              | none => none
            | none => none
          | _ => none
        else
          match (if e = '\x22' then some '\x22' else if e = '\x5c' then some '\x5c'
            else if e = '/' then some '/' else if e = 'b' then some '\x08'
            else if e = 'f' then some '\x0c' else if e = 'n' then some '\n'
            else if e = 'r' then some '\r' else if e = 't' then some '\t' else none) with
          | some ch =>
            match readString fuel rest with
            | some (s, r) => some (ch :: s, r)
            | none => none
          | none => none
    else if c.toNat < 32 then none
    else
      match readString fuel cs with
      | some (s, r) => some (c :: s, r)
      | none => none

/-- The value of a run of decimal digits. -/
def digitsValue (digits : List Char) : Nat :=
  digits.foldl (fun n c => n * 10 + (c.toNat - 48)) 0

/-- An integer: an optional minus sign and one or more decimal digits, not
followed by a fraction or an exponent. -/
def readInt (cs : List Char) : Option (Int × List Char) :=
  let negative := cs.head? = some '-'
  let body := if negative then cs.drop 1 else cs
  let digits := body.takeWhile Char.isDigit
  let rest := body.dropWhile Char.isDigit
  if digits = [] then none
  else if rest.head? = some '.' ∨ rest.head? = some 'e' ∨ rest.head? = some 'E' then none
  else some (if negative then - (digitsValue digits : Int) else (digitsValue digits : Int), rest)

/-- What the reader is reading: a value, the elements of an array after the
ones in `items`, or the members of an object after the ones in `members`. -/
inductive ReadMode where
  | value
  | elements (items : List Json)
  | members (members : List (String × Json))

/-- The JSON reader: the value read (for the modes `elements` and `members`,
the whole array or object) and the input that follows it; `fuel` bounds the
depth of the calls. -/
def readJson : Nat → ReadMode → List Char → Option (Json × List Char)
  | 0, _, _ => none
  | fuel + 1, ReadMode.value, cs =>
    match skipSpace cs with
    | [] => none
    | c :: rest =>
      if c = '\x22' then
        match readString (rest.length + 1) rest with
        | some (s, r) => some (Json.str (String.mk s), r)
        | none => none
      else if c = '[' then
        match skipSpace rest with
        | ']' :: r => some (Json.arr [], r)
        | _ => readJson fuel (ReadMode.elements []) rest
      else if c = '\x7b' then
        match skipSpace rest with
        | '\x7d' :: r => some (Json.obj [], r)
        | _ => readJson fuel (ReadMode.members []) rest
      else if c = 'n' then
        match rest with
        | 'u' :: 'l' :: 'l' :: r => some (Json.null, r)
        | _ => none
      else if c = 't' then
        match rest with
        | 'r' :: 'u' :: 'e' :: r => some (Json.bool true, r)
        | _ => none
      else if c = 'f' then
        match rest with
        | 'a' :: 'l' :: 's' :: 'e' :: r => some (Json.bool false, r)
        | _ => none
      else
        match readInt (c :: rest) with
        | some (n, r) => some (Json.num n, r)
        | none => none
  | fuel + 1, ReadMode.elements items, cs =>
    match readJson fuel ReadMode.value cs with
    | none => none
    | some (v, rest) =>
      match skipSpace rest with
      | ',' :: r => readJson fuel (ReadMode.elements (items ++ [v])) r
      | ']' :: r => some (Json.arr (items ++ [v]), r)
      | _ => none
  | fuel + 1, ReadMode.members members, cs =>
    match skipSpace cs with
    | '\x22' :: rest =>
      match readString (rest.length + 1) rest with
      | none => none
      | some (key, rest2) =>
        match skipSpace rest2 with
        | ':' :: rest3 =>
          match readJson fuel ReadMode.value rest3 with
          | none => none
          | some (v, rest4) =>
            match skipSpace rest4 with
            | ',' :: r => readJson fuel (ReadMode.members (members ++ [(String.mk key, v)])) r
            | '\x7d' :: r => some (Json.obj (members ++ [(String.mk key, v)]), r)
            | _ => none
        | _ => none
    | _ => none

/-- A JSON text read back: one value between optional white space. A call of
the reader reads a character or calls the reader on a value that begins with
one, so twice the length of the text bounds the depth of its calls. -/
def parseJson (text : String) : Option Json :=
  match readJson (2 * text.length + 2) ReadMode.value text.data with
  | some (v, rest) => if skipSpace rest = [] then some v else none
  | none => none

/-- The member of an object with the given key. -/
def jsonMember (members : List (String × Json)) (key : String) : Option Json :=
  match members with
  | [] => none
  | (k, v) :: rest => if k = key then some v else jsonMember rest key

/-- A contributor read from a JSON object with the keys `name`, `lines`,
`commits`, `files`. -/
def decodeAuthor : Json → Option AuthorStats
  | Json.obj members =>
    match jsonMember members "name", jsonMember members "lines",
      jsonMember members "commits", jsonMember members "files" with
    | some (Json.str name), some (Json.num lines), some (Json.num commits),
      some (Json.num files) =>
      some { Name := name, Lines := lines, Commits := commits, Files := files }
    | _, _, _, _ => none
  | _ => none

/-- The contributors read from a JSON array of objects, in its order. -/
def decodeAuthors : Json → Option (List AuthorStats)
  | Json.arr items => items.mapM decodeAuthor
  | _ => none

/-- The JSON object of a contributor. -/
def statsJson (result : AuthorStats) : Json :=
  Json.obj [("name", Json.str result.Name), ("lines", Json.num result.Lines),
    ("commits", Json.num result.Commits), ("files", Json.num result.Files)]

/-! ## Ranking: lemmas -/

theorem sortLess_lines (a b : AuthorStats) :
    sortLess "lines" a b = lessBy AuthorStats.Lines AuthorStats.Commits AuthorStats.Files a b := by
  simp [sortLess, lessBy]

theorem sortLess_commits (a b : AuthorStats) :
    sortLess "commits" a b =
      lessBy AuthorStats.Commits AuthorStats.Lines AuthorStats.Files a b := by
  simp [sortLess, lessBy]

theorem sortLess_files (a b : AuthorStats) :
    sortLess "files" a b = lessBy AuthorStats.Files AuthorStats.Lines AuthorStats.Commits a b := by
  simp [sortLess, lessBy]

theorem lessBy_false_iff (k1 k2 k3 : AuthorStats → Int) (a b : AuthorStats) :
    lessBy k1 k2 k3 b a = false ↔ descThenName k1 k2 k3 a b := by
  unfold lessBy descThenName
  by_cases h1 : k1 b = k1 a
  · by_cases h2 : k2 b = k2 a
    · by_cases h3 : k3 b = k3 a
      · simp [h1, h2, h3]
      · simp [h1, h2, h3]
        omega
    · simp [h1, h2]
      omega
  · simp [h1]
    omega

theorem descThenName_total (k1 k2 k3 : AuthorStats → Int) (a b : AuthorStats) :
    descThenName k1 k2 k3 a b ∨ descThenName k1 k2 k3 b a := by
  unfold descThenName
  rcases lt_trichotomy (k1 a) (k1 b) with h | h | h
  · right; left; exact h
  · rcases lt_trichotomy (k2 a) (k2 b) with h' | h' | h'
    · right; right; exact ⟨h.symm, Or.inl h'⟩
    · rcases lt_trichotomy (k3 a) (k3 b) with h'' | h'' | h''
      · right; right; exact ⟨h.symm, Or.inr ⟨h'.symm, Or.inl h''⟩⟩
      · rcases le_total a.Name b.Name with hn | hn
        · left; right; exact ⟨h, Or.inr ⟨h', Or.inr ⟨h'', hn⟩⟩⟩
        · right; right; exact ⟨h.symm, Or.inr ⟨h'.symm, Or.inr ⟨h''.symm, hn⟩⟩⟩
      · left; right; exact ⟨h, Or.inr ⟨h', Or.inl h''⟩⟩
    · left; right; exact ⟨h, Or.inl h'⟩
  · left; left; exact h

theorem descThenName_trans (k1 k2 k3 : AuthorStats → Int) (a b c : AuthorStats)
    (hab : descThenName k1 k2 k3 a b) (hbc : descThenName k1 k2 k3 b c) :
    descThenName k1 k2 k3 a c := by
  unfold descThenName at *
  rcases hab with h | ⟨h, h2 | ⟨h2, h3 | ⟨h3, hn⟩⟩⟩ <;>
  rcases hbc with g | ⟨g, g2 | ⟨g2, g3 | ⟨g3, gn⟩⟩⟩
  all_goals first
    | (left; omega)
    | (right; refine ⟨by omega, ?_⟩; left; omega)
    | (right; refine ⟨by omega, ?_⟩; right; refine ⟨by omega, ?_⟩; left; omega)
    | (right; refine ⟨by omega, ?_⟩; right; refine ⟨by omega, ?_⟩; right;
       exact ⟨by omega, le_trans hn gn⟩)

theorem sortLess_false_iff (order : String)
    (h : order = "lines" ∨ order = "commits" ∨ order = "files") (a b : AuthorStats) :
    sortLess order b a = false ↔ rankedBefore order a b := by
  rcases h with h | h | h <;> subst h
  · rw [sortLess_lines, lessBy_false_iff]
    simp [rankedBefore]
  · rw [sortLess_commits, lessBy_false_iff]
    simp [rankedBefore]
  · rw [sortLess_files, lessBy_false_iff]
    simp [rankedBefore]

theorem rankedBefore_total (order : String)
    (h : order = "lines" ∨ order = "commits" ∨ order = "files") (a b : AuthorStats) :
    rankedBefore order a b ∨ rankedBefore order b a := by
  rcases h with h | h | h <;> subst h
  · rcases descThenName_total AuthorStats.Lines AuthorStats.Commits AuthorStats.Files a b
      with t | t
    · exact Or.inl (Or.inl ⟨rfl, t⟩)
    · exact Or.inr (Or.inl ⟨rfl, t⟩)
  · rcases descThenName_total AuthorStats.Commits AuthorStats.Lines AuthorStats.Files a b
      with t | t
    · exact Or.inl (Or.inr (Or.inl ⟨rfl, t⟩))
    · exact Or.inr (Or.inr (Or.inl ⟨rfl, t⟩))
  · rcases descThenName_total AuthorStats.Files AuthorStats.Lines AuthorStats.Commits a b
      with t | t
    · exact Or.inl (Or.inr (Or.inr ⟨rfl, t⟩))
    · exact Or.inr (Or.inr (Or.inr ⟨rfl, t⟩))

theorem rankedBefore_trans (order : String) (a b c : AuthorStats)
    (hab : rankedBefore order a b) (hbc : rankedBefore order b c) : rankedBefore order a c := by
  rcases hab with ⟨h, t⟩ | ⟨h, t⟩ | ⟨h, t⟩ <;> subst h
  · rcases hbc with ⟨_, u⟩ | ⟨g, _⟩ | ⟨g, _⟩
    · exact Or.inl ⟨rfl, descThenName_trans _ _ _ a b c t u⟩
    · exact absurd g (by decide)
    · exact absurd g (by decide)
  · rcases hbc with ⟨g, _⟩ | ⟨_, u⟩ | ⟨g, _⟩
    · exact absurd g (by decide)
    · exact Or.inr (Or.inl ⟨rfl, descThenName_trans _ _ _ a b c t u⟩)
    · exact absurd g (by decide)
  · rcases hbc with ⟨g, _⟩ | ⟨g, _⟩ | ⟨_, u⟩
    · exact absurd g (by decide)
    · exact absurd g (by decide)
    · exact Or.inr (Or.inr ⟨rfl, descThenName_trans _ _ _ a b c t u⟩)

/-- The result of `sortResults` is sorted by its comparison: no element is
less than an earlier one. -/
theorem sortResults_sorted (order : String)
    (h : order = "lines" ∨ order = "commits" ∨ order = "files") (results : List AuthorStats) :
    List.Sorted (fun a b => sortLess order b a = false) (sortResults results order) := by
  haveI : IsTotal AuthorStats (fun a b => sortLess order b a = false) :=
    ⟨fun a b => by
      simp only [sortLess_false_iff order h]
      exact rankedBefore_total order h a b⟩
  haveI : IsTrans AuthorStats (fun a b => sortLess order b a = false) :=
    ⟨fun a b c => by
      simp only [sortLess_false_iff order h]
      exact rankedBefore_trans order a b c⟩
  exact List.sorted_insertionSort _ results

theorem descThenName_antisymm (k1 k2 k3 : AuthorStats → Int) (a b : AuthorStats)
    (hab : descThenName k1 k2 k3 a b) (hba : descThenName k1 k2 k3 b a) :
    k1 a = k1 b ∧ k2 a = k2 b ∧ k3 a = k3 b ∧ a.Name = b.Name := by
  unfold descThenName at *
  rcases hab with h | ⟨h, h2 | ⟨h2, h3 | ⟨h3, hn⟩⟩⟩ <;>
  rcases hba with g | ⟨g, g2 | ⟨g2, g3 | ⟨g3, gn⟩⟩⟩
  all_goals first
    | omega
    | exact ⟨h, h2, h3, le_antisymm hn gn⟩

theorem rankedBefore_antisymm (order : String) (a b : AuthorStats)
    (hab : rankedBefore order a b) (hba : rankedBefore order b a) : a = b := by
  obtain ⟨na, la, ca, fa⟩ := a
  obtain ⟨nb, lb, cb, fb⟩ := b
  rcases hab with ⟨h, t⟩ | ⟨h, t⟩ | ⟨h, t⟩ <;> subst h
  · rcases hba with ⟨_, u⟩ | ⟨g, _⟩ | ⟨g, _⟩
    · obtain ⟨e1, e2, e3, e4⟩ := descThenName_antisymm _ _ _ _ _ t u
      simp only at e1 e2 e3 e4
      rw [e1, e2, e3, e4]
    · exact absurd g (by decide)
    · exact absurd g (by decide)
  · rcases hba with ⟨g, _⟩ | ⟨_, u⟩ | ⟨g, _⟩
    · exact absurd g (by decide)
    · obtain ⟨e1, e2, e3, e4⟩ := descThenName_antisymm _ _ _ _ _ t u
      simp only at e1 e2 e3 e4
      rw [e1, e2, e3, e4]
    · exact absurd g (by decide)
  · rcases hba with ⟨g, _⟩ | ⟨g, _⟩ | ⟨_, u⟩
    · exact absurd g (by decide)
    · exact absurd g (by decide)
    · obtain ⟨e1, e2, e3, e4⟩ := descThenName_antisymm _ _ _ _ _ t u
      simp only at e1 e2 e3 e4
      rw [e1, e2, e3, e4]

/-- For the three order keys the sorted arrangement is unique: every
permutation of the input that is sorted by the comparison of `sortResults` is
the list that `sortResults` returns, whatever algorithm `sort.Slice` runs. -/
theorem sortResults_unique (order : String)
    (h : order = "lines" ∨ order = "commits" ∨ order = "files")
    (results sorted : List AuthorStats) (hp : sorted.Perm results)
    (hs : List.Sorted (fun a b => sortLess order b a = false) sorted) :
    sorted = sortResults results order := by
  haveI : IsAntisymm AuthorStats (fun a b => sortLess order b a = false) :=
    ⟨fun a b hab hba => rankedBefore_antisymm order a b
      ((sortLess_false_iff order h a b).mp hab) ((sortLess_false_iff order h b a).mp hba)⟩
  exact List.eq_of_perm_of_sorted (hp.trans (List.perm_insertionSort _ results).symm) hs
    (sortResults_sorted order h results)

/-! ## Ranking: the order of the result -/

/-- C1. For the order keys `lines`, `commits` and `files`, `sortResults`
returns a permutation of its input in which every adjacent pair is ranked as
the specification says: primary key descending, then the fallback chain of
the key descending, then the name ascending. -/
theorem sortResults_perm_ranked (order : String) (results : List AuthorStats)
    (h : order = "lines" ∨ order = "commits" ∨ order = "files") :
    (sortResults results order).Perm results ∧
      List.Chain' (rankedBefore order) (sortResults results order) := by
  refine ⟨List.perm_insertionSort _ results, ?_⟩
  have hs := (sortResults_sorted order h results).chain'
  exact hs.imp (fun a b hab => (sortLess_false_iff order h a b).mp hab)

theorem sortResults_perm_ranked_witness :
    ("commits" = "lines" ∨ "commits" = "commits" ∨ "commits" = "files") ∧
      (sortResults [⟨"bob", 7, 2, 1⟩, ⟨"alice", 7, 2, 1⟩, ⟨"carol", 1, 3, 1⟩] "commits").Perm
        [⟨"bob", 7, 2, 1⟩, ⟨"alice", 7, 2, 1⟩, ⟨"carol", 1, 3, 1⟩] ∧
      List.Chain' (rankedBefore "commits")
        (sortResults [⟨"bob", 7, 2, 1⟩, ⟨"alice", 7, 2, 1⟩, ⟨"carol", 1, 3, 1⟩] "commits") :=
  ⟨by decide, sortResults_perm_ranked "commits" _ (by decide)⟩

/-! ## The accumulator map: lemmas -/

theorem mapGet_mapSet (m : AuthorMap) (name : String) (d : AuthorData) (k : String) :
    mapGet (mapSet m name d) k = if name = k then some d else mapGet m k := by
  induction m with
  | nil => simp [mapSet, mapGet]
  | cons e rest ih =>
    obtain ⟨k0, d0⟩ := e
    by_cases h : k0 = name
    · subst h
      by_cases hk : k0 = k <;> simp [mapSet, mapGet, hk]
    · by_cases hk : k0 = k
      · subst hk
        simp [mapSet, mapGet, h, Ne.symm h]
      · simp [mapSet, mapGet, h, hk, ih]

theorem mapGet_contribute (m : AuthorMap) (c : Contribution) :
    mapGet (contribute m c) = contributeFn (mapGet m) c := by
  funext k
  simp [contribute, contributeFn, mapGet_mapSet]

theorem mapGet_foldl_contribute (cs : List Contribution) (m : AuthorMap) :
    mapGet (cs.foldl contribute m) = cs.foldl contributeFn (mapGet m) := by
  induction cs generalizing m with
  | nil => rfl
  | cons c cs ih => simp [List.foldl_cons, ih, mapGet_contribute]

theorem bump_comm (d : AuthorData) (c1 c2 : Contribution) :
    bump (bump d c1) c2 = bump (bump d c2) c1 := by
  simp only [bump, AuthorData.mk.injEq, true_and]
  exact ⟨by ring, Finset.Insert.comm _ _ _, Finset.Insert.comm _ _ _⟩

theorem bump_name (d : AuthorData) (c : Contribution) : (bump d c).name = d.name := rfl

theorem contributeFn_comm (f : String → Option AuthorData) (c1 c2 : Contribution) :
    contributeFn (contributeFn f c1) c2 = contributeFn (contributeFn f c2) c1 := by
  funext k
  by_cases h12 : c1.name = c2.name
  · by_cases h2 : c2.name = k
    · have h1 : c1.name = k := h12.trans h2
      simp [contributeFn, h12, h2, bump_comm]
    · have h1 : ¬ c1.name = k := fun h => h2 (h12.symm.trans h)
      simp [contributeFn, h1, h2]
  · have h21 : ¬ c2.name = c1.name := fun h => h12 h.symm
    by_cases h1 : c1.name = k
    · have h2 : ¬ c2.name = k := fun h => h12 (h1.trans h.symm)
      simp [contributeFn, h1, h2, h12, h21]
    · by_cases h2 : c2.name = k
      · simp [contributeFn, h1, h2, h12, h21]
      · simp [contributeFn, h1, h2]

theorem foldl_contributeFn_perm {cs1 cs2 : List Contribution} (p : cs1.Perm cs2)
    (f : String → Option AuthorData) : cs1.foldl contributeFn f = cs2.foldl contributeFn f :=
  List.Perm.foldl_eq' p (fun x _ y _ z => contributeFn_comm z x y) f

/-! ## The parser: its flushes are contributions of blocks -/

theorem processCurrentBlock_eq (options : Options) (filePath : String) (st : BlameState) :
    processCurrentBlock options filePath st =
      (st.block.contributions options filePath).foldl contribute st.authorData := by
  unfold processCurrentBlock Block.contributions
  by_cases h1 : st.currentHash = ""
  · simp [h1, BlameState.block]
  · by_cases h2 : st.currentLines = 0
    · simp [h2, BlameState.block]
    · by_cases h3 : (if options.UseCmtr then st.currentCommitter else st.currentAuthor) = ""
      · simp [h1, h2, h3, BlameState.block, Block.identity]
      · simp only [h1, h2, h3, BlameState.block, Block.identity, or_self, if_false,
          List.foldl_cons, List.foldl_nil, contribute, bump]
        cases mapGet st.authorData
          (if options.UseCmtr then st.currentCommitter else st.currentAuthor) <;>
          simp [freshData]

theorem foldEmptyFile_eq (m : AuthorMap) (options : Options)
    (filePath hash author committer : String) :
    foldEmptyFile m options filePath hash author committer =
      ((FileInput.emptyFile filePath hash author committer).contributions options).foldl
        contribute m := by
  unfold foldEmptyFile FileInput.contributions
  by_cases h1 : hash = ""
  · simp [h1]
  · by_cases h3 : (if options.UseCmtr then committer else author) = ""
    · simp [h1, h3]
    · simp only [h1, h3, or_self, if_false, List.foldl_cons, List.foldl_nil, contribute, bump]
      cases mapGet m (if options.UseCmtr then committer else author) <;>
        simp [freshData]

theorem isHeaderLine_iff (line : String) :
    isHeaderLine line = true ↔
      (¬ line.utf8ByteSize = 0 ∧ ¬ line.data.head? = some '\t' ∧
        (Strings.SplitN line ' ' 4).length ≥ 3 ∧
        isHash ((Strings.SplitN line ' ' 4).headD "") = true) := by
  unfold isHeaderLine isContentLine
  simp only [Bool.and_eq_true, decide_eq_true_eq, Bool.not_eq_true', decide_eq_false_iff_not,
    ne_eq, ge_iff_le]
  tauto

theorem processLine_block (options : Options) (filePath : String) (st : BlameState)
    (line : String) : (processLine options filePath st line).block = stepBlock st.block line := by
  unfold processLine stepBlock
  by_cases h0 : line.utf8ByteSize = 0
  · rw [if_pos h0, if_pos h0]
  · rw [if_neg h0, if_neg h0]
    by_cases h1 : line.data.head? = some '\t'
    · have h1' : isContentLine line = true := by simpa [isContentLine] using h1
      rw [if_pos h1, if_pos h1']
      rfl
    · have h1' : ¬ isContentLine line = true := by simpa [isContentLine] using h1
      rw [if_neg h1, if_neg h1']
      by_cases h2 : (Strings.SplitN line ' ' 4).length ≥ 3 ∧
          isHash ((Strings.SplitN line ' ' 4).headD "") = true
      · have h2' : isHeaderLine line = true := (isHeaderLine_iff line).mpr ⟨h0, h1, h2⟩
        simp only [h2, h2', and_self, if_true]
        rfl
      · have h2' : ¬ isHeaderLine line = true := fun h => h2 ((isHeaderLine_iff line).mp h).2.2
        simp only [h2, h2', if_false, Bool.false_eq_true]
        by_cases h3 : (Strings.SplitN line ' ' 2).headD "" = "author"
        · rw [if_pos h3, if_pos h3]
          rfl
        · rw [if_neg h3, if_neg h3]
          by_cases h4 : (Strings.SplitN line ' ' 2).headD "" = "committer"
          · rw [if_pos h4, if_pos h4]
            rfl
          · rw [if_neg h4, if_neg h4]

theorem processLine_authorData (options : Options) (filePath : String) (st : BlameState)
    (line : String) :
    (processLine options filePath st line).authorData =
      if isHeaderLine line = true ∧ st.currentHash ≠ "" then
        processCurrentBlock options filePath st
      else st.authorData := by
  unfold processLine
  by_cases h0 : line.utf8ByteSize = 0
  · have hh : ¬ isHeaderLine line = true := fun h => ((isHeaderLine_iff line).mp h).1 h0
    rw [if_pos h0, if_neg (fun h => hh h.1)]
  · rw [if_neg h0]
    by_cases h1 : line.data.head? = some '\t'
    · have hh : ¬ isHeaderLine line = true := fun h => ((isHeaderLine_iff line).mp h).2.1 h1
      rw [if_pos h1, if_neg (fun h => hh h.1)]
    · rw [if_neg h1]
      by_cases h2 : (Strings.SplitN line ' ' 4).length ≥ 3 ∧
          isHash ((Strings.SplitN line ' ' 4).headD "") = true
      · have h2' : isHeaderLine line = true := (isHeaderLine_iff line).mpr ⟨h0, h1, h2⟩
        simp only [h2, and_self, if_true]
        by_cases h5 : st.currentHash = ""
        · rw [if_neg (fun h => h h5), if_neg (fun h => h.2 h5)]
        · rw [if_pos h5, if_pos ⟨h2', h5⟩]
      · have hh : ¬ isHeaderLine line = true := fun h => h2 ((isHeaderLine_iff line).mp h).2.2
        have hr : (if isHeaderLine line = true ∧ st.currentHash ≠ "" then
            processCurrentBlock options filePath st else st.authorData) = st.authorData :=
          if_neg (fun h => hh h.1)
        rw [hr]
        simp only [h2, if_false]
        by_cases h3 : (Strings.SplitN line ' ' 2).headD "" = "author"
        · rw [if_pos h3]
        · rw [if_neg h3]
          by_cases h4 : (Strings.SplitN line ' ' 2).headD "" = "committer"
          · rw [if_pos h4]
          · rw [if_neg h4]

theorem blocksFrom_cons (b : Block) (line : String) (rest : List String) :
    blocksFrom b (line :: rest) =
      (if isHeaderLine line = true ∧ b.hash ≠ "" then [b] else []) ++
        blocksFrom (stepBlock b line) rest := rfl

theorem foldl_processLine (options : Options) (filePath : String) (lines : List String)
    (st : BlameState) :
    (if (lines.foldl (processLine options filePath) st).currentHash ≠ "" then
        processCurrentBlock options filePath (lines.foldl (processLine options filePath) st)
      else (lines.foldl (processLine options filePath) st).authorData) =
      ((blocksFrom st.block lines).flatMap (Block.contributions options filePath)).foldl
        contribute st.authorData := by
  induction lines generalizing st with
  | nil =>
    by_cases h : st.currentHash = ""
    · simp [blocksFrom, BlameState.block, h]
    · simp [blocksFrom, BlameState.block, h, processCurrentBlock_eq]
  | cons line rest ih =>
    rw [List.foldl_cons, ih, processLine_block, processLine_authorData, blocksFrom_cons]
    by_cases h : isHeaderLine line = true ∧ st.currentHash ≠ ""
    · have h' : isHeaderLine line = true ∧ st.block.hash ≠ "" := h
      rw [if_pos h, if_pos h', List.flatMap_append, List.foldl_append, processCurrentBlock_eq]
      simp
    · have h' : ¬ (isHeaderLine line = true ∧ st.block.hash ≠ "") := h
      rw [if_neg h, if_neg h', List.nil_append]

theorem foldBlame_eq (m : AuthorMap) (options : Options) (filePath output : String) :
    foldBlame m options filePath output =
      ((FileInput.blame filePath output).contributions options).foldl contribute m := by
  unfold foldBlame
  exact foldl_processLine options filePath (Strings.Split output '\n')
    { currentHash := "", currentAuthor := "", currentCommitter := "", currentLines := 0,
      authorData := m }

theorem foldFile_eq (options : Options) (m : AuthorMap) (file : FileInput) :
    foldFile options m file = (file.contributions options).foldl contribute m := by
  cases file with
  | blame filePath output => exact foldBlame_eq m options filePath output
  | emptyFile filePath hash author committer =>
    exact foldEmptyFile_eq m options filePath hash author committer

/-! ## Aggregation: order of the files, repeated commits, empty files -/

/-- C3. For any starting accumulator map and any two files (a blame output
or the history entry of an empty file), folding the first and then the second
gives the same accumulator under every identity (the same entry or none, with
the same name, line total, commit set and file set) as folding them the other
way round. -/
theorem foldFile_comm (options : Options) (m : AuthorMap) (fileA fileB : FileInput)
    (identity : String) :
    mapGet (foldFile options (foldFile options m fileA) fileB) identity =
      mapGet (foldFile options (foldFile options m fileB) fileA) identity := by
  rw [foldFile_eq options _ fileB, foldFile_eq options m fileA, foldFile_eq options _ fileA,
    foldFile_eq options m fileB, ← List.foldl_append, ← List.foldl_append,
    mapGet_foldl_contribute, mapGet_foldl_contribute,
    foldl_contributeFn_perm List.perm_append_comm]

/-- C4. Two blocks with the same commit id (non-empty, as every commit id
is), the same file path and the same non-empty identity `p`, with `n1 ≥ 1` and
`n2 ≥ 1` content lines, folded into any accumulator map: the line total of `p`
grows by exactly `n1 + n2`, and its commit set and its file set, which become
the old sets with the commit and the file inserted, grow by at most one
element each. -/
theorem processCurrentBlock_twice (options : Options) (filePath : String) (m : AuthorMap)
    (hash author1 committer1 author2 committer2 p : String) (n1 n2 : Int)
    (hhash : hash ≠ "") (hp : p ≠ "") (hn1 : n1 ≥ 1) (hn2 : n2 ≥ 1)
    (hid1 : (if options.UseCmtr then committer1 else author1) = p)
    (hid2 : (if options.UseCmtr then committer2 else author2) = p) :
    ∃ after : AuthorData,
      mapGet (processCurrentBlock options filePath
        { currentHash := hash, currentAuthor := author2, currentCommitter := committer2,
          currentLines := n2,
          authorData := processCurrentBlock options filePath
            { currentHash := hash, currentAuthor := author1, currentCommitter := committer1,
              currentLines := n1, authorData := m } }) p = some after ∧
      after.lines = ((mapGet m p).getD (freshData p)).lines + (n1 + n2) ∧
      after.commits = insert hash ((mapGet m p).getD (freshData p)).commits ∧
      after.files = insert filePath ((mapGet m p).getD (freshData p)).files ∧
      ((mapGet m p).getD (freshData p)).commits.card ≤ after.commits.card ∧
      after.commits.card ≤ ((mapGet m p).getD (freshData p)).commits.card + 1 ∧
      ((mapGet m p).getD (freshData p)).files.card ≤ after.files.card ∧
      after.files.card ≤ ((mapGet m p).getD (freshData p)).files.card + 1 := by
  have e1 : n1 ≠ 0 := by omega
  have e2 : n2 ≠ 0 := by omega
  rw [processCurrentBlock_eq, processCurrentBlock_eq]
  simp only [BlameState.block, Block.contributions, Block.identity, hid1, hid2, hhash, hp, e1, e2,
    or_self, if_false, List.foldl_cons, List.foldl_nil, mapGet_contribute, contributeFn,
    if_true, Option.getD_some]
  refine ⟨_, rfl, ?_, ?_, ?_, ?_, ?_, ?_, ?_⟩
  · simp only [bump]; ring
  · simp [bump]
  · simp [bump]
  · simp only [bump, Finset.insert_idem]
    exact Finset.card_le_card (Finset.subset_insert _ _)
  · simp only [bump, Finset.insert_idem]
    exact Finset.card_insert_le _ _
  · simp only [bump, Finset.insert_idem]
    exact Finset.card_le_card (Finset.subset_insert _ _)
  · simp only [bump, Finset.insert_idem]
    exact Finset.card_insert_le _ _

theorem processCurrentBlock_twice_witness :
    ∃ after : AuthorData,
      mapGet (processCurrentBlock defaultOptions "main.go"
        { currentHash := "c0ffee", currentAuthor := "Alice", currentCommitter := "Bob",
          currentLines := 2,
          authorData := processCurrentBlock defaultOptions "main.go"
            { currentHash := "c0ffee", currentAuthor := "Alice", currentCommitter := "Dave",
              currentLines := 3, authorData := [] } }) "Alice" = some after ∧
      after.lines = ((mapGet [] "Alice").getD (freshData "Alice")).lines + (3 + 2) ∧
      after.commits = insert "c0ffee" ((mapGet [] "Alice").getD (freshData "Alice")).commits ∧
      after.files = insert "main.go" ((mapGet [] "Alice").getD (freshData "Alice")).files ∧
      ((mapGet [] "Alice").getD (freshData "Alice")).commits.card ≤ after.commits.card ∧
      after.commits.card ≤ ((mapGet [] "Alice").getD (freshData "Alice")).commits.card + 1 ∧
      ((mapGet [] "Alice").getD (freshData "Alice")).files.card ≤ after.files.card ∧
      after.files.card ≤ ((mapGet [] "Alice").getD (freshData "Alice")).files.card + 1 :=
  processCurrentBlock_twice defaultOptions "main.go" [] "c0ffee" "Alice" "Dave" "Alice" "Bob"
    "Alice" 3 2 (by decide) (by decide) (by decide) (by decide) (by decide) (by decide)

/-- C8. For an empty file whose history entry has a non-empty hash `h` and a
non-empty resolved identity `p` (the author, or the committer when `UseCmtr`
is set), `processEmptyFile` succeeds; afterwards `p` has an accumulator (the
old one, or a new one with no lines) whose commit set has gained `h` and whose
file set has gained the path, with the name and the line total unchanged, and
the accumulator of every other identity is unchanged. From an empty map the
statistics are those of `p` alone, with no lines, one commit and one file. -/
theorem processEmptyFile_records (git : Git) (m : AuthorMap) (options : Options)
    (filePath h author committer : String)
    (hinfo : getEmptyFileCommitInfo git options.Repo options.Rev filePath =
      .ok (h, author, committer))
    (hh : h ≠ "") (hp : (if options.UseCmtr then committer else author) ≠ "") :
    ∃ m' after, processEmptyFile git m options filePath = .ok m' ∧
      mapGet m' (if options.UseCmtr then committer else author) = some after ∧
      after.name = ((mapGet m (if options.UseCmtr then committer else author)).getD
        (freshData (if options.UseCmtr then committer else author))).name ∧
      after.lines = (((mapGet m (if options.UseCmtr then committer else author)).map
        AuthorData.lines).getD 0) ∧
      after.commits = insert h (((mapGet m (if options.UseCmtr then committer else author)).map
        AuthorData.commits).getD ∅) ∧
      after.files = insert filePath
        (((mapGet m (if options.UseCmtr then committer else author)).map
          AuthorData.files).getD ∅) ∧
      (∀ other, other ≠ (if options.UseCmtr then committer else author) →
        mapGet m' other = mapGet m other) ∧
      (m = [] → calculateResults m' =
        [{ Name := if options.UseCmtr then committer else author,
           Lines := 0, Commits := 1, Files := 1 }]) := by
  refine ⟨foldEmptyFile m options filePath h author committer,
    bump ((mapGet m (if options.UseCmtr then committer else author)).getD
      (freshData (if options.UseCmtr then committer else author)))
      { name := if options.UseCmtr then committer else author, lines := 0, hash := h,
        filePath := filePath }, ?_, ?_, ?_, ?_, ?_, ?_, ?_, ?_⟩
  · simp [processEmptyFile, hinfo]
  · rw [foldEmptyFile_eq]
    simp only [FileInput.contributions, hh, hp, or_self, if_false, List.foldl_cons,
      List.foldl_nil, mapGet_contribute, contributeFn, if_true]
  · rfl
  · cases mapGet m (if options.UseCmtr then committer else author) <;> simp [bump, freshData]
  · cases mapGet m (if options.UseCmtr then committer else author) <;> simp [bump, freshData]
  · cases mapGet m (if options.UseCmtr then committer else author) <;> simp [bump, freshData]
  · intro other hother
    rw [foldEmptyFile_eq]
    simp only [FileInput.contributions, hh, hp, or_self, if_false, List.foldl_cons,
      List.foldl_nil, mapGet_contribute, contributeFn, if_neg (Ne.symm hother)]
  · intro hm
    subst hm
    simp [foldEmptyFile, hh, hp, mapGet, mapSet, calculateResults]

theorem processEmptyFile_records_witness :
    ∃ m' after, processEmptyFile carolGit [] defaultOptions "empty.txt" = .ok m' ∧
      mapGet m' "Carol" = some after ∧
      after.name = "Carol" ∧ after.lines = 0 ∧ after.commits = {"hash3"} ∧
      after.files = {"empty.txt"} ∧
      (∀ other, other ≠ "Carol" → mapGet m' other = none) ∧
      calculateResults m' = [{ Name := "Carol", Lines := 0, Commits := 1, Files := 1 }] := by
  obtain ⟨m', after, h1, h2, h3, h4, h5, h6, h7, h8⟩ :=
    processEmptyFile_records carolGit [] defaultOptions "empty.txt" "hash3" "Carol" "Dave"
      rfl (by decide) (by decide)
  exact ⟨m', after, h1, h2, h3, h4, h5, h6, h7, h8 rfl⟩

/-! ## Blame output: the content lines and the line totals -/

theorem utf8ByteSize_eq_zero_iff (s : String) : s.utf8ByteSize = 0 ↔ s.data = [] := by
  cases s
  simp

theorem isHash_ne_empty {s : String} (h : isHash s = true) : s ≠ "" := by
  rintro rfl
  exact absurd h (by decide)

theorem isHeaderLine_not_content {line : String} (h : isHeaderLine line = true) :
    isContentLine line = false := by
  have h1 := ((isHeaderLine_iff line).mp h).2.1
  simpa [isContentLine] using h1

theorem stepBlock_header (b : Block) {line : String} (h : isHeaderLine line = true) :
    (stepBlock b line).hash ≠ "" ∧ (stepBlock b line).lines = 0 := by
  obtain ⟨h0, _, _, h3⟩ := (isHeaderLine_iff line).mp h
  have hc : ¬ isContentLine line = true := by simp [isHeaderLine_not_content h]
  unfold stepBlock
  rw [if_neg h0, if_neg hc, if_pos h]
  exact ⟨isHash_ne_empty h3, rfl⟩

theorem stepBlock_content (b : Block) {line : String} (h : isContentLine line = true) :
    stepBlock b line = { b with lines := b.lines + 1 } := by
  have h0 : ¬ line.utf8ByteSize = 0 := by
    rw [utf8ByteSize_eq_zero_iff]
    intro e
    simp [isContentLine, e] at h
  unfold stepBlock
  rw [if_neg h0, if_pos h]

theorem stepBlock_other (b : Block) {line : String} (hh : ¬ isHeaderLine line = true)
    (hc : ¬ isContentLine line = true) :
    (stepBlock b line).hash = b.hash ∧ (stepBlock b line).lines = b.lines := by
  unfold stepBlock
  by_cases h0 : line.utf8ByteSize = 0
  · rw [if_pos h0]
    exact ⟨rfl, rfl⟩
  · rw [if_neg h0, if_neg hc, if_neg hh]
    by_cases h3 : (Strings.SplitN line ' ' 2).headD "" = "author"
    · rw [if_pos h3]
      exact ⟨rfl, rfl⟩
    · rw [if_neg h3]
      by_cases h4 : (Strings.SplitN line ' ' 2).headD "" = "committer"
      · rw [if_pos h4]
        exact ⟨rfl, rfl⟩
      · rw [if_neg h4]
        exact ⟨rfl, rfl⟩

theorem blocksFrom_hash (lines : List String) (b : Block) :
    ∀ b' ∈ blocksFrom b lines, b'.hash ≠ "" := by
  induction lines generalizing b with
  | nil =>
    intro b' hb'
    by_cases h : b.hash = ""
    · simp [blocksFrom, h] at hb'
    · simp only [blocksFrom, ne_eq, h, not_false_eq_true, if_true, List.mem_singleton] at hb'
      subst hb'
      exact h
  | cons line rest ih =>
    intro b' hb'
    rw [blocksFrom_cons, List.mem_append] at hb'
    rcases hb' with hb' | hb'
    · by_cases h : isHeaderLine line = true ∧ b.hash ≠ ""
      · rw [if_pos h, List.mem_singleton] at hb'
        subst hb'
        exact h.2
      · rw [if_neg h] at hb'
        exact absurd hb' (List.not_mem_nil _)
    · exact ih _ b' hb'

/-- Every content line is counted in a flushed block or is lost: the lines
counted while no block is open never reach an accumulator. -/
theorem blocksFrom_lines (lines : List String) (b : Block) :
    ((blocksFrom b lines).map Block.lines).sum +
        (if b.hash = "" then b.lines + (orphanLinesOf lines : Int) else 0) =
      b.lines + (lines.countP isContentLine : Int) := by
  induction lines generalizing b with
  | nil =>
    by_cases h : b.hash = "" <;> simp [blocksFrom, orphanLinesOf, h]
  | cons line rest ih =>
    rw [blocksFrom_cons]
    by_cases hh : isHeaderLine line = true
    · have hc := isHeaderLine_not_content hh
      have ih' := ih (stepBlock b line)
      obtain ⟨s1, s2⟩ := stepBlock_header b hh
      rw [if_neg s1, s2] at ih'
      by_cases h : b.hash = ""
      · simp only [hh, h, ne_eq, not_true_eq_false, and_false, if_false, List.nil_append,
          if_true, orphanLinesOf, List.takeWhile_cons, Bool.not_true, List.countP_nil,
          Nat.cast_zero, add_zero, List.countP_cons, hc, Bool.false_eq_true] at ih' ⊢
        omega
      · simp only [hh, h, ne_eq, not_false_eq_true, and_self, if_true, if_false,
          List.singleton_append, List.map_cons, List.sum_cons, List.countP_cons, hc,
          Bool.false_eq_true, add_zero] at ih' ⊢
        omega
    · have hhf : isHeaderLine line = false := by simpa using hh
      rw [if_neg (fun h => hh h.1), List.nil_append]
      by_cases hc : isContentLine line = true
      · have ih' := ih (stepBlock b line)
        rw [stepBlock_content b hc] at ih' ⊢
        by_cases h : b.hash = ""
        · simp only [h, if_true, orphanLinesOf, List.takeWhile_cons, hhf, Bool.not_false,
            List.countP_cons, hc, Nat.cast_add, Nat.cast_one] at ih' ⊢
          omega
        · simp only [h, if_false, List.countP_cons, hc, if_true, Nat.cast_add, Nat.cast_one,
            add_zero] at ih' ⊢
          omega
      · have hcf : isContentLine line = false := by simpa using hc
        have ih' := ih (stepBlock b line)
        obtain ⟨s1, s2⟩ := stepBlock_other b hh hc
        rw [s1, s2] at ih'
        by_cases h : b.hash = ""
        · simp only [h, if_true, orphanLinesOf, List.takeWhile_cons, hhf, Bool.not_false,
            List.countP_cons, hcf, Bool.false_eq_true, if_false, add_zero] at ih' ⊢
          omega
        · simp only [h, if_false, List.countP_cons, hcf, Bool.false_eq_true,
            add_zero] at ih' ⊢
          omega

theorem totalLines_mapSet (m : AuthorMap) (k : String) (d : AuthorData) :
    totalLines (calculateResults (mapSet m k d)) =
      totalLines (calculateResults m) - ((mapGet m k).map AuthorData.lines).getD 0 + d.lines := by
  induction m with
  | nil => simp [mapSet, mapGet, calculateResults, totalLines]
  | cons e rest ih =>
    obtain ⟨k0, d0⟩ := e
    by_cases h : k0 = k
    · simp only [mapSet, mapGet, h, if_true, calculateResults, totalLines, List.map_cons,
        List.sum_cons, Option.map_some', Option.getD_some]
      omega
    · simp only [mapSet, mapGet, h, if_false, calculateResults, totalLines, List.map_cons,
        List.sum_cons] at ih ⊢
      omega

theorem totalLines_contribute (m : AuthorMap) (c : Contribution) :
    totalLines (calculateResults (contribute m c)) =
      totalLines (calculateResults m) + c.lines := by
  rw [contribute, totalLines_mapSet]
  cases mapGet m c.name with
  | none => simp [bump, freshData]
  | some d =>
    simp only [Option.getD_some, bump, Option.map_some']
    ring

theorem totalLines_foldl_contribute (cs : List Contribution) (m : AuthorMap) :
    totalLines (calculateResults (cs.foldl contribute m)) =
      totalLines (calculateResults m) + (cs.map Contribution.lines).sum := by
  induction cs generalizing m with
  | nil => simp
  | cons c cs ih =>
    rw [List.foldl_cons, ih, totalLines_contribute, List.map_cons, List.sum_cons]
    ring

theorem contributions_lines (options : Options) (filePath : String) (bs : List Block)
    (hhash : ∀ b ∈ bs, b.hash ≠ "")
    (hid : ∀ b ∈ bs, b.lines ≠ 0 → b.identity options ≠ "") :
    ((bs.flatMap (Block.contributions options filePath)).map Contribution.lines).sum =
      (bs.map Block.lines).sum := by
  induction bs with
  | nil => rfl
  | cons b bs ih =>
    have ih' := ih (fun x hx => hhash x (List.mem_cons_of_mem _ hx))
      (fun x hx => hid x (List.mem_cons_of_mem _ hx))
    have h1 := hhash b (List.mem_cons_self _ _)
    rw [List.flatMap_cons, List.map_append, List.sum_append, ih', List.map_cons, List.sum_cons]
    congr 1
    by_cases h2 : b.lines = 0
    · simp [Block.contributions, h2]
    · have h3 := hid b (List.mem_cons_self _ _) h2
      simp [Block.contributions, h1, h2, h3]

/-- The line totals of a blame output folded into the empty map: the content
lines of the blocks that contribute. -/
theorem foldBlame_totalLines_eq (options : Options) (filePath output : String) :
    totalLines (calculateResults (foldBlame [] options filePath output)) =
      (((blameBlocks output).flatMap (Block.contributions options filePath)).map
        Contribution.lines).sum := by
  rw [foldBlame_eq, totalLines_foldl_contribute]
  simp [FileInput.contributions, calculateResults, totalLines]

/-- C2, counterexample. A non-empty blame output in which the only
attributed identity, Alice, is non-empty, and whose two content lines give a
line total of one: the content line before the first header line is lost. -/
theorem foldBlame_totalLines_orphan :
    orphanBlame ≠ "" ∧
      (∀ b ∈ blameBlocks orphanBlame, b.identity defaultOptions ≠ "") ∧
      contentLines orphanBlame = 2 ∧
      totalLines (calculateResults (foldBlame [] defaultOptions "main.go" orphanBlame)) = 1 ∧
      totalLines (calculateResults (foldBlame [] defaultOptions "main.go" orphanBlame)) ≠
        contentLines orphanBlame := by
  decide

/-- C2, amended. When no content line comes before the first header line and
every block with content lines has a non-empty identity, the blame output of
one file folded into the empty map gives statistics whose `Lines` sum to the
number of content lines of the output. -/
theorem foldBlame_totalLines (options : Options) (filePath output : String)
    (horphan : orphanLines output = 0)
    (hid : ∀ b ∈ blameBlocks output, b.lines ≠ 0 → b.identity options ≠ "") :
    totalLines (calculateResults (foldBlame [] options filePath output)) =
      contentLines output := by
  rw [foldBlame_totalLines_eq,
    contributions_lines options filePath (blameBlocks output) (blocksFrom_hash _ _) hid]
  have h := blocksFrom_lines (Strings.Split output '\n')
    { hash := "", author := "", committer := "", lines := 0 }
  unfold orphanLines at horphan
  simp only [if_true, horphan, Nat.cast_zero, add_zero, zero_add] at h
  exact h

theorem foldBlame_totalLines_witness :
    orphanLines ("0123456789abcdef0123456789abcdef01234567 1 1 2\nauthor Alice\n\ta\n\tb\n" ++
        "89abcdef0123456789abcdef0123456789abcdef 3 3 1\nauthor Bob\n\tc\n") = 0 ∧
      totalLines (calculateResults (foldBlame [] defaultOptions "main.go"
        ("0123456789abcdef0123456789abcdef01234567 1 1 2\nauthor Alice\n\ta\n\tb\n" ++
          "89abcdef0123456789abcdef0123456789abcdef 3 3 1\nauthor Bob\n\tc\n"))) =
      contentLines
        ("0123456789abcdef0123456789abcdef01234567 1 1 2\nauthor Alice\n\ta\n\tb\n" ++
          "89abcdef0123456789abcdef0123456789abcdef 3 3 1\nauthor Bob\n\tc\n") :=
  ⟨by decide, foldBlame_totalLines defaultOptions "main.go" _ (by decide) (by decide)⟩

/-! ## Header lines -/

theorem splitChars_eq (sep : Char) (cs : List Char) :
    Strings.splitChars sep cs = cs.takeWhile (fun c => c != sep) ::
      (match cs.dropWhile (fun c => c != sep) with
        | [] => []
        | _ :: rest => Strings.splitChars sep rest) := by
  induction cs with
  | nil => rfl
  | cons c cs ih =>
    by_cases h : c = sep
    · subst h
      simp [Strings.splitChars]
    · rw [Strings.splitChars, if_neg h, ih]
      simp [h]

theorem splitNChars_eq (sep : Char) (n : Nat) (cs : List Char) :
    Strings.splitNChars sep (n + 2) cs = cs.takeWhile (fun c => c != sep) ::
      (match cs.dropWhile (fun c => c != sep) with
        | [] => []
        | _ :: rest => Strings.splitNChars sep (n + 1) rest) := by
  rw [Strings.splitNChars, List.span_eq_take_drop]
  cases cs.dropWhile (fun c => c != sep) <;> rfl

theorem splitChars_length_pos (sep : Char) (cs : List Char) :
    1 ≤ (Strings.splitChars sep cs).length := by
  rw [splitChars_eq]
  simp

theorem splitNChars_length (sep : Char) (n : Nat) (cs : List Char) :
    (Strings.splitNChars sep (n + 1) cs).length = min (n + 1) (Strings.splitChars sep cs).length := by
  induction n generalizing cs with
  | zero =>
    have := splitChars_length_pos sep cs
    simp [Strings.splitNChars]
    omega
  | succ n ih =>
    rw [splitNChars_eq, splitChars_eq]
    cases h : cs.dropWhile (fun c => c != sep) with
    | nil => simp
    | cons d rest =>
      simp only [List.length_cons, ih rest]
      omega

theorem splitNChars_head (sep : Char) (n : Nat) (cs : List Char) :
    (Strings.splitNChars sep (n + 2) cs).headD [] = (Strings.splitChars sep cs).headD [] := by
  rw [splitNChars_eq, splitChars_eq]
  rfl

theorem SplitN_length (line : String) (n : Nat) :
    (Strings.SplitN line ' ' (n + 1)).length = min (n + 1) (Strings.Split line ' ').length := by
  simp [Strings.SplitN, Strings.Split, splitNChars_length]

theorem headD_map_mk (l : List (List Char)) :
    (l.map String.mk).headD "" = String.mk (l.headD []) := by
  cases l <;> rfl

theorem SplitN_head (line : String) (n : Nat) :
    (Strings.SplitN line ' ' (n + 2)).headD "" = (Strings.Split line ' ').headD "" := by
  rw [Strings.SplitN, Strings.Split, headD_map_mk, headD_map_mk, splitNChars_head]

theorem Split_head (line : String) :
    (Strings.Split line ' ').headD "" = String.mk (line.data.takeWhile (fun c => c != ' ')) := by
  rw [Strings.Split, headD_map_mk, splitChars_eq]
  rfl

theorem hashChar_iff (c : Char) :
    (!((c < '0' || c > '9') && (c < 'a' || c > 'f'))) = isHexLower c := by
  unfold isHexLower
  by_cases h1 : c < '0' <;> by_cases h2 : c > '9' <;> by_cases h3 : c < 'a' <;>
    by_cases h4 : c > 'f' <;> simp [h1, h2, h3, h4, not_lt.mp, le_of_lt, not_le.mpr]

theorem isHexLower_utf8Size {c : Char} (h : isHexLower c = true) : c.utf8Size = 1 := by
  have hc : c ≤ 'f' := by
    simp only [isHexLower, Bool.or_eq_true, Bool.and_eq_true, decide_eq_true_eq] at h
    rcases h with h | h
    · exact le_trans h.2 (show ('9' : Char) ≤ 'f' by decide)
    · exact h.2
  have h1 : c.val.toNat ≤ 102 := hc
  have h2 : c.val ≤ UInt32.ofNatCore 127 (by decide) :=
    show c.val.toNat ≤ 127 from Nat.le_trans h1 (by decide)
  exact if_pos h2

theorem utf8Len_of_hex (cs : List Char) (h : cs.all isHexLower = true) :
    String.utf8Len cs = cs.length := by
  induction cs with
  | nil => rfl
  | cons c cs ih =>
    simp only [List.all_cons, Bool.and_eq_true] at h
    rw [String.utf8Len_cons, ih h.2, isHexLower_utf8Size h.1, List.length_cons]

/-- The function `isHash` accepts the strings of exactly 40 characters, all
in `0-9` or `a-f`. -/
theorem isHash_iff (s : String) :
    isHash s = true ↔ s.length = 40 ∧ s.data.all isHexLower = true := by
  have hp : (fun c : Char => !((c < '0' || c > '9') && (c < 'a' || c > 'f'))) = isHexLower :=
    funext hashChar_iff
  obtain ⟨cs⟩ := s
  unfold isHash
  simp only [hp, String.utf8ByteSize_mk, String.length]
  constructor
  · intro h
    by_cases h40 : String.utf8Len cs = 40
    · simp only [h40, ne_eq, not_true_eq_false, if_false] at h
      exact ⟨by rw [← utf8Len_of_hex cs h, h40], h⟩
    · simp [h40] at h
  · rintro ⟨h1, h2⟩
    have h40 : String.utf8Len cs = 40 := by rw [utf8Len_of_hex cs h2, h1]
    simp [h40, h2]

theorem treatsAsHeader_iff (line : String) : treatsAsHeader line ↔ isHeaderLine line = true := by
  constructor
  · intro h
    by_contra hh
    have h1 := congrArg BlameState.block (h defaultOptions ""
      { currentHash := "", currentAuthor := "", currentCommitter := "", currentLines := 1,
        authorData := [] })
    rw [processLine_block] at h1
    have h2 := congrArg Block.lines h1
    by_cases hc : isContentLine line = true
    · rw [stepBlock_content _ hc] at h2
      have h3 : (1 : Int) + 1 = 0 := h2
      omega
    · rw [(stepBlock_other _ hh hc).2] at h2
      have h3 : (1 : Int) = 0 := h2
      omega
  · intro h options filePath st
    obtain ⟨h0, h1, h2⟩ := (isHeaderLine_iff line).mp h
    unfold processLine
    rw [if_neg h0, if_neg h1]
    simp only [h2, and_self, if_true]

theorem isHeaderLine_iff_split (line : String) :
    isHeaderLine line = true ↔
      (Strings.Split line ' ').length ≥ 3 ∧
        ((Strings.Split line ' ').headD "").length = 40 ∧
        ((Strings.Split line ' ').headD "").data.all isHexLower = true := by
  rw [isHeaderLine_iff, SplitN_length line 3, SplitN_head line 2, isHash_iff]
  constructor
  · rintro ⟨_, _, h2, h3⟩
    exact ⟨by omega, h3⟩
  · rintro ⟨h2, h3, h4⟩
    refine ⟨?_, ?_, by omega, h3, h4⟩
    · rw [utf8ByteSize_eq_zero_iff]
      intro e
      rw [Split_head, e] at h3
      exact absurd h3 (by decide)
    · intro e
      rw [Split_head] at h3 h4
      cases hd : line.data with
      | nil => rw [hd] at e; exact absurd e (by decide)
      | cons c rest =>
        rw [hd] at e h4
        simp only [List.head?_cons, Option.some.injEq] at e
        subst e
        have h5 : (('\t' :: rest.takeWhile (fun c => c != ' ')).all isHexLower) = true := h4
        rw [List.all_cons] at h5
        have h6 : isHexLower '\t' = false := by decide
        rw [h6, Bool.false_and] at h5
        exact absurd h5 (by decide)

/-! ## Header lines: what the parser recognizes -/

/-- C5, counterexample. A line of three tab-separated tokens whose first is
a commit hash is a header line in the words of the specification, and the
parser does not treat it as one: it holds no space. -/
theorem treatsAsHeader_tabbed :
    ¬ (treatsAsHeader tabbedHeader ↔ specHeaderLine tabbedHeader = true) := by
  intro h
  have h1 := (treatsAsHeader_iff tabbedHeader).mp (h.mpr (by decide))
  exact absurd h1 (by decide)

/-- C5, amended. The parser treats a line as a header line exactly when the
line, split at every space character, has at least three pieces (so at least
two spaces; empty pieces count) and its first piece, the text before the
first space, has exactly 40 characters, all in `0-9` or `a-f`. -/
theorem treatsAsHeader_iff_split (line : String) :
    treatsAsHeader line ↔
      (Strings.Split line ' ').length ≥ 3 ∧
        ((Strings.Split line ' ').headD "").length = 40 ∧
        ((Strings.Split line ' ').headD "").data.all isHexLower = true := by
  rw [treatsAsHeader_iff, isHeaderLine_iff_split]

/-! ## The path filter -/

theorem matchesAnyPattern_iff (pathMatch : String → String → Bool) (filePath : String)
    (patterns : List String) :
    matchesAnyPattern pathMatch filePath patterns = true ↔
      ∃ pattern ∈ patterns, patternMatches pathMatch filePath pattern = true := by
  induction patterns with
  | nil => simp [matchesAnyPattern]
  | cons pattern rest ih =>
    unfold matchesAnyPattern
    by_cases h1 : Strings.TrimSpace pattern = ""
    · simp [h1, ih, patternMatches]
    · by_cases h2 : pathMatch (Strings.TrimSpace pattern) filePath = true
      · simp [h1, h2, patternMatches]
      · simp [h1, h2, ih, patternMatches]

theorem matchesAnyPattern_dropBlank (pathMatch : String → String → Bool) (filePath : String)
    (patterns : List String) :
    matchesAnyPattern pathMatch filePath (dropBlankPatterns patterns) =
      matchesAnyPattern pathMatch filePath patterns := by
  induction patterns with
  | nil => rfl
  | cons pattern rest ih =>
    by_cases h1 : Strings.TrimSpace pattern = ""
    · simp only [dropBlankPatterns, List.filter_cons, h1, ne_eq, not_true_eq_false,
        decide_False, Bool.false_eq_true, if_false] at ih ⊢
      rw [ih]
      simp [matchesAnyPattern, h1]
    · simp only [dropBlankPatterns, List.filter_cons, h1, ne_eq, not_false_eq_true,
        decide_True, if_true] at ih ⊢
      simp only [matchesAnyPattern, h1, if_false, ih]

theorem shouldProcessFile_eq_true_iff (lower : Char → Char)
    (pathMatch : String → String → Bool) (filePath : String)
    (allowedExtensions allowedLanguageExtensions : Finset String) (useLanguageFilter : Bool)
    (restrictPatterns excludePatterns : List String) :
    shouldProcessFile lower pathMatch filePath allowedExtensions allowedLanguageExtensions
        useLanguageFilter restrictPatterns excludePatterns = true ↔
      (restrictPatterns = [] ∨
        ∃ pattern ∈ restrictPatterns, patternMatches pathMatch filePath pattern = true) ∧
      (¬ ∃ pattern ∈ excludePatterns, patternMatches pathMatch filePath pattern = true) ∧
      (allowedExtensions = ∅ ∨
        (Strings.ToLower lower (Filepath.Ext filePath) ≠ "" ∧
          Strings.ToLower lower (Filepath.Ext filePath) ∈ allowedExtensions)) ∧
      (useLanguageFilter = false ∨
        (Strings.ToLower lower (Filepath.Ext filePath) ≠ "" ∧
          Strings.ToLower lower (Filepath.Ext filePath) ∈ allowedLanguageExtensions)) := by
  unfold shouldProcessFile
  rw [← matchesAnyPattern_iff, ← matchesAnyPattern_iff]
  have hr : restrictPatterns.length > 0 ↔ restrictPatterns ≠ [] := List.length_pos
  have he : excludePatterns.length > 0 → excludePatterns ≠ [] := List.length_pos.mp
  have hc : allowedExtensions.card > 0 ↔ allowedExtensions ≠ ∅ := by
    rw [gt_iff_lt, Finset.card_pos, Finset.nonempty_iff_ne_empty]
  have hx : excludePatterns = [] → matchesAnyPattern pathMatch filePath excludePatterns = false := by
    rintro rfl
    rfl
  simp only [hr, hc]
  by_cases h1 : restrictPatterns = [] <;>
    by_cases h2 : matchesAnyPattern pathMatch filePath restrictPatterns = true <;>
    by_cases h3 : matchesAnyPattern pathMatch filePath excludePatterns = true <;>
    by_cases h4 : allowedExtensions = ∅ <;>
    by_cases h5 : useLanguageFilter = true <;>
    by_cases h6 : Strings.ToLower lower (Filepath.Ext filePath) = "" <;>
    by_cases h7 : excludePatterns = [] <;>
    simp_all

/-- C6. The function `shouldProcessFile` returns true exactly when (1) the
restrict list is empty or the path glob-matches one of its patterns, (2) the
path glob-matches no exclude pattern, (3) the extension allow-set is empty or
the lower-cased extension of the path is non-empty and in it, and (4) the
language filter is off or the lower-cased extension is non-empty and in the
language allow-set. So a path that the restrict patterns reject is rejected
whatever the other settings, and a path that matches an exclude pattern is
rejected whatever the extension settings. -/
theorem shouldProcessFile_iff (lower : Char → Char) (pathMatch : String → String → Bool)
    (filePath : String) (allowedExtensions allowedLanguageExtensions : Finset String)
    (useLanguageFilter : Bool) (restrictPatterns excludePatterns : List String) :
    (shouldProcessFile lower pathMatch filePath allowedExtensions allowedLanguageExtensions
        useLanguageFilter restrictPatterns excludePatterns = true ↔
      (restrictPatterns = [] ∨
        ∃ pattern ∈ restrictPatterns, patternMatches pathMatch filePath pattern = true) ∧
      (¬ ∃ pattern ∈ excludePatterns, patternMatches pathMatch filePath pattern = true) ∧
      (allowedExtensions = ∅ ∨
        (Strings.ToLower lower (Filepath.Ext filePath) ≠ "" ∧
          Strings.ToLower lower (Filepath.Ext filePath) ∈ allowedExtensions)) ∧
      (useLanguageFilter = false ∨
        (Strings.ToLower lower (Filepath.Ext filePath) ≠ "" ∧
          Strings.ToLower lower (Filepath.Ext filePath) ∈ allowedLanguageExtensions))) ∧
    ((restrictPatterns ≠ [] ∧
        ∀ pattern ∈ restrictPatterns, patternMatches pathMatch filePath pattern = false) →
      ∀ (extensions languageExtensions : Finset String) (languageFilter : Bool)
        (excluded : List String),
        shouldProcessFile lower pathMatch filePath extensions languageExtensions languageFilter
          restrictPatterns excluded = false) ∧
    ((∃ pattern ∈ excludePatterns, patternMatches pathMatch filePath pattern = true) →
      ∀ (extensions languageExtensions : Finset String) (languageFilter : Bool)
        (restricted : List String),
        shouldProcessFile lower pathMatch filePath extensions languageExtensions languageFilter
          restricted excludePatterns = false) := by
  refine ⟨shouldProcessFile_eq_true_iff _ _ _ _ _ _ _ _, ?_, ?_⟩
  · rintro ⟨h1, h2⟩ extensions languageExtensions languageFilter excluded
    rw [← Bool.not_eq_true, shouldProcessFile_eq_true_iff]
    rintro ⟨h3 | ⟨pattern, hp, hm⟩, _⟩
    · exact h1 h3
    · rw [h2 pattern hp] at hm
      exact absurd hm (by decide)
  · intro h extensions languageExtensions languageFilter restricted
    rw [← Bool.not_eq_true, shouldProcessFile_eq_true_iff]
    rintro ⟨_, h3, _⟩
    exact h3 h

/-- C10, the failing input. A restrict list that holds only a blank pattern
rejects the path, and the same call with the blank patterns removed from both
lists accepts it. In matching, `matchesAnyPattern` does skip the blank
patterns (`matchesAnyPattern_dropBlank`); the test `len(restrictPatterns) > 0`
of `shouldProcessFile` counts them. -/
theorem shouldProcessFile_blank_restrict (lower : Char → Char)
    (pathMatch : String → String → Bool) :
    shouldProcessFile lower pathMatch "main.go" ∅ ∅ false [" "] [] = false ∧
      shouldProcessFile lower pathMatch "main.go" ∅ ∅ false
        (dropBlankPatterns [" "]) (dropBlankPatterns []) = true := by
  constructor
  · rw [← Bool.not_eq_true, shouldProcessFile_eq_true_iff]
    rintro ⟨h | ⟨pattern, hp, hm⟩, _⟩
    · exact absurd h (by decide)
    · rw [List.mem_singleton] at hp
      subst hp
      have hb : Strings.TrimSpace " " = "" := by decide
      simp [patternMatches, hb] at hm
  · rw [shouldProcessFile_eq_true_iff]
    have hd : dropBlankPatterns [" "] = [] := by decide
    have hd' : dropBlankPatterns [] = [] := rfl
    rw [hd, hd']
    simp

/-! ## The empty-file resolver without a history entry -/

/-- C9, the failing input. When the history lookup of an empty file prints
nothing, `getEmptyFileCommitInfo` splits the empty output into one piece, not
three, and `processEmptyFile` returns the error `invalid log output format`;
the test `hash == ""` of `processEmptyFile` is not reached. -/
theorem processEmptyFile_no_history (git : Git) (m : AuthorMap) (options : Options)
    (filePath : String) :
    processEmptyFile { git with log := fun _ _ _ => .ok "" } m options filePath =
      .error "invalid log output format" := by
  have h : Strings.Split (Strings.TrimSpace "") '\x00' = [""] := by decide
  simp [processEmptyFile, getEmptyFileCommitInfo, h]

/-! ## The language filter -/

theorem requestedLanguages_foldl (lower : Char → Char) (languages : List String)
    (acc : Finset String × List String) :
    (∀ x, x ∈ (languages.foldl (fun (acc : Finset String × List String) lang =>
        let lang := Strings.TrimSpace lang
        if lang = "" then acc
        else (insert (Strings.ToLower lower lang) acc.1, acc.2 ++ [lang])) acc).1 ↔
      x ∈ acc.1 ∨ ∃ l ∈ languages, Strings.TrimSpace l ≠ "" ∧
        x = Strings.ToLower lower (Strings.TrimSpace l)) ∧
    (languages.foldl (fun (acc : Finset String × List String) lang =>
        let lang := Strings.TrimSpace lang
        if lang = "" then acc
        else (insert (Strings.ToLower lower lang) acc.1, acc.2 ++ [lang])) acc).2 =
      acc.2 ++ (languages.map Strings.TrimSpace).filter (fun l => decide (l ≠ "")) := by
  induction languages generalizing acc with
  | nil => simp
  | cons lang rest ih =>
    rw [List.foldl_cons]
    by_cases h : Strings.TrimSpace lang = ""
    · simp only [h, if_true]
      obtain ⟨ih1, ih2⟩ := ih acc
      refine ⟨fun x => ?_, ?_⟩
      · rw [ih1 x]
        simp [h]
      · rw [ih2]
        simp [h]
    · simp only [h, if_false]
      obtain ⟨ih1, ih2⟩ := ih (insert (Strings.ToLower lower (Strings.TrimSpace lang)) acc.1,
        acc.2 ++ [Strings.TrimSpace lang])
      refine ⟨fun x => ?_, ?_⟩
      · rw [ih1 x]
        simp only [Finset.mem_insert, List.mem_cons, exists_eq_or_imp, ne_eq, h,
          not_false_eq_true, true_and]
        tauto
      · rw [ih2]
        simp [h]

theorem requestedLanguages_mem (lower : Char → Char) (languages : List String) (x : String) :
    x ∈ (requestedLanguages lower languages).1 ↔
      ∃ l ∈ languages, Strings.TrimSpace l ≠ "" ∧
        x = Strings.ToLower lower (Strings.TrimSpace l) := by
  unfold requestedLanguages
  rw [(requestedLanguages_foldl lower languages (∅, [])).1 x]
  simp

theorem requestedLanguages_snd (lower : Char → Char) (languages : List String) :
    (requestedLanguages lower languages).2 =
      (languages.map Strings.TrimSpace).filter (fun l => decide (l ≠ "")) := by
  unfold requestedLanguages
  rw [(requestedLanguages_foldl lower languages (∅, [])).2]
  simp

theorem scanDefinitions_foldl_none (lower : Char → Char) (requested : Finset String)
    (definitions : List LanguageDefinition)
    (h : ∀ d ∈ definitions, ¬ Strings.ToLower lower (Strings.TrimSpace d.Name) ∈ requested)
    (acc : Finset String × Bool × Finset String) :
    definitions.foldl (fun (acc : Finset String × Bool × Finset String) definition =>
      let nameLower := Strings.ToLower lower (Strings.TrimSpace definition.Name)
      if ¬ nameLower ∈ requested then acc
      else
        (insert nameLower acc.1, true,
          definition.Extensions.foldl (fun allowed ext =>
            let ext := Strings.TrimSpace ext
            if ext = "" then allowed else insert (normalizeExtension lower ext) allowed)
            acc.2.2)) acc = acc := by
  induction definitions generalizing acc with
  | nil => rfl
  | cons d rest ih =>
    rw [List.foldl_cons]
    have hd := h d (List.mem_cons_self _ _)
    simp only [hd, not_false_eq_true, if_true]
    exact ih (fun x hx => h x (List.mem_cons_of_mem _ hx)) acc

theorem scanDefinitions_none (lower : Char → Char) (requested : Finset String)
    (definitions : List LanguageDefinition)
    (h : ∀ d ∈ definitions, ¬ Strings.ToLower lower (Strings.TrimSpace d.Name) ∈ requested) :
    scanDefinitions lower requested definitions = (∅, false, ∅) :=
  scanDefinitions_foldl_none lower requested definitions h (∅, false, ∅)

/-- C7, counterexample. With the language `Go` requested and a table that
has no entry of that name, `buildLanguageFilter` writes the warning and
returns an empty allow-set with the filter off, and `shouldProcessFile`
accepts `main.go`. -/
theorem buildLanguageFilter_unknown_off :
    buildLanguageFilter Char.toLower
        (.ok [{ Name := "Python", Type_ := "programming", Extensions := [".py"] }]) ["Go"] =
      (["warning: unknown language Go\n"], .ok (∅, false)) ∧
    shouldProcessFile Char.toLower (fun _ _ => false) "main.go" ∅ ∅ false [] [] = true := by
  constructor
  · rfl
  · decide

/-- C7, amended. When at least one language name is requested and no
requested name matches an entry of the language table, `buildLanguageFilter`
writes one warning for each requested name and returns an empty allow-set with
the language filter off; with no explicit extensions and no patterns,
`shouldProcessFile` then accepts every file path. -/
theorem buildLanguageFilter_unknown (lower : Char → Char) (pathMatch : String → String → Bool)
    (definitions : List LanguageDefinition) (languages : List String)
    (hreq : languages ≠ [])
    (hnone : ∀ d ∈ definitions, ∀ l ∈ languages, Strings.TrimSpace l ≠ "" →
      Strings.ToLower lower (Strings.TrimSpace d.Name) ≠
        Strings.ToLower lower (Strings.TrimSpace l)) :
    ∃ (allowed : Finset String) (useFilter : Bool),
      buildLanguageFilter lower (.ok definitions) languages =
        (((languages.map Strings.TrimSpace).filter (fun l => decide (l ≠ ""))).map
          (fun original => "warning: unknown language " ++ original ++ "\n"),
          .ok (allowed, useFilter)) ∧
      allowed = ∅ ∧ useFilter = false ∧
      ∀ filePath, shouldProcessFile lower pathMatch filePath ∅ allowed useFilter [] [] = true := by
  refine ⟨∅, false, ?_, rfl, rfl, ?_⟩
  · have hlen : ¬ languages.length = 0 := fun h => hreq (List.length_eq_zero.mp h)
    have hscan : scanDefinitions lower (requestedLanguages lower languages).1 definitions =
        (∅, false, ∅) := by
      apply scanDefinitions_none
      intro d hd hmem
      obtain ⟨l, hl, hne, heq⟩ := (requestedLanguages_mem lower languages _).mp hmem
      exact hnone d hd l hl hne heq
    unfold buildLanguageFilter
    rw [if_neg hlen]
    simp only [hscan, requestedLanguages_snd]
    simp
  · intro filePath
    rw [shouldProcessFile_eq_true_iff]
    simp

theorem buildLanguageFilter_unknown_witness :
    ["Go", " rust "] ≠ [] ∧
      ∃ (allowed : Finset String) (useFilter : Bool),
        buildLanguageFilter Char.toLower
            (.ok [{ Name := "Python", Type_ := "programming", Extensions := [".py"] }])
            ["Go", " rust "] =
          (["warning: unknown language Go\n", "warning: unknown language rust\n"],
            .ok (allowed, useFilter)) ∧
        allowed = ∅ ∧ useFilter = false ∧
        ∀ filePath, shouldProcessFile Char.toLower (fun _ _ => false) filePath ∅ allowed
          useFilter [] [] = true :=
  ⟨by decide, buildLanguageFilter_unknown Char.toLower (fun _ _ => false)
    [{ Name := "Python", Type_ := "programming", Extensions := [".py"] }] ["Go", " rust "]
    (by decide) (by decide)⟩

/-! ## Ranking: a strict total order, a result independent of the input order -/

theorem sortLess_eq_true_iff (order : String)
    (h : order = "lines" ∨ order = "commits" ∨ order = "files") (a b : AuthorStats) :
    sortLess order a b = true ↔ ¬ rankedBefore order b a := by
  rw [← sortLess_false_iff order h b a, Bool.not_eq_false]

/-- C12. For the order keys `lines`, `commits` and `files`, two lists of
statistics that are permutations of each other are sorted by `sortResults`
into the same sequence (also when names repeat); so the ranked output is the
same for every order in which `calculateResults` may iterate the accumulator
map, and ranking a ranked sequence again returns it unchanged. -/
theorem sortResults_perm_invariant (order : String) (results1 results2 : List AuthorStats)
    (h : order = "lines" ∨ order = "commits" ∨ order = "files")
    (hp : results1.Perm results2) :
    sortResults results1 order = sortResults results2 order ∧
      sortResults (sortResults results1 order) order = sortResults results1 order ∧
      ∀ m1 m2 : AuthorMap, m1.Perm m2 →
        sortResults (calculateResults m1) order = sortResults (calculateResults m2) order := by
  have key : ∀ l1 l2 : List AuthorStats, l1.Perm l2 →
      sortResults l1 order = sortResults l2 order := fun l1 l2 hl =>
    sortResults_unique order h l2 (sortResults l1 order)
      ((List.perm_insertionSort _ l1).trans hl) (sortResults_sorted order h l1)
  refine ⟨key _ _ hp, key _ _ (List.perm_insertionSort _ results1), ?_⟩
  intro m1 m2 hm
  exact key _ _ (hm.map _)

theorem sortResults_perm_invariant_witness :
    ("files" = "lines" ∨ "files" = "commits" ∨ "files" = "files") ∧
      List.Perm [(⟨"bob", 7, 2, 1⟩ : AuthorStats), ⟨"alice", 7, 2, 3⟩, ⟨"carol", 1, 3, 1⟩]
        [⟨"carol", 1, 3, 1⟩, ⟨"bob", 7, 2, 1⟩, ⟨"alice", 7, 2, 3⟩] ∧
      sortResults [⟨"bob", 7, 2, 1⟩, ⟨"alice", 7, 2, 3⟩, ⟨"carol", 1, 3, 1⟩] "files" =
        sortResults [⟨"carol", 1, 3, 1⟩, ⟨"bob", 7, 2, 1⟩, ⟨"alice", 7, 2, 3⟩] "files" ∧
      sortResults (sortResults [⟨"bob", 7, 2, 1⟩, ⟨"alice", 7, 2, 3⟩, ⟨"carol", 1, 3, 1⟩]
        "files") "files" =
        sortResults [⟨"bob", 7, 2, 1⟩, ⟨"alice", 7, 2, 3⟩, ⟨"carol", 1, 3, 1⟩] "files" :=
  have hp : List.Perm [(⟨"bob", 7, 2, 1⟩ : AuthorStats), ⟨"alice", 7, 2, 3⟩, ⟨"carol", 1, 3, 1⟩]
      [⟨"carol", 1, 3, 1⟩, ⟨"bob", 7, 2, 1⟩, ⟨"alice", 7, 2, 3⟩] := by decide
  have h := sortResults_perm_invariant "files" _ _ (by decide) hp
  ⟨by decide, hp, h.1, h.2.1⟩

/-- C13. For the order keys `lines`, `commits` and `files`, the comparison of
`sortResults` is a strict total order on statistics with distinct names: no
element is less than itself, the comparison is transitive, and of two
statistics with different names exactly one is less than the other. -/
theorem sortLess_strict_total (order : String)
    (h : order = "lines" ∨ order = "commits" ∨ order = "files") :
    (∀ a, sortLess order a a = false) ∧
      (∀ a b c, sortLess order a b = true → sortLess order b c = true →
        sortLess order a c = true) ∧
      (∀ a b, a.Name ≠ b.Name →
        (sortLess order a b = true ∧ sortLess order b a = false) ∨
          (sortLess order a b = false ∧ sortLess order b a = true)) := by
  refine ⟨fun a => ?_, fun a b c hab hbc => ?_, fun a b hne => ?_⟩
  · rw [sortLess_false_iff order h]
    exact (rankedBefore_total order h a a).elim id id
  · rw [sortLess_eq_true_iff order h] at hab hbc ⊢
    intro hca
    have hab' : rankedBefore order a b := (rankedBefore_total order h a b).resolve_right hab
    exact hbc (rankedBefore_trans order c a b hca hab')
  · have hne' : a ≠ b := fun e => hne (congrArg AuthorStats.Name e)
    rcases rankedBefore_total order h a b with hab | hba
    · left
      have hnba : ¬ rankedBefore order b a := fun hba =>
        hne' (rankedBefore_antisymm order a b hab hba)
      exact ⟨(sortLess_eq_true_iff order h a b).mpr hnba, (sortLess_false_iff order h a b).mpr hab⟩
    · right
      have hnab : ¬ rankedBefore order a b := fun hab =>
        hne' (rankedBefore_antisymm order a b hab hba)
      exact ⟨(sortLess_false_iff order h b a).mpr hba, (sortLess_eq_true_iff order h b a).mpr hnab⟩

theorem sortLess_strict_total_witness :
    ("lines" = "lines" ∨ "lines" = "commits" ∨ "lines" = "files") ∧
      sortLess "lines" ⟨"bob", 7, 2, 1⟩ ⟨"bob", 7, 2, 1⟩ = false ∧
      ((sortLess "lines" ⟨"alice", 7, 2, 1⟩ ⟨"bob", 7, 2, 1⟩ = true ∧
          sortLess "lines" ⟨"bob", 7, 2, 1⟩ ⟨"alice", 7, 2, 1⟩ = false) ∨
        (sortLess "lines" ⟨"alice", 7, 2, 1⟩ ⟨"bob", 7, 2, 1⟩ = false ∧
          sortLess "lines" ⟨"bob", 7, 2, 1⟩ ⟨"alice", 7, 2, 1⟩ = true)) :=
  ⟨by decide, (sortLess_strict_total "lines" (by decide)).1 _,
    (sortLess_strict_total "lines" (by decide)).2.2 _ _ (by decide)⟩

/-! ## Flushing a block -/

/-- C15. Flushing a block leaves the accumulator map as it is when the
current hash is empty, or the block has no content line, or the resolved
identity (the committer when `UseCmtr` is set, else the author) is empty. In
every other case the accumulator of that identity (created with no lines, no
commits and no files if it is missing) gains the line count, the hash and the
file path of the block, and every other accumulator is unchanged. -/
theorem processCurrentBlock_flush (options : Options) (filePath : String) (st : BlameState) :
    ((st.currentHash = "" ∨ st.currentLines = 0 ∨
        (if options.UseCmtr then st.currentCommitter else st.currentAuthor) = "") →
      processCurrentBlock options filePath st = st.authorData) ∧
    (¬ (st.currentHash = "" ∨ st.currentLines = 0 ∨
        (if options.UseCmtr then st.currentCommitter else st.currentAuthor) = "") →
      mapGet (processCurrentBlock options filePath st)
          (if options.UseCmtr then st.currentCommitter else st.currentAuthor) =
        some
          { name := ((mapGet st.authorData
                (if options.UseCmtr then st.currentCommitter else st.currentAuthor)).getD
                (freshData (if options.UseCmtr then st.currentCommitter
                  else st.currentAuthor))).name
            lines := ((mapGet st.authorData
                (if options.UseCmtr then st.currentCommitter else st.currentAuthor)).getD
                (freshData (if options.UseCmtr then st.currentCommitter
                  else st.currentAuthor))).lines + st.currentLines
            commits := insert st.currentHash ((mapGet st.authorData
                (if options.UseCmtr then st.currentCommitter else st.currentAuthor)).getD
                (freshData (if options.UseCmtr then st.currentCommitter
                  else st.currentAuthor))).commits
            files := insert filePath ((mapGet st.authorData
                (if options.UseCmtr then st.currentCommitter else st.currentAuthor)).getD
                (freshData (if options.UseCmtr then st.currentCommitter
                  else st.currentAuthor))).files } ∧
      ∀ other, other ≠ (if options.UseCmtr then st.currentCommitter else st.currentAuthor) →
        mapGet (processCurrentBlock options filePath st) other = mapGet st.authorData other) := by
  constructor
  · intro h
    unfold processCurrentBlock
    by_cases h1 : st.currentHash = "" ∨ st.currentLines = 0
    · rw [if_pos h1]
    · rw [if_neg h1]
      have h3 : (if options.UseCmtr then st.currentCommitter else st.currentAuthor) = "" := by
        rcases h with h | h | h
        · exact absurd (Or.inl h) h1
        · exact absurd (Or.inr h) h1
        · exact h
      simp only [h3, if_true]
  · intro h
    have h1 : ¬ st.currentHash = "" := fun e => h (Or.inl e)
    have h2 : ¬ st.currentLines = 0 := fun e => h (Or.inr (Or.inl e))
    have h3 : ¬ (if options.UseCmtr then st.currentCommitter else st.currentAuthor) = "" :=
      fun e => h (Or.inr (Or.inr e))
    rw [processCurrentBlock_eq]
    simp only [BlameState.block, Block.contributions, Block.identity, h1, h2, h3, or_self,
      if_false, List.foldl_cons, List.foldl_nil, mapGet_contribute, contributeFn, if_true]
    refine ⟨rfl, ?_⟩
    intro other hother
    rw [if_neg (Ne.symm hother)]

/-! ## The accumulator map only grows -/

theorem stepBlock_lines_nonneg (b : Block) (line : String) (h : 0 ≤ b.lines) :
    0 ≤ (stepBlock b line).lines := by
  by_cases hh : isHeaderLine line = true
  · rw [(stepBlock_header b hh).2]
  · by_cases hc : isContentLine line = true
    · rw [stepBlock_content b hc]
      show 0 ≤ b.lines + 1
      omega
    · rw [(stepBlock_other b hh hc).2]
      exact h

theorem blocksFrom_lines_nonneg (lines : List String) (b : Block) (h : 0 ≤ b.lines) :
    ∀ b' ∈ blocksFrom b lines, 0 ≤ b'.lines := by
  induction lines generalizing b with
  | nil =>
    intro b' hb'
    by_cases hh : b.hash = ""
    · simp [blocksFrom, hh] at hb'
    · simp only [blocksFrom, ne_eq, hh, not_false_eq_true, if_true, List.mem_singleton] at hb'
      subst hb'
      exact h
  | cons line rest ih =>
    intro b' hb'
    rw [blocksFrom_cons, List.mem_append] at hb'
    rcases hb' with hb' | hb'
    · by_cases hh : isHeaderLine line = true ∧ b.hash ≠ ""
      · rw [if_pos hh, List.mem_singleton] at hb'
        subst hb'
        exact h
      · rw [if_neg hh] at hb'
        exact absurd hb' (List.not_mem_nil _)
    · exact ih _ (stepBlock_lines_nonneg b line h) b' hb'

theorem contributions_valid (options : Options) (file : FileInput) :
    ∀ c ∈ file.contributions options, c.name ≠ "" ∧ 0 ≤ c.lines := by
  intro c hc
  cases file with
  | blame filePath output =>
    simp only [FileInput.contributions, List.mem_flatMap] at hc
    obtain ⟨b, hb, hcb⟩ := hc
    have hn := blocksFrom_lines_nonneg _ _ (le_refl 0) b hb
    unfold Block.contributions at hcb
    by_cases hcond : b.hash = "" ∨ b.lines = 0 ∨ b.identity options = ""
    · rw [if_pos hcond] at hcb
      exact absurd hcb (List.not_mem_nil _)
    · rw [if_neg hcond, List.mem_singleton] at hcb
      subst hcb
      exact ⟨fun e => hcond (Or.inr (Or.inr e)), hn⟩
  | emptyFile filePath hash author committer =>
    simp only [FileInput.contributions] at hc
    by_cases hcond : hash = "" ∨ (if options.UseCmtr then committer else author) = ""
    · rw [if_pos hcond] at hc
      exact absurd hc (List.not_mem_nil _)
    · rw [if_neg hcond, List.mem_singleton] at hc
      subst hc
      exact ⟨fun e => hcond (Or.inr e), le_refl 0⟩

theorem grownFrom_refl (d : AuthorData) : grownFrom d d :=
  ⟨rfl, le_refl _, Finset.Subset.refl _, Finset.Subset.refl _⟩

theorem grownFrom_trans {d1 d2 d3 : AuthorData} (h12 : grownFrom d1 d2) (h23 : grownFrom d2 d3) :
    grownFrom d1 d3 :=
  ⟨h23.1.trans h12.1, le_trans h12.2.1 h23.2.1, h12.2.2.1.trans h23.2.2.1,
    h12.2.2.2.trans h23.2.2.2⟩

theorem grownFrom_bump (d : AuthorData) (c : Contribution) (h : 0 ≤ c.lines) :
    grownFrom d (bump d c) := by
  refine ⟨rfl, ?_, Finset.subset_insert _ _, Finset.subset_insert _ _⟩
  show d.lines ≤ d.lines + c.lines
  omega

theorem contribute_grows (m : AuthorMap) (c : Contribution) (hc : 0 ≤ c.lines) (p : String)
    (d : AuthorData) (h : mapGet m p = some d) :
    ∃ d', mapGet (contribute m c) p = some d' ∧ grownFrom d d' := by
  rw [mapGet_contribute]
  unfold contributeFn
  by_cases hp : c.name = p
  · subst hp
    rw [if_pos rfl, h]
    exact ⟨_, rfl, grownFrom_bump d c hc⟩
  · rw [if_neg hp]
    exact ⟨d, h, grownFrom_refl d⟩

theorem foldl_contribute_grows (cs : List Contribution) (hcs : ∀ c ∈ cs, 0 ≤ c.lines)
    (m : AuthorMap) (p : String) (d : AuthorData) (h : mapGet m p = some d) :
    ∃ d', mapGet (cs.foldl contribute m) p = some d' ∧ grownFrom d d' := by
  induction cs generalizing m d with
  | nil => exact ⟨d, h, grownFrom_refl d⟩
  | cons c cs ih =>
    obtain ⟨d1, h1, g1⟩ := contribute_grows m c (hcs c (List.mem_cons_self _ _)) p d h
    obtain ⟨d2, h2, g2⟩ := ih (fun x hx => hcs x (List.mem_cons_of_mem _ hx)) _ d1 h1
    exact ⟨d2, h2, grownFrom_trans g1 g2⟩

/-- C17. Whatever the accumulator map and whatever file is folded into it (a
blame output or the history entry of an empty file): an identity that has an
accumulator before the fold has one after it, with the same name, a line
total that is not smaller, and a commit set and a file set that contain the
old ones. -/
theorem foldFile_grows (options : Options) (m : AuthorMap) (file : FileInput)
    (identity : String) (before : AuthorData) (h : mapGet m identity = some before) :
    ∃ after, mapGet (foldFile options m file) identity = some after ∧
      after.name = before.name ∧ before.lines ≤ after.lines ∧
      before.commits ⊆ after.commits ∧ before.files ⊆ after.files := by
  rw [foldFile_eq]
  exact foldl_contribute_grows _ (fun c hc => (contributions_valid options file c hc).2) m
    identity before h

theorem foldFile_grows_witness :
    mapGet [("Alice", aliceData)] "Alice" = some aliceData ∧
    ∃ after, mapGet (foldFile defaultOptions [("Alice", aliceData)]
        (FileInput.blame "util.go"
          "0123456789abcdef0123456789abcdef01234567 1 1 1\nauthor Alice\n\tx\n")) "Alice" =
        some after ∧
      after.name = aliceData.name ∧ aliceData.lines ≤ after.lines ∧
      aliceData.commits ⊆ after.commits ∧ aliceData.files ⊆ after.files :=
  ⟨rfl, foldFile_grows defaultOptions _ _ "Alice" _ rfl⟩

/-! ## The invariant of the accumulator map -/

theorem mapGet_eq_none_iff (m : AuthorMap) (k : String) :
    mapGet m k = none ↔ k ∉ m.map Prod.fst := by
  induction m with
  | nil => simp [mapGet]
  | cons e rest ih =>
    obtain ⟨k0, d0⟩ := e
    by_cases h : k0 = k
    · simp [mapGet, h]
    · simp only [mapGet, h, if_false, ih, List.map_cons, List.mem_cons, not_or]
      exact ⟨fun hk => ⟨Ne.symm h, hk⟩, fun hk => hk.2⟩

theorem mapGet_mem (m : AuthorMap) (k : String) (d : AuthorData) (h : mapGet m k = some d) :
    (k, d) ∈ m := by
  induction m with
  | nil => simp [mapGet] at h
  | cons e rest ih =>
    obtain ⟨k0, d0⟩ := e
    by_cases hk : k0 = k
    · simp only [mapGet, hk, if_true, Option.some.injEq] at h
      subst hk h
      exact List.mem_cons_self _ _
    · simp only [mapGet, hk, if_false] at h
      exact List.mem_cons_of_mem _ (ih h)

theorem keys_mapSet (m : AuthorMap) (k : String) (d : AuthorData) :
    (mapSet m k d).map Prod.fst =
      if k ∈ m.map Prod.fst then m.map Prod.fst else m.map Prod.fst ++ [k] := by
  induction m with
  | nil => simp [mapSet]
  | cons e rest ih =>
    obtain ⟨k0, d0⟩ := e
    by_cases h : k0 = k
    · simp [mapSet, h]
    · have h' : ¬ k = k0 := fun e => h e.symm
      by_cases hk : k ∈ rest.map Prod.fst
      · simp only [mapSet, h, if_false, List.map_cons, ih, hk, if_true, List.mem_cons, or_true]
      · simp only [mapSet, h, if_false, List.map_cons, ih, hk, List.mem_cons, h', or_self,
          List.cons_append]

theorem mem_mapSet (m : AuthorMap) (k : String) (d : AuthorData) (e : String × AuthorData)
    (h : e ∈ mapSet m k d) : e = (k, d) ∨ e ∈ m := by
  induction m with
  | nil =>
    simp only [mapSet, List.mem_singleton] at h
    exact Or.inl h
  | cons e0 rest ih =>
    obtain ⟨k0, d0⟩ := e0
    by_cases hk : k0 = k
    · simp only [mapSet, hk, if_true, List.mem_cons] at h
      rcases h with h | h
      · exact Or.inl h
      · exact Or.inr (List.mem_cons_of_mem _ h)
    · simp only [mapSet, hk, if_false, List.mem_cons] at h
      rcases h with h | h
      · exact Or.inr (h ▸ List.mem_cons_self _ _)
      · rcases ih h with h' | h'
        · exact Or.inl h'
        · exact Or.inr (List.mem_cons_of_mem _ h')

theorem validMap_contribute (m : AuthorMap) (c : Contribution) (hm : validMap m)
    (hname : c.name ≠ "") (hlines : 0 ≤ c.lines) : validMap (contribute m c) := by
  obtain ⟨hnd, hall⟩ := hm
  unfold contribute
  constructor
  · rw [keys_mapSet]
    by_cases hk : c.name ∈ m.map Prod.fst
    · rw [if_pos hk]
      exact hnd
    · rw [if_neg hk]
      exact List.Nodup.append hnd (List.nodup_singleton _)
        (by simpa [List.disjoint_singleton] using hk)
  · intro e he
    rcases mem_mapSet _ _ _ _ he with h | h
    · subst h
      have hold : ((mapGet m c.name).getD (freshData c.name)).name = c.name ∧
          0 ≤ ((mapGet m c.name).getD (freshData c.name)).lines := by
        cases hg : mapGet m c.name with
        | none => exact ⟨rfl, le_refl 0⟩
        | some d0 =>
          have hv := hall _ (mapGet_mem m c.name d0 hg)
          exact ⟨hv.2.1, hv.2.2.2.2⟩
      refine ⟨hname, hold.1, Finset.insert_nonempty _ _, Finset.insert_nonempty _ _, ?_⟩
      show 0 ≤ ((mapGet m c.name).getD (freshData c.name)).lines + c.lines
      have := hold.2
      omega
    · exact hall e h

theorem validMap_foldl_contribute (cs : List Contribution)
    (hcs : ∀ c ∈ cs, c.name ≠ "" ∧ 0 ≤ c.lines) (m : AuthorMap) (hm : validMap m) :
    validMap (cs.foldl contribute m) := by
  induction cs generalizing m with
  | nil => exact hm
  | cons c cs ih =>
    have hc := hcs c (List.mem_cons_self _ _)
    exact ih (fun x hx => hcs x (List.mem_cons_of_mem _ hx)) _
      (validMap_contribute m c hm hc.1 hc.2)

theorem validMap_foldFiles (options : Options) (files : List FileInput) (m : AuthorMap)
    (hm : validMap m) : validMap (files.foldl (foldFile options) m) := by
  induction files generalizing m with
  | nil => exact hm
  | cons file rest ih =>
    rw [List.foldl_cons]
    apply ih
    rw [foldFile_eq]
    exact validMap_foldl_contribute _ (contributions_valid options file) m hm

theorem validMap_nil : validMap [] :=
  ⟨List.nodup_nil, fun _ h => absurd h (List.not_mem_nil _)⟩

theorem calculateResults_names (m : AuthorMap) (hm : validMap m) :
    (calculateResults m).map AuthorStats.Name = m.map Prod.fst := by
  unfold calculateResults
  rw [List.map_map]
  apply List.map_congr_left
  intro e he
  exact (hm.2 e he).2.1

/-- C19. From the empty accumulator map, after any sequence of files (blame
outputs and history entries of empty files) is folded: no key occurs twice,
every key is non-empty and is the name of its accumulator, and every
accumulator has at least one commit and one file. So the statistics of
`calculateResults` have pairwise distinct, non-empty names, and each has at
least one commit, at least one file and a line count that is not negative. -/
theorem foldFiles_invariant (options : Options) (files : List FileInput) :
    ((files.foldl (foldFile options) []).map Prod.fst).Nodup ∧
      (∀ entry ∈ files.foldl (foldFile options) [],
        entry.1 ≠ "" ∧ entry.2.name = entry.1 ∧ entry.2.commits ≠ ∅ ∧ entry.2.files ≠ ∅) ∧
      ((calculateResults (files.foldl (foldFile options) [])).map AuthorStats.Name).Nodup ∧
      ∀ stats ∈ calculateResults (files.foldl (foldFile options) []),
        stats.Name ≠ "" ∧ stats.Commits ≥ 1 ∧ stats.Files ≥ 1 ∧ stats.Lines ≥ 0 := by
  have hv := validMap_foldFiles options files [] validMap_nil
  refine ⟨hv.1, ?_, ?_, ?_⟩
  · intro entry he
    obtain ⟨h1, h2, h3, h4, _⟩ := hv.2 entry he
    exact ⟨h1, h2, Finset.nonempty_iff_ne_empty.mp h3, Finset.nonempty_iff_ne_empty.mp h4⟩
  · rw [calculateResults_names _ hv]
    exact hv.1
  · intro stats hs
    unfold calculateResults at hs
    rw [List.mem_map] at hs
    obtain ⟨entry, he, rfl⟩ := hs
    obtain ⟨h1, h2, h3, h4, h5⟩ := hv.2 entry he
    refine ⟨?_, ?_, ?_, h5⟩
    · show entry.2.name ≠ ""
      rw [h2]
      exact h1
    · show (1 : Int) ≤ (entry.2.commits.card : Int)
      exact_mod_cast Finset.card_pos.mpr h3
    · show (1 : Int) ≤ (entry.2.files.card : Int)
      exact_mod_cast Finset.card_pos.mpr h4

/-! ## Metadata lines that do not count -/

theorem isMetadataLine_iff (line : String) :
    isMetadataLine line = true ↔
      ¬ line.utf8ByteSize = 0 ∧ ¬ isContentLine line = true ∧ ¬ isHeaderLine line = true := by
  unfold isMetadataLine
  simp only [Bool.and_eq_true, decide_eq_true_eq, Bool.not_eq_true', ne_eq,
    Bool.not_eq_true, and_assoc]

theorem stepBlock_metadata (b : Block) {line : String} (h : isMetadataLine line = true) :
    stepBlock b line =
      if lineKey line = "author" then { b with author := lineValue line }
      else if lineKey line = "committer" then { b with committer := lineValue line }
      else b := by
  obtain ⟨h0, hc, hh⟩ := (isMetadataLine_iff line).mp h
  unfold stepBlock
  rw [if_neg h0, if_neg hc, if_neg hh]
  rfl

theorem sameIdentity_step {useCmtr : Bool} {b1 b2 : Block} (line : String)
    (h : sameIdentity useCmtr b1 b2) :
    sameIdentity useCmtr (stepBlock b1 line) (stepBlock b2 line) := by
  obtain ⟨h1, h2, h3⟩ := h
  by_cases hh : isHeaderLine line = true
  · obtain ⟨h0, hc', _⟩ := (isHeaderLine_iff line).mp hh
    have hc : ¬ isContentLine line = true := by simp [isHeaderLine_not_content hh]
    unfold stepBlock
    rw [if_neg h0, if_neg hc, if_pos hh, if_neg h0, if_neg hc, if_pos hh]
    refine ⟨rfl, rfl, ?_⟩
    cases useCmtr <;> rfl
  · by_cases hc : isContentLine line = true
    · rw [stepBlock_content b1 hc, stepBlock_content b2 hc]
      refine ⟨h1, ?_, h3⟩
      show b1.lines + 1 = b2.lines + 1
      rw [h2]
    · by_cases h0 : line.utf8ByteSize = 0
      · unfold stepBlock
        rw [if_pos h0, if_pos h0]
        exact ⟨h1, h2, h3⟩
      · have hm : isMetadataLine line = true := (isMetadataLine_iff line).mpr ⟨h0, hc, hh⟩
        rw [stepBlock_metadata b1 hm, stepBlock_metadata b2 hm]
        by_cases ha : lineKey line = "author"
        · rw [if_pos ha, if_pos ha]
          refine ⟨h1, h2, ?_⟩
          cases useCmtr
          · rfl
          · exact h3
        · rw [if_neg ha, if_neg ha]
          by_cases hk : lineKey line = "committer"
          · rw [if_pos hk, if_pos hk]
            refine ⟨h1, h2, ?_⟩
            cases useCmtr
            · exact h3
            · rfl
          · rw [if_neg hk, if_neg hk]
            exact ⟨h1, h2, h3⟩

theorem sameIdentity_step_key {useCmtr : Bool} {b1 b2 : Block} {line1 line2 key : String}
    (hkey : key = if useCmtr then "author" else "committer")
    (hm1 : isMetadataLine line1 = true) (hm2 : isMetadataLine line2 = true)
    (hk1 : lineKey line1 = key) (hk2 : lineKey line2 = key)
    (h : sameIdentity useCmtr b1 b2) :
    sameIdentity useCmtr (stepBlock b1 line1) (stepBlock b2 line2) := by
  obtain ⟨h1, h2, h3⟩ := h
  cases useCmtr
  · have hk : key = "committer" := by simpa using hkey
    subst hk
    rw [stepBlock_metadata b1 hm1, stepBlock_metadata b2 hm2, hk1, hk2,
      if_neg (by decide), if_pos rfl, if_neg (by decide), if_pos rfl]
    exact ⟨h1, h2, h3⟩
  · have hk : key = "author" := by simpa using hkey
    subst hk
    rw [stepBlock_metadata b1 hm1, stepBlock_metadata b2 hm2, hk1, hk2, if_pos rfl, if_pos rfl]
    exact ⟨h1, h2, h3⟩

theorem sameIdentity_contributions (options : Options) (filePath : String) {b1 b2 : Block}
    (h : sameIdentity options.UseCmtr b1 b2) :
    b1.contributions options filePath = b2.contributions options filePath := by
  obtain ⟨h1, h2, h3⟩ := h
  have hid : b1.identity options = b2.identity options := by
    unfold Block.identity
    cases hu : options.UseCmtr
    · rw [hu] at h3
      simpa using h3
    · rw [hu] at h3
      simpa using h3
  unfold Block.contributions
  rw [h1, h2, hid]

theorem blocksFrom_sameIdentity (options : Options) (filePath : String) (key : String)
    (hkey : key = if options.UseCmtr then "author" else "committer")
    {lines1 lines2 : List String} (hl : List.Forall₂ (sameUpTo key) lines1 lines2)
    (b1 b2 : Block) (hb : sameIdentity options.UseCmtr b1 b2) :
    (blocksFrom b1 lines1).flatMap (Block.contributions options filePath) =
      (blocksFrom b2 lines2).flatMap (Block.contributions options filePath) := by
  induction hl generalizing b1 b2 with
  | nil =>
    have hh : b1.hash = b2.hash := hb.1
    by_cases h : b2.hash = ""
    · simp [blocksFrom, h, hh]
    · simp [blocksFrom, h, hh, sameIdentity_contributions options filePath hb]
  | @cons line1 line2 rest1 rest2 hline _ ih =>
    have hh : b1.hash = b2.hash := hb.1
    rw [blocksFrom_cons, blocksFrom_cons, List.flatMap_append, List.flatMap_append]
    rcases hline with heq | ⟨hm1, hm2, hk1, hk2⟩
    · subst heq
      rw [ih _ _ (sameIdentity_step line1 hb)]
      congr 1
      by_cases hc : isHeaderLine line1 = true ∧ b1.hash ≠ ""
      · have hc2 : isHeaderLine line1 = true ∧ b2.hash ≠ "" := ⟨hc.1, hh ▸ hc.2⟩
        rw [if_pos hc, if_pos hc2, List.flatMap_singleton, List.flatMap_singleton,
          sameIdentity_contributions options filePath hb]
      · have hc2 : ¬ (isHeaderLine line1 = true ∧ b2.hash ≠ "") :=
          fun h => hc ⟨h.1, hh.symm ▸ h.2⟩
        rw [if_neg hc, if_neg hc2]
    · have hn1 : ¬ isHeaderLine line1 = true := ((isMetadataLine_iff line1).mp hm1).2.2
      have hn2 : ¬ isHeaderLine line2 = true := ((isMetadataLine_iff line2).mp hm2).2.2
      rw [if_neg (fun h => hn1 h.1), if_neg (fun h => hn2 h.1),
        ih _ _ (sameIdentity_step_key hkey hm1 hm2 hk1 hk2 hb)]

theorem isOtherKeyLine_iff (line : String) :
    isOtherKeyLine line = true ↔
      isMetadataLine line = true ∧ lineKey line ≠ "author" ∧ lineKey line ≠ "committer" := by
  unfold isOtherKeyLine
  simp only [Bool.and_eq_true, decide_eq_true_eq, and_assoc]

theorem blocksFrom_filter_otherKey (lines : List String) (b : Block) :
    blocksFrom b (lines.filter (fun line => !isOtherKeyLine line)) = blocksFrom b lines := by
  induction lines generalizing b with
  | nil => rfl
  | cons line rest ih =>
    by_cases ho : isOtherKeyLine line = true
    · obtain ⟨hm, ha, hk⟩ := (isOtherKeyLine_iff line).mp ho
      have hn : ¬ isHeaderLine line = true := ((isMetadataLine_iff line).mp hm).2.2
      have hs : stepBlock b line = b := by
        rw [stepBlock_metadata b hm, if_neg ha, if_neg hk]
      have hf : (line :: rest).filter (fun line => !isOtherKeyLine line) =
          rest.filter (fun line => !isOtherKeyLine line) := by
        rw [List.filter_cons]
        simp only [ho, Bool.not_true, Bool.false_eq_true, if_false]
      rw [hf, ih b, blocksFrom_cons, if_neg (fun h => hn h.1), hs, List.nil_append]
    · have ho' : isOtherKeyLine line = false := by simpa using ho
      have hf : (line :: rest).filter (fun line => !isOtherKeyLine line) =
          line :: rest.filter (fun line => !isOtherKeyLine line) := by
        rw [List.filter_cons]
        simp only [ho', Bool.not_false, if_true]
      rw [hf, blocksFrom_cons, blocksFrom_cons, ih]

/-- C20. With `UseCmtr` unset, two blame outputs whose lines are the same up
to the values of their `committer` metadata lines fold into the same
accumulator map; with `UseCmtr` set, so do two outputs that are the same up to
the values of their `author` lines. Under either policy the metadata lines
with a key other than `author` and `committer` do not count: two outputs with
the same lines once these are left out give the same map. -/
theorem foldBlame_noninterference (m : AuthorMap) (options : Options) (filePath : String) :
    (options.UseCmtr = false → ∀ output1 output2 : String,
      List.Forall₂ (sameUpTo "committer") (Strings.Split output1 '\n')
        (Strings.Split output2 '\n') →
      foldBlame m options filePath output1 = foldBlame m options filePath output2) ∧
    (options.UseCmtr = true → ∀ output1 output2 : String,
      List.Forall₂ (sameUpTo "author") (Strings.Split output1 '\n')
        (Strings.Split output2 '\n') →
      foldBlame m options filePath output1 = foldBlame m options filePath output2) ∧
    (∀ output1 output2 : String,
      (Strings.Split output1 '\n').filter (fun line => !isOtherKeyLine line) =
        (Strings.Split output2 '\n').filter (fun line => !isOtherKeyLine line) →
      foldBlame m options filePath output1 = foldBlame m options filePath output2) := by
  refine ⟨fun hu output1 output2 hl => ?_, fun hu output1 output2 hl => ?_,
    fun output1 output2 hl => ?_⟩
  · rw [foldBlame_eq, foldBlame_eq]
    simp only [FileInput.contributions, blameBlocks]
    rw [blocksFrom_sameIdentity options filePath "committer" (by rw [hu]; rfl) hl _ _
      ⟨rfl, rfl, by rw [hu]; rfl⟩]
  · rw [foldBlame_eq, foldBlame_eq]
    simp only [FileInput.contributions, blameBlocks]
    rw [blocksFrom_sameIdentity options filePath "author" (by rw [hu]; rfl) hl _ _
      ⟨rfl, rfl, by rw [hu]; rfl⟩]
  · rw [foldBlame_eq, foldBlame_eq]
    simp only [FileInput.contributions, blameBlocks]
    rw [← blocksFrom_filter_otherKey (Strings.Split output1 '\n'),
      ← blocksFrom_filter_otherKey (Strings.Split output2 '\n'), hl]

/-! ## Well-formed blame output: its lines and its blocks -/

theorem splitChars_append_sep (sep : Char) (l rest : List Char) (h : sep ∉ l) :
    Strings.splitChars sep (l ++ sep :: rest) = l :: Strings.splitChars sep rest := by
  induction l with
  | nil => simp [Strings.splitChars]
  | cons c l ih =>
    have hc : ¬ c = sep := fun e => h (e ▸ List.mem_cons_self _ _)
    have hl : sep ∉ l := fun e => h (List.mem_cons_of_mem _ e)
    rw [List.cons_append, Strings.splitChars, if_neg hc, ih hl]

theorem splitChars_lines (ls : List (List Char)) (h : ∀ l ∈ ls, '\n' ∉ l) :
    Strings.splitChars '\n' (ls.flatMap (fun l => l ++ ['\n'])) = ls ++ [[]] := by
  induction ls with
  | nil => rfl
  | cons l ls ih =>
    rw [List.flatMap_cons, List.append_assoc, List.singleton_append,
      splitChars_append_sep '\n' l _ (h l (List.mem_cons_self _ _)),
      ih (fun x hx => h x (List.mem_cons_of_mem _ hx)), List.cons_append]

theorem Split_lines (lines : List String) (h : ∀ l ∈ lines, noNewline l = true) :
    Strings.Split (String.mk (lines.flatMap (fun line => line.data ++ ['\n']))) '\n' =
      lines ++ [""] := by
  unfold Strings.Split
  have e : lines.flatMap (fun line => line.data ++ ['\n']) =
      (lines.map String.data).flatMap (fun l => l ++ ['\n']) := by
    rw [List.flatMap_map]
  rw [e, splitChars_lines]
  · simp [List.map_map, Function.comp_def]
  · intro l hl
    rw [List.mem_map] at hl
    obtain ⟨s, hs, rfl⟩ := hl
    have := h s hs
    simpa [noNewline] using this

theorem isHexLower_space_free (cs : List Char) (h : cs.all isHexLower = true) : ' ' ∉ cs := by
  intro hm
  have := List.all_eq_true.mp h ' ' hm
  exact absurd this (by decide)

theorem splitChars_length_of_mem (sep : Char) (cs : List Char) (h : sep ∈ cs) :
    2 ≤ (Strings.splitChars sep cs).length := by
  induction cs with
  | nil => exact absurd h (List.not_mem_nil _)
  | cons c cs ih =>
    by_cases hc : c = sep
    · rw [Strings.splitChars, if_pos hc, List.length_cons]
      have := splitChars_length_pos sep cs
      omega
    · have hm : sep ∈ cs := by
        rcases List.mem_cons.mp h with e | e
        · exact absurd e.symm hc
        · exact e
      have ih' := ih hm
      rw [Strings.splitChars, if_neg hc]
      cases hs : Strings.splitChars sep cs with
      | nil =>
        rw [hs] at ih'
        exact absurd ih' (by decide)
      | cons p ps =>
        rw [hs] at ih'
        exact ih'

theorem headerLine_isHeader (b : SourceBlock) (h : b.wellFormed = true) :
    isHeaderLine (b.hash ++ " " ++ b.fields) = true ∧
      (Strings.SplitN (b.hash ++ " " ++ b.fields) ' ' 4).headD "" = b.hash := by
  simp only [SourceBlock.wellFormed, Bool.and_eq_true, List.contains_iff_exists_mem_beq,
    beq_iff_eq, exists_eq_right] at h
  obtain ⟨⟨⟨⟨⟨⟨hh, hf⟩, _⟩, _⟩, _⟩, _⟩, _⟩ := h
  obtain ⟨h40, hhex⟩ := (isHash_iff b.hash).mp hh
  have hsp := isHexLower_space_free _ hhex
  have hsplit : Strings.splitChars ' ' (b.hash ++ " " ++ b.fields).data =
      b.hash.data :: Strings.splitChars ' ' b.fields.data := by
    have e : (b.hash ++ " " ++ b.fields).data = b.hash.data ++ ' ' :: b.fields.data := by
      simp [String.data_append]
    rw [e, splitChars_append_sep ' ' _ _ hsp]
  have hhead : (Strings.Split (b.hash ++ " " ++ b.fields) ' ').headD "" = b.hash := by
    rw [Strings.Split, hsplit]
    rfl
  refine ⟨?_, ?_⟩
  · rw [isHeaderLine_iff_split, hhead]
    refine ⟨?_, h40, hhex⟩
    rw [Strings.Split, hsplit, List.length_map, List.length_cons]
    have hf' : ' ' ∈ b.fields.data := by
      obtain ⟨a, ha, rfl⟩ := hf
      exact ha
    have := splitChars_length_of_mem ' ' b.fields.data hf'
    omega
  · rw [SplitN_head _ 2, hhead]

theorem authorLine_metadata (name : String) :
    isMetadataLine ("author " ++ name) = true ∧ lineKey ("author " ++ name) = "author" ∧
      lineValue ("author " ++ name) = name := by
  have e : ("author " ++ name).data = 'a' :: 'u' :: 't' :: 'h' :: 'o' :: 'r' :: ' ' :: name.data := by
    simp [String.data_append]
  have e2 : Strings.SplitN ("author " ++ name) ' ' 2 = ["author", name] := by
    unfold Strings.SplitN
    rw [e]
    rfl
  have e4 : (Strings.SplitN ("author " ++ name) ' ' 4).headD "" = "author" := by
    rw [SplitN_head _ 2, ← SplitN_head _ 0, e2]
    rfl
  refine ⟨?_, ?_, ?_⟩
  · rw [isMetadataLine_iff]
    refine ⟨?_, ?_, ?_⟩
    · rw [utf8ByteSize_eq_zero_iff, e]
      exact List.cons_ne_nil _ _
    · simp [isContentLine, e]
    · intro hh
      have := ((isHeaderLine_iff _).mp hh).2.2.2
      rw [e4] at this
      exact absurd this (by decide)
  · unfold lineKey
    rw [e2]
    rfl
  · unfold lineValue
    rw [e2]
    rfl

theorem contentLine_isContent (content : String) : isContentLine ("\t" ++ content) = true := by
  have e : ("\t" ++ content).data = '\t' :: content.data := by
    simp [String.data_append]
  simp [isContentLine, e]

theorem stepBlock_header_eq (b : Block) {line : String} (h : isHeaderLine line = true) :
    stepBlock b line =
      { hash := (Strings.SplitN line ' ' 4).headD "", author := "", committer := "",
        lines := 0 } := by
  obtain ⟨h0, _, _, _⟩ := (isHeaderLine_iff line).mp h
  have hc : ¬ isContentLine line = true := by simp [isHeaderLine_not_content h]
  unfold stepBlock
  rw [if_neg h0, if_neg hc, if_pos h]

theorem blocksFrom_content (content : List String) (rest : List String) (b : Block) :
    blocksFrom b (content.map (fun c => "\t" ++ c) ++ rest) =
      blocksFrom { b with lines := b.lines + content.length } rest := by
  induction content generalizing b with
  | nil => simp
  | cons c content ih =>
    have hc := contentLine_isContent c
    have hn : ¬ isHeaderLine ("\t" ++ c) = true := by
      intro hh
      rw [isHeaderLine_not_content hh] at hc
      exact absurd hc (by decide)
    rw [List.map_cons, List.cons_append, blocksFrom_cons, if_neg (fun h => hn h.1),
      List.nil_append, stepBlock_content b hc, ih]
    congr 1
    simp only [List.length_cons, Nat.cast_add, Nat.cast_one, Block.mk.injEq, true_and]
    ring

theorem blocksFrom_sourceBlock (sb : SourceBlock) (h : sb.wellFormed = true)
    (rest : List String) (b : Block) :
    blocksFrom b (sb.lines ++ rest) =
      (if b.hash ≠ "" then [b] else []) ++ blocksFrom sb.block rest := by
  obtain ⟨hh, hhead⟩ := headerLine_isHeader sb h
  obtain ⟨hm, hk, hv⟩ := authorLine_metadata sb.author
  have hn : ¬ isHeaderLine ("author " ++ sb.author) = true :=
    ((isMetadataLine_iff _).mp hm).2.2
  have step : ∀ (c : Block) (tail : List String),
      blocksFrom c (("author " ++ sb.author) :: tail) =
        blocksFrom { c with author := sb.author } tail := by
    intro c tail
    rw [blocksFrom_cons, if_neg (fun h => hn h.1), List.nil_append, stepBlock_metadata _ hm,
      if_pos hk, hv]
  unfold SourceBlock.lines
  rw [List.cons_append, List.cons_append, blocksFrom_cons b, stepBlock_header_eq b hh, hhead,
    step, blocksFrom_content]
  congr 1
  · by_cases hb : b.hash = ""
    · rw [if_neg (fun h => h.2 hb), if_neg (fun h => h hb)]
    · rw [if_pos ⟨hh, hb⟩, if_pos hb]
  · simp [SourceBlock.block]

theorem blocksFrom_sourceBlocks (bs : List SourceBlock) (h : ∀ sb ∈ bs, sb.wellFormed = true)
    (b : Block) :
    blocksFrom b (bs.flatMap SourceBlock.lines ++ [""]) =
      (if b.hash ≠ "" then [b] else []) ++ bs.map SourceBlock.block := by
  induction bs generalizing b with
  | nil =>
    have hn : ¬ isHeaderLine "" = true := by decide
    have hs : stepBlock b "" = b := by
      unfold stepBlock
      rw [if_pos (by decide)]
    rw [List.flatMap_nil, List.nil_append, blocksFrom_cons, if_neg (fun h => hn h.1), hs]
    simp [blocksFrom]
  | cons sb bs ih =>
    have hsb := h sb (List.mem_cons_self _ _)
    have hhash : sb.block.hash ≠ "" := by
      simp only [SourceBlock.wellFormed, Bool.and_eq_true] at hsb
      exact isHash_ne_empty hsb.1.1.1.1.1.1
    rw [List.flatMap_cons, List.append_assoc, blocksFrom_sourceBlock sb hsb,
      ih (fun x hx => h x (List.mem_cons_of_mem _ hx)), if_pos hhash, List.map_cons]
    rfl

theorem blameText_noNewline (bs : List SourceBlock) (h : ∀ sb ∈ bs, sb.wellFormed = true) :
    ∀ l ∈ bs.flatMap SourceBlock.lines, noNewline l = true := by
  intro l hl
  rw [List.mem_flatMap] at hl
  obtain ⟨sb, hsb, hl⟩ := hl
  have hw := h sb hsb
  simp only [SourceBlock.wellFormed, Bool.and_eq_true, decide_eq_true_eq, List.all_eq_true] at hw
  obtain ⟨⟨⟨⟨⟨⟨hh, _⟩, hf⟩, _⟩, ha⟩, _⟩, hc⟩ := hw
  have hhex := ((isHash_iff sb.hash).mp hh).2
  have hnl : '\n' ∉ sb.hash.data := by
    intro hm
    have := List.all_eq_true.mp hhex '\n' hm
    exact absurd this (by decide)
  simp only [noNewline, Bool.not_eq_true', List.contains_eq_any_beq, List.any_eq_false,
    beq_iff_eq] at hf ha hc ⊢
  unfold SourceBlock.lines at hl
  rcases List.mem_cons.mp hl with e | hl
  · subst e
    intro c hc'
    simp only [String.data_append, List.mem_append] at hc'
    rcases hc' with (hc' | hc') | hc'
    · exact fun e => hnl (e ▸ hc')
    · have : c = ' ' := by simpa using hc'
      subst this
      decide
    · exact hf c hc'
  · rcases List.mem_cons.mp hl with e | hl
    · subst e
      intro c hc'
      simp only [String.data_append, List.mem_append] at hc'
      rcases hc' with hc' | hc'
      · have hmem : c ∈ ['a', 'u', 't', 'h', 'o', 'r', ' '] := hc'
        intro e
        subst e
        exact absurd hmem (by decide)
      · exact ha c hc'
    · rw [List.mem_map] at hl
      obtain ⟨x, hx, rfl⟩ := hl
      intro c hc'
      simp only [String.data_append, List.mem_append] at hc'
      rcases hc' with hc' | hc'
      · have : c = '\t' := by simpa using hc'
        subst this
        decide
      · exact hc x hx c hc'

theorem blameBlocks_blameText (bs : List SourceBlock) (h : ∀ sb ∈ bs, sb.wellFormed = true) :
    blameBlocks (blameText bs) = bs.map SourceBlock.block := by
  unfold blameBlocks blameText
  rw [Split_lines _ (blameText_noNewline bs h), blocksFrom_sourceBlocks bs h]
  rfl

/-! ## The accumulator of an identity after a sequence of contributions -/

theorem foldl_contributeFn_apply (cs : List Contribution) (f : String → Option AuthorData)
    (p : String) :
    (cs.foldl contributeFn f) p =
      (cs.filter (fun c => decide (c.name = p))).foldl
        (fun o c => some (bump (o.getD (freshData p)) c)) (f p) := by
  induction cs generalizing f with
  | nil => rfl
  | cons c cs ih =>
    rw [List.foldl_cons, ih, List.filter_cons]
    by_cases hc : c.name = p
    · subst hc
      simp [contributeFn]
    · simp [contributeFn, hc]

theorem foldl_bump_some (cs : List Contribution) (p : String) (d : AuthorData) :
    cs.foldl (fun o c => some (bump (o.getD (freshData p)) c)) (some d) =
      some { name := d.name
             lines := d.lines + (cs.map Contribution.lines).sum
             commits := d.commits ∪ (cs.map Contribution.hash).toFinset
             files := d.files ∪ (cs.map Contribution.filePath).toFinset } := by
  induction cs generalizing d with
  | nil => simp
  | cons c cs ih =>
    rw [List.foldl_cons, Option.getD_some, ih]
    simp only [bump, List.map_cons, List.sum_cons, List.toFinset_cons, Option.some.injEq,
      AuthorData.mk.injEq, true_and]
    refine ⟨by ring, ?_, ?_⟩
    · ext x
      simp only [Finset.mem_union, Finset.mem_insert]
      tauto
    · ext x
      simp only [Finset.mem_union, Finset.mem_insert]
      tauto

theorem foldl_bump_none (cs : List Contribution) (p : String) :
    cs.foldl (fun o c => some (bump (o.getD (freshData p)) c)) none =
      if cs = [] then none
      else some { name := p
                  lines := (cs.map Contribution.lines).sum
                  commits := (cs.map Contribution.hash).toFinset
                  files := (cs.map Contribution.filePath).toFinset } := by
  cases cs with
  | nil => rfl
  | cons c cs =>
    rw [List.foldl_cons, Option.getD_none, foldl_bump_some, if_neg (List.cons_ne_nil _ _)]
    simp only [bump, freshData, zero_add, List.map_cons, List.sum_cons, List.toFinset_cons,
      Option.some.injEq, AuthorData.mk.injEq, true_and]
    refine ⟨?_, ?_⟩
    · rw [Finset.insert_eq, Finset.insert_eq, Finset.union_empty]
    · rw [Finset.insert_eq, Finset.insert_eq, Finset.union_empty]

theorem mem_mapGet (m : AuthorMap) (hnd : (m.map Prod.fst).Nodup) (k : String)
    (d : AuthorData) (h : (k, d) ∈ m) : mapGet m k = some d := by
  induction m with
  | nil => exact absurd h (List.not_mem_nil _)
  | cons e rest ih =>
    obtain ⟨k0, d0⟩ := e
    rw [List.map_cons, List.nodup_cons] at hnd
    rcases List.mem_cons.mp h with e | h'
    · simp only [Prod.mk.injEq] at e
      obtain ⟨rfl, rfl⟩ := e
      simp [mapGet]
    · have hk : ¬ k0 = k := by
        intro e
        subst e
        exact hnd.1 (List.mem_map.mpr ⟨(k0, d), h', rfl⟩)
      simp only [mapGet, hk, if_false]
      exact ih hnd.2 h'

theorem contributions_blameText (options : Options) (filePath : String)
    (hu : options.UseCmtr = false) (bs : List SourceBlock)
    (h : ∀ sb ∈ bs, sb.wellFormed = true) :
    (FileInput.blame filePath (blameText bs)).contributions options =
      bs.map (fun sb =>
        { name := sb.author, lines := sb.content.length, hash := sb.hash,
          filePath := filePath }) := by
  simp only [FileInput.contributions]
  rw [blameBlocks_blameText bs h]
  induction bs with
  | nil => rfl
  | cons sb bs ih =>
    have hsb := h sb (List.mem_cons_self _ _)
    simp only [SourceBlock.wellFormed, Bool.and_eq_true, decide_eq_true_eq] at hsb
    obtain ⟨⟨⟨⟨⟨⟨hh, _⟩, _⟩, ha⟩, _⟩, hc⟩, _⟩ := hsb
    have h1 : ¬ sb.block.hash = "" := isHash_ne_empty hh
    have h2 : ¬ sb.block.lines = 0 := by
      show ¬ ((sb.content.length : Int) = 0)
      have := List.length_pos.mpr hc
      omega
    have h3 : ¬ sb.block.identity options = "" := by
      unfold Block.identity
      rw [hu]
      exact ha
    have hid : sb.block.identity options = sb.author := by
      unfold Block.identity
      rw [hu]
      rfl
    rw [List.map_cons, List.flatMap_cons, ih (fun x hx => h x (List.mem_cons_of_mem _ hx)),
      List.map_cons]
    unfold Block.contributions
    rw [if_neg (by tauto), hid]
    rfl

theorem mapGet_blameText (options : Options) (filePath : String)
    (hu : options.UseCmtr = false) (bs : List SourceBlock)
    (h : ∀ sb ∈ bs, sb.wellFormed = true) (author : String) :
    mapGet (foldBlame [] options filePath (blameText bs)) author =
      if blocksOf bs author = [] then none
      else some
        { name := author
          lines := ((blocksOf bs author).map (fun sb => (sb.content.length : Int))).sum
          commits := ((blocksOf bs author).map SourceBlock.hash).toFinset
          files := {filePath} } := by
  rw [foldBlame_eq, mapGet_foldl_contribute, foldl_contributeFn_apply,
    contributions_blameText options filePath hu bs h]
  have hf : (bs.map (fun sb => Contribution.mk sb.author sb.content.length sb.hash
      filePath)).filter (fun c => decide (c.name = author)) =
      (blocksOf bs author).map (fun sb => Contribution.mk sb.author sb.content.length sb.hash
        filePath) := by
    unfold blocksOf
    rw [List.filter_map]
    rfl
  rw [hf]
  have hnone : mapGet [] author = none := rfl
  rw [hnone, foldl_bump_none]
  by_cases he : blocksOf bs author = []
  · rw [he]
    rfl
  · rw [if_neg he, if_neg (by simpa using he)]
    simp only [List.map_map, Function.comp_def, Option.some.injEq, AuthorData.mk.injEq, true_and]
    ext x
    simp only [List.mem_toFinset, List.mem_map, Finset.mem_singleton]
    constructor
    · rintro ⟨_, _, rfl⟩
      rfl
    · rintro rfl
      obtain ⟨sb, hsb⟩ := List.exists_mem_of_ne_nil _ he
      exact ⟨sb, hsb, rfl⟩

/-! ## Well-formed blame output: the statistics -/

/-- C11. The blame output of one file made of well-formed blocks (a header
line with a hash of 40 characters in `0-9` or `a-f` and at least two more
space-separated fields, an `author` line with a non-empty name, and one or
more content lines), parsed under the author policy from the empty map: every
author of a block has an accumulator, and only they; its line total is the sum
of the numbers of content lines of the blocks of that author, its commit set
is the set of their hashes and its file set is the file alone. So every
statistic has as `Lines` that sum, as `Commits` the number of distinct hashes
among the blocks of the author, and `Files = 1`. For the blocks `hash1` (three
content lines, Alice) and `hash2` (two content lines, Bob) ranked by lines the
result is Alice (3, 1, 1), then Bob (2, 1, 1). -/
theorem blameText_stats (options : Options) (filePath : String) (bs : List SourceBlock)
    (hu : options.UseCmtr = false) (h : ∀ sb ∈ bs, sb.wellFormed = true) :
    (∀ author, mapGet (foldBlame [] options filePath (blameText bs)) author =
      if blocksOf bs author = [] then none
      else some
        { name := author
          lines := ((blocksOf bs author).map (fun sb => (sb.content.length : Int))).sum
          commits := ((blocksOf bs author).map SourceBlock.hash).toFinset
          files := {filePath} }) ∧
    (∀ stats ∈ calculateResults (foldBlame [] options filePath (blameText bs)),
      blocksOf bs stats.Name ≠ [] ∧
      stats.Lines = ((blocksOf bs stats.Name).map (fun sb => (sb.content.length : Int))).sum ∧
      stats.Commits = (((blocksOf bs stats.Name).map SourceBlock.hash).dedup.length : Int) ∧
      stats.Files = 1) ∧
    (∀ sb ∈ bs, ∃ stats ∈ calculateResults (foldBlame [] options filePath (blameText bs)),
      stats.Name = sb.author) ∧
    sortResults (calculateResults (foldBlame [] defaultOptions "main.go"
        (blameText aliceBobBlocks))) "lines" =
      [{ Name := "Alice", Lines := 3, Commits := 1, Files := 1 },
       { Name := "Bob", Lines := 2, Commits := 1, Files := 1 }] := by
  have hget := mapGet_blameText options filePath hu bs h
  have hv : validMap (foldBlame [] options filePath (blameText bs)) := by
    rw [foldBlame_eq]
    exact validMap_foldl_contribute _ (contributions_valid options _) [] validMap_nil
  refine ⟨hget, ?_, ?_, by decide⟩
  · intro stats hs
    unfold calculateResults at hs
    rw [List.mem_map] at hs
    obtain ⟨⟨k, d⟩, he, rfl⟩ := hs
    have hname : d.name = k := (hv.2 _ he).2.1
    have hk := mem_mapGet _ hv.1 k d he
    rw [hget k] at hk
    by_cases hb : blocksOf bs k = []
    · rw [if_pos hb] at hk
      exact absurd hk (by simp)
    · rw [if_neg hb, Option.some.injEq] at hk
      subst hk
      refine ⟨hb, rfl, ?_, ?_⟩
      · show ((((blocksOf bs k).map SourceBlock.hash).toFinset.card : Nat) : Int) = _
        rw [List.card_toFinset]
      · show (((({filePath} : Finset String).card : Nat)) : Int) = 1
        rw [Finset.card_singleton]
        rfl
  · intro sb hsb
    have hb : blocksOf bs sb.author ≠ [] := by
      intro e
      have : sb ∈ blocksOf bs sb.author := by
        unfold blocksOf
        rw [List.mem_filter]
        exact ⟨hsb, by simp⟩
      rw [e] at this
      exact absurd this (List.not_mem_nil _)
    have hk := hget sb.author
    rw [if_neg hb] at hk
    have hmem := mapGet_mem _ _ _ hk
    refine ⟨_, List.mem_map.mpr ⟨_, hmem, rfl⟩, rfl⟩

theorem blameText_stats_witness :
    defaultOptions.UseCmtr = false ∧ (∀ sb ∈ aliceBobBlocks, sb.wellFormed = true) ∧
      mapGet (foldBlame [] defaultOptions "main.go" (blameText aliceBobBlocks)) "Alice" =
        some { name := "Alice", lines := 3,
               commits := {"1111111111111111111111111111111111111111"},
               files := {"main.go"} } ∧
      sortResults (calculateResults (foldBlame [] defaultOptions "main.go"
          (blameText aliceBobBlocks))) "lines" =
        [{ Name := "Alice", Lines := 3, Commits := 1, Files := 1 },
         { Name := "Bob", Lines := 2, Commits := 1, Files := 1 }] :=
  have h := blameText_stats defaultOptions "main.go" aliceBobBlocks rfl (by decide)
  ⟨rfl, by decide, (h.1 "Alice").trans (by decide), h.2.2.2⟩

/-! ## Invalid options -/

/-- C14. The function `validateOptions` returns an error exactly when `Order`
is not one of `lines`, `commits`, `files` or `Format` is not one of `tabular`,
`csv`, `json`, `json-lines`. When it returns an error, `Run` writes the
message of the error and a line feed to the error stream, writes nothing to
the output and returns the error, whatever the repository, the language table
and the library functions are: no file is listed or processed. -/
theorem validateOptions_iff (options : Options) :
    (validateOptions options ≠ none ↔
      ¬ (options.Order = "lines" ∨ options.Order = "commits" ∨ options.Order = "files") ∨
      ¬ (options.Format = "tabular" ∨ options.Format = "csv" ∨ options.Format = "json" ∨
        options.Format = "json-lines")) ∧
    ∀ err, validateOptions options = some err →
      ∀ (git : Git) (lower : Char → Char) (pathMatch : String → String → Bool)
        (tabwriter : String → String) (csvRecord : List String → String)
        (table : Except String (List LanguageDefinition)),
        Run git lower pathMatch tabwriter csvRecord table options =
          { output := "", errorOutput := [err ++ "\n"], err := some err } := by
  constructor
  · unfold validateOptions
    by_cases h1 : options.Order ≠ "lines" ∧ options.Order ≠ "commits" ∧ options.Order ≠ "files"
    · rw [if_pos h1]
      simp only [ne_eq, not_false_eq_true, true_iff, reduceCtorEq]
      left
      tauto
    · rw [if_neg h1]
      by_cases h2 : options.Format ≠ "tabular" ∧ options.Format ≠ "csv" ∧
          options.Format ≠ "json" ∧ options.Format ≠ "json-lines"
      · rw [if_pos h2]
        simp only [ne_eq, not_false_eq_true, true_iff, reduceCtorEq]
        right
        tauto
      · rw [if_neg h2]
        simp only [ne_eq, not_true_eq_false, false_iff]
        tauto
  · intro err herr git lower pathMatch tabwriter csvRecord table
    unfold Run
    rw [herr]

/-! ## Letter case and the leading dot of extensions -/

theorem lowerLaws_toLower : LowerLaws Char.toLower := by
  have key : ∀ c : Char, (65 ≤ c.toNat ∧ c.toNat ≤ 90) →
      Char.toLower c ≠ '.' ∧ Char.toLower (Char.toLower c) = Char.toLower c := by
    intro c hc
    obtain ⟨n, hn⟩ : ∃ n, c.toNat = n := ⟨_, rfl⟩
    have hcn : c = Char.ofNat n := by rw [← hn, Char.ofNat_toNat]
    rw [hn] at hc
    obtain ⟨h1, h2⟩ := hc
    subst hcn
    interval_cases n <;> decide
  have other : ∀ c : Char, ¬ (65 ≤ c.toNat ∧ c.toNat ≤ 90) → Char.toLower c = c := by
    intro c hc
    unfold Char.toLower
    simp only [ge_iff_le]
    rw [if_neg hc]
  refine ⟨by decide, ?_, ?_⟩
  · intro c h
    by_cases hc : 65 ≤ c.toNat ∧ c.toNat ≤ 90
    · exact absurd h (key c hc).1
    · rw [other c hc] at h
      exact h
  · intro c
    by_cases hc : 65 ≤ c.toNat ∧ c.toNat ≤ 90
    · exact (key c hc).2
    · rw [other c hc, other c hc]

theorem HasPrefix_dot (s : String) : Strings.HasPrefix s "." = true ↔ s.data.head? = some '.' := by
  obtain ⟨cs⟩ := s
  cases cs with
  | nil => simp [Strings.HasPrefix, List.isPrefixOf]
  | cons c cs =>
    show List.isPrefixOf ['.'] (c :: cs) = true ↔ _
    simp only [List.isPrefixOf, Bool.and_true, beq_iff_eq, List.head?_cons, Option.some.injEq]
    exact eq_comm

theorem ToLower_data (lower : Char → Char) (s : String) :
    (Strings.ToLower lower s).data = s.data.map lower := rfl

theorem HasPrefix_dot_ToLower {lower : Char → Char} (hl : LowerLaws lower) (s : String) :
    Strings.HasPrefix (Strings.ToLower lower s) "." = Strings.HasPrefix s "." := by
  rw [Bool.eq_iff_iff, HasPrefix_dot, HasPrefix_dot, ToLower_data]
  cases s.data with
  | nil => simp
  | cons c cs =>
    simp only [List.map_cons, List.head?_cons, Option.some.injEq]
    exact ⟨hl.dot_only c, fun h => h ▸ hl.dot⟩

theorem ToLower_append (lower : Char → Char) (s t : String) :
    Strings.ToLower lower (s ++ t) = Strings.ToLower lower s ++ Strings.ToLower lower t := by
  apply String.ext
  simp [ToLower_data, String.data_append]

theorem ToLower_dot {lower : Char → Char} (hl : LowerLaws lower) :
    Strings.ToLower lower "." = "." := by
  apply String.ext
  show ['.'].map lower = ['.']
  simp [hl.dot]

theorem ToLower_idem {lower : Char → Char} (hl : LowerLaws lower) (s : String) :
    Strings.ToLower lower (Strings.ToLower lower s) = Strings.ToLower lower s := by
  apply String.ext
  simp [ToLower_data, hl.idem]

theorem normalizeExtension_eq {lower : Char → Char} (hl : LowerLaws lower) (ext : String) :
    normalizeExtension lower ext = dottedLower lower ext := by
  unfold normalizeExtension dottedLower
  by_cases h : Strings.HasPrefix ext "." = true
  · simp [h]
  · simp only [h, Bool.false_eq_true, not_false_eq_true, if_true, if_false]
    rw [ToLower_append, ToLower_dot hl]

theorem dottedLower_normal {lower : Char → Char} (hl : LowerLaws lower) (ext : String) :
    Strings.HasPrefix (dottedLower lower ext) "." = true ∧
      Strings.ToLower lower (dottedLower lower ext) = dottedLower lower ext := by
  unfold dottedLower
  by_cases h : Strings.HasPrefix ext "." = true
  · rw [if_pos h]
    exact ⟨by rw [HasPrefix_dot_ToLower hl, h], ToLower_idem hl ext⟩
  · rw [if_neg h]
    refine ⟨?_, ?_⟩
    · rw [HasPrefix_dot]
      simp [String.data_append]
    · rw [ToLower_append, ToLower_dot hl, ToLower_idem hl]

theorem dottedLower_sameExtension {lower : Char → Char} (hl : LowerLaws lower)
    {t1 t2 : String}
    (h : Strings.ToLower lower t1 = Strings.ToLower lower t2 ∨
      (Strings.HasPrefix t1 "." = false ∧
        "." ++ Strings.ToLower lower t1 = Strings.ToLower lower t2) ∨
      (Strings.HasPrefix t2 "." = false ∧
        "." ++ Strings.ToLower lower t2 = Strings.ToLower lower t1)) :
    dottedLower lower t1 = dottedLower lower t2 := by
  have dotted : ∀ a b : String, Strings.HasPrefix a "." = false →
      "." ++ Strings.ToLower lower a = Strings.ToLower lower b →
      dottedLower lower a = dottedLower lower b := by
    intro a b ha hab
    have hb : Strings.HasPrefix b "." = true := by
      rw [← HasPrefix_dot_ToLower hl, ← hab, HasPrefix_dot]
      simp [String.data_append]
    unfold dottedLower
    rw [if_neg (by simp [ha]), if_pos hb, hab]
  rcases h with h | ⟨h1, h2⟩ | ⟨h1, h2⟩
  · have hp : Strings.HasPrefix t1 "." = Strings.HasPrefix t2 "." := by
      rw [← HasPrefix_dot_ToLower hl t1, ← HasPrefix_dot_ToLower hl t2, h]
    unfold dottedLower
    rw [hp, h]
  · exact dotted t1 t2 h1 h2
  · exact (dotted t2 t1 h1 h2).symm

theorem buildExtensionFilter_foldl (lower : Char → Char) (extensions : List String)
    (acc : Finset String) (key : String) :
    key ∈ extensions.foldl (fun (allowed : Finset String) ext =>
        let ext := Strings.TrimSpace ext
        if ext = "" then allowed else insert (normalizeExtension lower ext) allowed) acc ↔
      key ∈ acc ∨ ∃ e ∈ extensions, Strings.TrimSpace e ≠ "" ∧
        key = normalizeExtension lower (Strings.TrimSpace e) := by
  induction extensions generalizing acc with
  | nil => simp
  | cons e rest ih =>
    rw [List.foldl_cons, ih]
    by_cases h : Strings.TrimSpace e = ""
    · simp [h]
    · simp only [h, if_false, Finset.mem_insert, List.mem_cons, exists_eq_or_imp, ne_eq,
        not_false_eq_true, true_and]
      tauto

theorem buildExtensionFilter_mem (lower : Char → Char) (extensions : List String)
    (key : String) :
    buildExtensionFilter lower extensions = .ok (extensions.foldl (fun (allowed : Finset String) ext =>
        let ext := Strings.TrimSpace ext
        if ext = "" then allowed else insert (normalizeExtension lower ext) allowed) ∅) ∧
    (key ∈ extensions.foldl (fun (allowed : Finset String) ext =>
        let ext := Strings.TrimSpace ext
        if ext = "" then allowed else insert (normalizeExtension lower ext) allowed) ∅ ↔
      ∃ e ∈ extensions, Strings.TrimSpace e ≠ "" ∧
        key = normalizeExtension lower (Strings.TrimSpace e)) := by
  refine ⟨rfl, ?_⟩
  rw [buildExtensionFilter_foldl]
  simp

theorem forall₂_exists {α : Type} {R : α → α → Prop} {l1 l2 : List α}
    (h : List.Forall₂ R l1 l2) : ∀ a ∈ l1, ∃ b ∈ l2, R a b := by
  induction h with
  | nil => intro a ha; exact absurd ha (List.not_mem_nil _)
  | cons hab _ ih =>
    intro x hx
    rcases List.mem_cons.mp hx with e | hx'
    · subst e
      exact ⟨_, List.mem_cons_self _ _, hab⟩
    · obtain ⟨b, hb, hr⟩ := ih x hx'
      exact ⟨b, List.mem_cons_of_mem _ hb, hr⟩

theorem sameExtension_symm {lower : Char → Char} {e1 e2 : String}
    (h : sameExtension lower e1 e2) : sameExtension lower e2 e1 := by
  rcases h with ⟨h1, h2⟩ | ⟨h1, h2, h3⟩
  · exact Or.inl ⟨h2, h1⟩
  · refine Or.inr ⟨h2, h1, ?_⟩
    rcases h3 with h | h | h
    · exact Or.inl h.symm
    · exact Or.inr (Or.inr h)
    · exact Or.inr (Or.inl h)

theorem shouldProcessFile_ext (lower : Char → Char) (pathMatch : String → String → Bool)
    (path1 path2 : String) (allowed languageExtensions : Finset String) (useLanguage : Bool)
    (h : Strings.ToLower lower (Filepath.Ext path1) = Strings.ToLower lower (Filepath.Ext path2)) :
    shouldProcessFile lower pathMatch path1 allowed languageExtensions useLanguage [] [] =
      shouldProcessFile lower pathMatch path2 allowed languageExtensions useLanguage [] [] := by
  unfold shouldProcessFile
  simp only [List.length_nil, gt_iff_lt, lt_self_iff_false, false_and, if_false, h]

/-- C16. For a character mapping `lower` with the properties of
`unicode.ToLower` that `LowerLaws` lists, `buildExtensionFilter` stores, for
every entry `e` that is not blank once trimmed, `lower(e)` if `e` starts with a
dot and `"." + lower(e)` if not, and nothing else; so every stored key begins
with a dot and is in lower case. With the allow-set it builds, two paths whose
final extensions are equal up to letter case get the same decision of the
extension and language tests of `shouldProcessFile`, and an extension list
whose entries name the same extensions up to letter case and to the leading
dot builds the same allow-set, hence gives the same decisions. -/
theorem buildExtensionFilter_normalized (lower : Char → Char) (hl : LowerLaws lower)
    (extensions : List String) :
    ∃ allowed : Finset String, buildExtensionFilter lower extensions = .ok allowed ∧
      (∀ key, key ∈ allowed ↔ ∃ e ∈ extensions, Strings.TrimSpace e ≠ "" ∧
        key = dottedLower lower (Strings.TrimSpace e)) ∧
      (∀ key ∈ allowed, Strings.HasPrefix key "." = true ∧ Strings.ToLower lower key = key) ∧
      (∀ (pathMatch : String → String → Bool) (path1 path2 : String)
        (languageExtensions : Finset String) (useLanguage : Bool),
        Strings.ToLower lower (Filepath.Ext path1) =
          Strings.ToLower lower (Filepath.Ext path2) →
        shouldProcessFile lower pathMatch path1 allowed languageExtensions useLanguage [] [] =
          shouldProcessFile lower pathMatch path2 allowed languageExtensions useLanguage
            [] []) ∧
      (∀ extensions2, List.Forall₂ (sameExtension lower) extensions extensions2 →
        buildExtensionFilter lower extensions2 = .ok allowed) := by
  have hmem : ∀ (exts : List String) (key : String),
      key ∈ exts.foldl (fun (allowed : Finset String) ext =>
        let ext := Strings.TrimSpace ext
        if ext = "" then allowed else insert (normalizeExtension lower ext) allowed) ∅ ↔
      ∃ e ∈ exts, Strings.TrimSpace e ≠ "" ∧ key = dottedLower lower (Strings.TrimSpace e) := by
    intro exts key
    rw [(buildExtensionFilter_mem lower exts key).2]
    simp only [normalizeExtension_eq hl]
  refine ⟨_, rfl, hmem extensions, ?_, ?_, ?_⟩
  · intro key hkey
    obtain ⟨e, _, _, rfl⟩ := (hmem extensions key).mp hkey
    exact dottedLower_normal hl _
  · intro pathMatch path1 path2 languageExtensions useLanguage h
    exact shouldProcessFile_ext lower pathMatch path1 path2 _ _ _ h
  · intro extensions2 h2
    have one : ∀ (l1 l2 : List String), List.Forall₂ (sameExtension lower) l1 l2 →
        ∀ key, (∃ e ∈ l1, Strings.TrimSpace e ≠ "" ∧
          key = dottedLower lower (Strings.TrimSpace e)) →
        ∃ e ∈ l2, Strings.TrimSpace e ≠ "" ∧ key = dottedLower lower (Strings.TrimSpace e) := by
      intro l1 l2 hf key
      rintro ⟨e, he, hne, rfl⟩
      obtain ⟨e2, he2, hr⟩ := forall₂_exists hf e he
      rcases hr with ⟨hb, _⟩ | ⟨_, hne2, hsame⟩
      · exact absurd hb hne
      · exact ⟨e2, he2, hne2, dottedLower_sameExtension hl hsame⟩
    have hflip : List.Forall₂ (sameExtension lower) extensions2 extensions :=
      (List.Forall₂.flip h2).imp (fun _ _ h => sameExtension_symm h)
    show Except.ok _ = Except.ok _
    congr 1
    ext key
    rw [hmem extensions2 key, hmem extensions key]
    exact ⟨one _ _ hflip key, one _ _ h2 key⟩

theorem buildExtensionFilter_normalized_witness :
    LowerLaws Char.toLower ∧
      ∃ allowed : Finset String,
        buildExtensionFilter Char.toLower ["go", " .RS ", "", ".Go"] = .ok allowed ∧
        allowed = {".go", ".rs"} ∧
        (∀ key ∈ allowed, Strings.HasPrefix key "." = true ∧
          Strings.ToLower Char.toLower key = key) ∧
        shouldProcessFile Char.toLower (fun _ _ => false) "src/Main.GO" allowed ∅ false [] [] =
          shouldProcessFile Char.toLower (fun _ _ => false) "src/main.go" allowed ∅ false
            [] [] ∧
        buildExtensionFilter Char.toLower [".GO", "rs", " ", "go"] = .ok allowed := by
  obtain ⟨allowed, h1, _, h3, h4, h5⟩ :=
    buildExtensionFilter_normalized Char.toLower lowerLaws_toLower ["go", " .RS ", "", ".Go"]
  have ha : allowed = {".go", ".rs"} := by
    have h0 := Except.ok.inj h1
    rw [← h0]
    decide
  refine ⟨lowerLaws_toLower, allowed, h1, ha, h3, h4 _ _ _ _ _ (by decide), h5 _ ?_⟩
  unfold sameExtension
  refine List.Forall₂.cons ?_ (List.Forall₂.cons ?_ (List.Forall₂.cons ?_
    (List.Forall₂.cons ?_ List.Forall₂.nil))) <;> decide

/-! ## JSON: numbers read back -/

theorem digitChar_isDigit (d : Nat) (h : d < 10) :
    (digitChar d).isDigit = true ∧ (digitChar d).toNat - 48 = d := by
  interval_cases d <;> exact ⟨by decide, by decide⟩

theorem digitsRev_ne_nil (fuel n : Nat) : digitsRev (fuel + 1) n ≠ [] := by
  unfold digitsRev
  split <;> exact List.cons_ne_nil _ _

theorem digitsRev_isDigit (fuel n : Nat) : ∀ c ∈ digitsRev fuel n, c.isDigit = true := by
  induction fuel generalizing n with
  | zero => intro c hc; exact absurd hc (List.not_mem_nil _)
  | succ fuel ih =>
    intro c hc
    unfold digitsRev at hc
    by_cases h : n < 10
    · rw [if_pos h, List.mem_singleton] at hc
      subst hc
      exact (digitChar_isDigit n h).1
    · rw [if_neg h] at hc
      rcases List.mem_cons.mp hc with e | e
      · subst e
        exact (digitChar_isDigit (n % 10) (Nat.mod_lt _ (by decide))).1
      · exact ih _ c e

theorem digitsValue_append (ds : List Char) (c : Char) :
    digitsValue (ds ++ [c]) = digitsValue ds * 10 + (c.toNat - 48) := by
  unfold digitsValue
  rw [List.foldl_append]
  rfl

theorem digitsValue_digitsRev (fuel n : Nat) (h : n < fuel) :
    digitsValue (digitsRev fuel n).reverse = n := by
  induction fuel generalizing n with
  | zero => exact absurd h (Nat.not_lt_zero _)
  | succ fuel ih =>
    unfold digitsRev
    by_cases hn : n < 10
    · rw [if_pos hn]
      show digitsValue ([] ++ [digitChar n]) = n
      rw [digitsValue_append, (digitChar_isDigit n hn).2]
      show 0 * 10 + n = n
      omega
    · rw [if_neg hn, List.reverse_cons, digitsValue_append,
        (digitChar_isDigit (n % 10) (Nat.mod_lt _ (by decide))).2, ih (n / 10) (by omega)]
      omega

theorem takeWhile_append_of_all {α : Type} (p : α → Bool) (l rest : List α)
    (hl : ∀ a ∈ l, p a = true) (hr : ∀ a, rest.head? = some a → p a = false) :
    (l ++ rest).takeWhile p = l ∧ (l ++ rest).dropWhile p = rest := by
  induction l with
  | nil =>
    cases rest with
    | nil => exact ⟨rfl, rfl⟩
    | cons a r =>
      have := hr a rfl
      simp [List.takeWhile, List.dropWhile, this]
  | cons a l ih =>
    have ha := hl a (List.mem_cons_self _ _)
    obtain ⟨i1, i2⟩ := ih (fun x hx => hl x (List.mem_cons_of_mem _ hx))
    simp [List.takeWhile, List.dropWhile, ha, i1, i2]

/-- A character that can follow a number in what the presenter writes: not a
digit and not the start of a fraction or an exponent. -/
theorem readInt_Itoa (n : Int) (rest : List Char)
    (hrest : ∀ a, rest.head? = some a → a.isDigit = false ∧ a ≠ '.' ∧ a ≠ 'e' ∧ a ≠ 'E') :
    readInt ((Itoa n).data ++ rest) = some (n, rest) := by
  have hstop : ¬ (rest.head? = some '.' ∨ rest.head? = some 'e' ∨ rest.head? = some 'E') := by
    rintro (h | h | h)
    · exact (hrest _ h).2.1 rfl
    · exact (hrest _ h).2.2.1 rfl
    · exact (hrest _ h).2.2.2 rfl
  cases n with
  | ofNat k =>
    have hd := digitsRev_isDigit (k + 1) k
    have hne := digitsRev_ne_nil k k
    have hall : ∀ a ∈ (digitsRev (k + 1) k).reverse, a.isDigit = true :=
      fun a ha => hd a (List.mem_reverse.mp ha)
    obtain ⟨t1, t2⟩ := takeWhile_append_of_all Char.isDigit _ rest hall
      (fun a ha => (hrest a ha).1)
    have hhead : ¬ ((digitsRev (k + 1) k).reverse ++ rest).head? = some '-' := by
      intro h
      cases hr : (digitsRev (k + 1) k).reverse with
      | nil => exact hne (List.reverse_eq_nil_iff.mp hr)
      | cons c cs =>
        rw [hr] at h hall
        simp only [List.cons_append, List.head?_cons, Option.some.injEq] at h
        have := hall c (List.mem_cons_self _ _)
        rw [h] at this
        exact absurd this (by decide)
    show readInt ((digitsRev (k + 1) k).reverse ++ rest) = _
    unfold readInt
    simp only [hhead, decide_False, Bool.false_eq_true, if_false, t1, t2,
      List.reverse_eq_nil_iff, hne, hstop, digitsValue_digitsRev (k + 1) k (by omega)]
    rfl
  | negSucc k =>
    have hd := digitsRev_isDigit (k + 2) (k + 1)
    have hne := digitsRev_ne_nil (k + 1) (k + 1)
    have hall : ∀ a ∈ (digitsRev (k + 2) (k + 1)).reverse, a.isDigit = true :=
      fun a ha => hd a (List.mem_reverse.mp ha)
    obtain ⟨t1, t2⟩ := takeWhile_append_of_all Char.isDigit _ rest hall
      (fun a ha => (hrest a ha).1)
    show readInt ('-' :: ((digitsRev (k + 2) (k + 1)).reverse ++ rest)) = _
    unfold readInt
    simp only [List.head?_cons, decide_True, if_true, List.drop_succ_cons, List.drop_zero, t1, t2,
      List.reverse_eq_nil_iff, hne, if_false, hstop,
      digitsValue_digitsRev (k + 2) (k + 1) (by omega)]
    rfl

/-! ## JSON: strings read back -/

theorem hexValue_hexDigitChar (d : Nat) (h : d < 16) : hexValue (hexDigitChar d) = some d := by
  interval_cases d <;> decide

theorem readString_cons (fuel : Nat) (c : Char) (cs : List Char) :
    readString (fuel + 1) (c :: cs) =
      if c = '\x22' then some ([], cs)
      else if c = '\x5c' then
        match cs with
        | [] => none
        | e :: rest =>
          if e = 'u' then
            match rest with
            | a :: b :: c :: d :: rest2 =>
              match hexValue4 a b c d with
              | some n =>
                match readString fuel (readUnicodeEscape n rest2).2 with
                | some (s, r) => some ((readUnicodeEscape n rest2).1 :: s, r)
                | none => none
              | none => none
            | _ => none
          else
            match (if e = '\x22' then some '\x22' else if e = '\x5c' then some '\x5c'
              else if e = '/' then some '/' else if e = 'b' then some '\x08'
              else if e = 'f' then some '\x0c' else if e = 'n' then some '\n'
              else if e = 'r' then some '\r' else if e = 't' then some '\t' else none) with
            | some ch =>
              match readString fuel rest with
              | some (s, r) => some (ch :: s, r)
              | none => none
            | none => none
      else if c.toNat < 32 then none
      else
        match readString fuel cs with
        | some (s, r) => some (c :: s, r)
        | none => none := rfl

theorem readString_simple (fuel : Nat) (e ch : Char) (tail : List Char)
    (he : e ≠ 'u')
    (hch : (if e = '\x22' then some '\x22' else if e = '\x5c' then some '\x5c'
      else if e = '/' then some '/' else if e = 'b' then some '\x08'
      else if e = 'f' then some '\x0c' else if e = 'n' then some '\n'
      else if e = 'r' then some '\r' else if e = 't' then some '\t' else none) = some ch) :
    readString (fuel + 1) ('\x5c' :: e :: tail) =
      match readString fuel tail with
      | some (s, r) => some (ch :: s, r)
      | none => none := by
  rw [readString_cons, if_neg (by decide), if_pos rfl]
  simp only [he, if_false, hch]

theorem readString_unicode (fuel : Nat) (a b c d : Char) (n : Nat) (tail : List Char)
    (hn : hexValue4 a b c d = some n) (hlow : n < 0xD800) :
    readString (fuel + 1) ('\x5c' :: 'u' :: a :: b :: c :: d :: tail) =
      match readString fuel tail with
      | some (s, r) => some (Char.ofNat n :: s, r)
      | none => none := by
  have hu : readUnicodeEscape n tail = (Char.ofNat n, tail) := by
    unfold readUnicodeEscape
    rw [if_neg (by omega), if_neg (by omega)]
  rw [readString_cons, if_neg (by decide), if_pos rfl]
  simp only [if_true, hn, hu]

theorem escapeRune_rune (c : Char) :
    escapeRune (GoRune.rune c) =
      if c = '\x22' ∨ c = '\x5c' then ['\x5c', c]
      else if c = '\x08' then ['\x5c', 'b']
      else if c = '\x0c' then ['\x5c', 'f']
      else if c = '\n' then ['\x5c', 'n']
      else if c = '\r' then ['\x5c', 'r']
      else if c = '\t' then ['\x5c', 't']
      else if c.toNat < 32 ∨ c = '<' ∨ c = '>' ∨ c = '&' then
        ['\x5c', 'u', '0', '0', hexDigitChar (c.toNat / 16), hexDigitChar (c.toNat % 16)]
      else if c = Char.ofNat 0x2028 then ['\x5c', 'u', '2', '0', '2', '8']
      else if c = Char.ofNat 0x2029 then ['\x5c', 'u', '2', '0', '2', '9']
      else [c] := rfl

theorem readString_escapeRune (fuel : Nat) (c : Char) (tail : List Char) :
    readString (fuel + 1) (escapeRune (GoRune.rune c) ++ tail) =
      match readString fuel tail with
      | some (s, r) => some (c :: s, r)
      | none => none := by
  rw [escapeRune_rune]
  by_cases h1 : c = '\x22' ∨ c = '\x5c'
  · rw [if_pos h1]
    rcases h1 with h | h <;> subst h <;>
      exact readString_simple fuel _ _ tail (by decide) (by decide)
  rw [if_neg h1]
  by_cases h2 : c = '\x08'
  · subst h2
    exact readString_simple fuel _ _ tail (by decide) (by decide)
  rw [if_neg h2]
  by_cases h3 : c = '\x0c'
  · subst h3
    exact readString_simple fuel _ _ tail (by decide) (by decide)
  rw [if_neg h3]
  by_cases h4 : c = '\n'
  · subst h4
    exact readString_simple fuel _ _ tail (by decide) (by decide)
  rw [if_neg h4]
  by_cases h5 : c = '\r'
  · subst h5
    exact readString_simple fuel _ _ tail (by decide) (by decide)
  rw [if_neg h5]
  by_cases h6 : c = '\t'
  · subst h6
    exact readString_simple fuel _ _ tail (by decide) (by decide)
  rw [if_neg h6]
  by_cases h7 : c.toNat < 32 ∨ c = '<' ∨ c = '>' ∨ c = '&'
  · rw [if_pos h7]
    have hlt : c.toNat < 64 := by
      rcases h7 with h | h | h | h
      · omega
      · subst h; decide
      · subst h; decide
      · subst h; decide
    have hx : hexValue4 '0' '0' (hexDigitChar (c.toNat / 16)) (hexDigitChar (c.toNat % 16)) =
        some c.toNat := by
      unfold hexValue4
      rw [hexValue_hexDigitChar _ (by omega), hexValue_hexDigitChar _ (Nat.mod_lt _ (by decide))]
      have h0 : hexValue '0' = some 0 := by decide
      simp only [h0, Option.some.injEq]
      omega
    have := readString_unicode fuel '0' '0' (hexDigitChar (c.toNat / 16))
      (hexDigitChar (c.toNat % 16)) c.toNat tail hx (by omega)
    rw [Char.ofNat_toNat] at this
    exact this
  rw [if_neg h7]
  by_cases h8 : c = Char.ofNat 0x2028
  · rw [if_pos h8]
    have := readString_unicode fuel '2' '0' '2' '8' 0x2028 tail (by decide) (by decide)
    rw [← h8] at this
    exact this
  rw [if_neg h8]
  by_cases h9 : c = Char.ofNat 0x2029
  · rw [if_pos h9]
    have := readString_unicode fuel '2' '0' '2' '9' 0x2029 tail (by decide) (by decide)
    rw [← h9] at this
    exact this
  rw [if_neg h9]
  show readString (fuel + 1) (c :: tail) = _
  rw [readString_cons, if_neg (fun h => h1 (Or.inl h)), if_neg (fun h => h1 (Or.inr h)),
    if_neg (fun h => h7 (Or.inl h))]

theorem escaped_length (s : List Char) :
    s.length ≤ ((s.map GoRune.rune).flatMap escapeRune).length := by
  induction s with
  | nil => exact Nat.le_refl _
  | cons c s ih =>
    have h1 : 1 ≤ (escapeRune (GoRune.rune c)).length := by
      rw [escapeRune_rune]
      split_ifs <;> simp
    simp only [List.map_cons, List.flatMap_cons, List.length_append, List.length_cons]
    omega

theorem readString_escaped (s : List Char) (fuel : Nat) (hf : s.length < fuel)
    (tail : List Char) :
    readString fuel ((s.map GoRune.rune).flatMap escapeRune ++ '\x22' :: tail) =
      some (s, tail) := by
  induction s generalizing fuel with
  | nil =>
    obtain ⟨f, rfl⟩ : ∃ f, fuel = f + 1 := ⟨fuel - 1, by simp at hf; omega⟩
    show readString (f + 1) ('\x22' :: tail) = _
    rw [readString_cons, if_pos rfl]
  | cons c s ih =>
    obtain ⟨f, rfl⟩ : ∃ f, fuel = f + 1 := ⟨fuel - 1, by simp at hf; omega⟩
    rw [List.map_cons, List.flatMap_cons, List.append_assoc, readString_escapeRune,
      ih f (by simp at hf; omega)]

theorem readString_jsonString (s : String) (tail : List Char) :
    ∃ body, jsonString (RawString.ofString s) ++ tail = '\x22' :: body ∧
      readString (body.length + 1) body = some (s.data, tail) := by
  refine ⟨(s.data.map GoRune.rune).flatMap escapeRune ++ '\x22' :: tail, ?_, ?_⟩
  · simp [jsonString, RawString.ofString]
  · apply readString_escaped
    have := escaped_length s.data
    simp only [List.length_append, List.length_cons]
    omega

/-! ## JSON: objects and arrays read back -/

theorem skipSpace_cons (c : Char) (cs : List Char) (h : isJsonSpace c = false) :
    skipSpace (c :: cs) = c :: cs := by
  simp [skipSpace, List.dropWhile, h]

theorem readJson_string (fuel : Nat) (s : String) (tail : List Char) :
    readJson (fuel + 1) ReadMode.value (jsonString (RawString.ofString s) ++ tail) =
      some (Json.str s, tail) := by
  obtain ⟨body, hb, hr⟩ := readString_jsonString s tail
  rw [hb]
  simp only [readJson, skipSpace_cons _ _ (show isJsonSpace '\x22' = false by decide), if_true, hr]

theorem Itoa_head (n : Int) :
    ∃ c cs, (Itoa n).data = c :: cs ∧ (c = '-' ∨ c.isDigit = true) := by
  cases n with
  | ofNat k =>
    have hne := digitsRev_ne_nil k k
    have hd := digitsRev_isDigit (k + 1) k
    cases hr : (digitsRev (k + 1) k).reverse with
    | nil => exact absurd (List.reverse_eq_nil_iff.mp hr) hne
    | cons c cs =>
      refine ⟨c, cs, hr, Or.inr (hd c ?_)⟩
      rw [← List.mem_reverse, hr]
      exact List.mem_cons_self _ _
  | negSucc k => exact ⟨'-', _, rfl, Or.inl rfl⟩

theorem readJson_int (fuel : Nat) (n : Int) (tail : List Char)
    (hrest : ∀ a, tail.head? = some a → a.isDigit = false ∧ a ≠ '.' ∧ a ≠ 'e' ∧ a ≠ 'E') :
    readJson (fuel + 1) ReadMode.value ((Itoa n).data ++ tail) = some (Json.num n, tail) := by
  have hread := readInt_Itoa n tail hrest
  obtain ⟨c, cs, hc, hcd⟩ := Itoa_head n
  rw [hc] at hread ⊢
  have hsp : isJsonSpace c = false := by
    rcases hcd with h | h
    · subst h; decide
    · cases hs : isJsonSpace c with
      | false => rfl
      | true =>
        simp only [isJsonSpace, Bool.or_eq_true, decide_eq_true_eq] at hs
        rcases hs with ((hs | hs) | hs) | hs <;> subst hs <;> exact absurd h (by decide)
  have hne : ∀ x : Char, ¬ (x = '-' ∨ x.isDigit = true) → ¬ c = x := by
    intro x hx e
    subst e
    exact hx hcd
  rw [List.cons_append] at hread ⊢
  simp only [readJson, skipSpace_cons _ _ hsp, hne '\x22' (by decide), hne '[' (by decide),
    hne '\x7b' (by decide), hne 'n' (by decide), hne 't' (by decide), hne 'f' (by decide),
    if_false, hread]

theorem readJson_member (fuel : Nat) (members : List (String × Json)) (key : String)
    (hkey : (key.data.map GoRune.rune).flatMap escapeRune = key.data)
    (text : List Char) (v : Json) (after : List Char)
    (hv : readJson fuel ReadMode.value text = some (v, after)) :
    readJson (fuel + 1) (ReadMode.members members)
        ('\x22' :: (key.data ++ '\x22' :: ':' :: text)) =
      match skipSpace after with
      | ',' :: r => readJson fuel (ReadMode.members (members ++ [(key, v)])) r
      | '\x7d' :: r => some (Json.obj (members ++ [(key, v)]), r)
      | _ => none := by
  have hs : readString ((key.data ++ '\x22' :: ':' :: text).length + 1)
      (key.data ++ '\x22' :: ':' :: text) = some (key.data, ':' :: text) := by
    have := readString_escaped key.data ((key.data ++ '\x22' :: ':' :: text).length + 1)
      (by simp only [List.length_append]; omega) (':' :: text)
    rw [hkey] at this
    exact this
  simp only [readJson, skipSpace_cons _ _ (show isJsonSpace '\x22' = false by decide), hs,
    skipSpace_cons _ _ (show isJsonSpace ':' = false by decide), hv]

theorem marshalAuthor_append (a : AuthorStats) (tail : List Char) :
    marshalAuthor (JSONAuthor.ofStats a) ++ tail =
      '\x7b' :: '\x22' :: ("name".data ++ '\x22' :: ':' ::
        (jsonString (RawString.ofString a.Name) ++ ',' :: '\x22' ::
          ("lines".data ++ '\x22' :: ':' :: ((Itoa a.Lines).data ++ ',' :: '\x22' ::
            ("commits".data ++ '\x22' :: ':' :: ((Itoa a.Commits).data ++ ',' :: '\x22' ::
              ("files".data ++ '\x22' :: ':' :: ((Itoa a.Files).data ++
                '\x7d' :: tail)))))))) := by
  simp only [marshalAuthor, JSONAuthor.ofStats, List.append_assoc, List.cons_append,
    List.nil_append, List.singleton_append]

theorem readJson_object_start (fuel : Nat) (rest : List Char) :
    readJson (fuel + 1) ReadMode.value ('\x7b' :: '\x22' :: rest) =
      readJson fuel (ReadMode.members []) ('\x22' :: rest) := by
  rw [readJson]
  simp only [skipSpace_cons _ _ (show isJsonSpace '\x7b' = false by decide),
    skipSpace_cons _ _ (show isJsonSpace '\x22' = false by decide)]
  rfl

theorem readJson_author (fuel : Nat) (a : AuthorStats) (tail : List Char) :
    readJson (fuel + 6) ReadMode.value (marshalAuthor (JSONAuthor.ofStats a) ++ tail) =
      some (statsJson a, tail) := by
  rw [marshalAuthor_append]
  have stop1 : ∀ (t : List Char) (x : Char), (',' :: t).head? = some x →
      x.isDigit = false ∧ x ≠ '.' ∧ x ≠ 'e' ∧ x ≠ 'E' := by
    intro t x hx
    simp only [List.head?_cons, Option.some.injEq] at hx
    subst hx
    decide
  have stop2 : ∀ (t : List Char) (x : Char), ('\x7d' :: t).head? = some x →
      x.isDigit = false ∧ x ≠ '.' ∧ x ≠ 'e' ∧ x ≠ 'E' := by
    intro t x hx
    simp only [List.head?_cons, Option.some.injEq] at hx
    subst hx
    decide
  have m4 := readJson_member (fuel + 1)
    [("name", Json.str a.Name), ("lines", Json.num a.Lines), ("commits", Json.num a.Commits)]
    "files" (by decide) _ _ _ (readJson_int fuel a.Files ('\x7d' :: tail) (stop2 tail))
  have m3 := readJson_member (fuel + 2)
    [("name", Json.str a.Name), ("lines", Json.num a.Lines)]
    "commits" (by decide) _ _ _ (readJson_int (fuel + 1) a.Commits
      (',' :: '\x22' :: ("files".data ++ '\x22' :: ':' :: ((Itoa a.Files).data ++
        '\x7d' :: tail))) (stop1 _))
  have m2 := readJson_member (fuel + 3) [("name", Json.str a.Name)]
    "lines" (by decide) _ _ _ (readJson_int (fuel + 2) a.Lines
      (',' :: '\x22' :: ("commits".data ++ '\x22' :: ':' :: ((Itoa a.Commits).data ++
        ',' :: '\x22' :: ("files".data ++ '\x22' :: ':' :: ((Itoa a.Files).data ++
          '\x7d' :: tail))))) (stop1 _))
  have m1 := readJson_member (fuel + 4) [] "name" (by decide) _ _ _
    (readJson_string (fuel + 3) a.Name
      (',' :: '\x22' :: ("lines".data ++ '\x22' :: ':' :: ((Itoa a.Lines).data ++
        ',' :: '\x22' :: ("commits".data ++ '\x22' :: ':' :: ((Itoa a.Commits).data ++
          ',' :: '\x22' :: ("files".data ++ '\x22' :: ':' :: ((Itoa a.Files).data ++
            '\x7d' :: tail))))))))
  rw [skipSpace_cons _ _ (show isJsonSpace '\x7d' = false by decide)] at m4
  rw [skipSpace_cons _ _ (show isJsonSpace ',' = false by decide)] at m3 m2 m1
  simp only [List.nil_append, List.cons_append] at m1 m2 m3 m4
  rw [m4] at m3
  rw [m3] at m2
  rw [m2] at m1
  rw [readJson_object_start]
  exact m1

theorem marshalRest_head (rest : List JSONAuthor) (tail : List Char) :
    (marshalRest rest ++ ']' :: tail).head? = some ',' ∨
      (rest = [] ∧ marshalRest rest ++ ']' :: tail = ']' :: tail) := by
  cases rest with
  | nil => exact Or.inr ⟨rfl, rfl⟩
  | cons b rest => exact Or.inl rfl

theorem readJson_elements (rest : List AuthorStats) (a : AuthorStats) (fuel : Nat)
    (hf : rest.length + 7 ≤ fuel) (items : List Json) (tail : List Char) :
    readJson fuel (ReadMode.elements items)
        (marshalAuthor (JSONAuthor.ofStats a) ++
          (marshalRest (rest.map JSONAuthor.ofStats) ++ ']' :: tail)) =
      some (Json.arr (items ++ (a :: rest).map statsJson), tail) := by
  induction rest generalizing a fuel items with
  | nil =>
    obtain ⟨f, rfl⟩ : ∃ f, fuel = f + 7 := ⟨fuel - 7, by simp at hf; omega⟩
    have hv := readJson_author f a (marshalRest ([].map JSONAuthor.ofStats) ++ ']' :: tail)
    rw [readJson, hv]
    simp only [List.map_nil, marshalRest, List.nil_append,
      skipSpace_cons _ _ (show isJsonSpace ']' = false by decide), List.map_cons]
  | cons b rest ih =>
    obtain ⟨f, rfl⟩ : ∃ f, fuel = f + 7 := ⟨fuel - 7, by simp at hf; omega⟩
    have hv := readJson_author f a
      (marshalRest ((b :: rest).map JSONAuthor.ofStats) ++ ']' :: tail)
    have hnext := ih b (f + 6) (by simp at hf ⊢; omega) (items ++ [statsJson a])
    rw [readJson, hv]
    simp only [List.map_cons, marshalRest, List.cons_append, List.append_assoc, List.nil_append,
      skipSpace_cons _ _ (show isJsonSpace ',' = false by decide)] at hnext ⊢
    rw [hnext]

theorem marshalRest_length (rest : List JSONAuthor) : rest.length ≤ (marshalRest rest).length := by
  induction rest with
  | nil => exact Nat.le_refl _
  | cons b rest ih =>
    simp only [marshalRest, List.length_cons, List.length_append]
    omega

theorem readJson_array_start (fuel : Nat) (rest : List Char) :
    readJson (fuel + 1) ReadMode.value ('[' :: '\x7b' :: rest) =
      readJson fuel (ReadMode.elements []) ('\x7b' :: rest) := by
  rw [readJson]
  simp only [skipSpace_cons _ _ (show isJsonSpace '[' = false by decide),
    skipSpace_cons _ _ (show isJsonSpace '\x7b' = false by decide)]
  rfl

theorem readJson_authors (results : List AuthorStats) (fuel : Nat)
    (hf : results.length + 7 ≤ fuel) (tail : List Char) :
    readJson fuel ReadMode.value (marshalAuthors (results.map JSONAuthor.ofStats) ++ tail) =
      some (Json.arr (results.map statsJson), tail) := by
  obtain ⟨f, rfl⟩ : ∃ f, fuel = f + 1 := ⟨fuel - 1, by omega⟩
  cases results with
  | nil =>
    simp only [List.map_nil, marshalAuthors, List.cons_append, List.nil_append, readJson,
      skipSpace_cons _ _ (show isJsonSpace '[' = false by decide),
      skipSpace_cons _ _ (show isJsonSpace ']' = false by decide)]
    rfl
  | cons a rest =>
    have he := readJson_elements rest a f (by simp at hf; omega) [] tail
    have hshape : marshalAuthors ((a :: rest).map JSONAuthor.ofStats) ++ tail =
        '[' :: (marshalAuthor (JSONAuthor.ofStats a) ++
          (marshalRest (rest.map JSONAuthor.ofStats) ++ ']' :: tail)) := by
      simp [marshalAuthors, List.append_assoc]
    rw [hshape]
    rw [marshalAuthor_append] at he ⊢
    rw [readJson_array_start]
    exact he

theorem marshalAuthors_length (authors : List JSONAuthor) :
    authors.length + 2 ≤ (marshalAuthors authors).length := by
  cases authors with
  | nil => exact Nat.le_refl _
  | cons a rest =>
    have h1 : 1 ≤ (marshalAuthor a).length := by
      simp [marshalAuthor]
    have h2 := marshalRest_length rest
    simp only [marshalAuthors, List.length_cons, List.length_append, List.length_nil]
    omega

theorem decodeAuthor_statsJson (a : AuthorStats) : decodeAuthor (statsJson a) = some a := by
  simp [decodeAuthor, statsJson, jsonMember]

theorem mapM_decodeAuthor (results : List AuthorStats) :
    (results.map statsJson).mapM decodeAuthor = some results := by
  induction results with
  | nil => rfl
  | cons a rest ih =>
    rw [List.map_cons, List.mapM_cons, decodeAuthor_statsJson, ih]
    rfl

theorem decodeAuthors_statsJson (results : List AuthorStats) :
    decodeAuthors (Json.arr (results.map statsJson)) = some results :=
  mapM_decodeAuthor results

theorem parseJson_formatJSONOutput (results : List AuthorStats) :
    parseJson (formatJSONOutput results).1 = some (Json.arr (results.map statsJson)) := by
  have hlen := marshalAuthors_length (results.map JSONAuthor.ofStats)
  have hr := readJson_authors results
    (2 * (marshalAuthors (results.map JSONAuthor.ofStats) ++ ['\n']).length + 2)
    (by simp only [List.length_append, List.length_map] at hlen ⊢; simp; omega) ['\n']
  unfold parseJson formatJSONOutput formatJSONOutputRaw
  simp only [String.length]
  rw [hr]
  rfl

/-! ## C18: the JSON output read back -/

/-- C18, counterexample. A contributor whose name is the single byte 0xff,
which is not valid UTF-8, with one line, one commit and one file:
`formatJSONOutput` writes the name as the escape of the replacement character
U+FFFD, so the text parsed back as JSON holds one object whose name is U+FFFD,
a name different from the one that was written. -/
theorem formatJSONOutputRaw_invalid_name :
    (formatJSONOutputRaw [JSONAuthor.mk [GoRune.invalid 255] 1 1 1]).1 =
        "[\x7b\"name\":\"\\ufffd\",\"lines\":1,\"commits\":1,\"files\":1\x7d]\n" ∧
      (parseJson (formatJSONOutputRaw [JSONAuthor.mk [GoRune.invalid 255] 1 1 1]).1).bind
          decodeAuthors = some [AuthorStats.mk (String.mk [Char.ofNat 0xFFFD]) 1 1 1] ∧
      [AuthorStats.mk (String.mk [Char.ofNat 0xFFFD]) 1 1 1].map JSONAuthor.ofStats ≠
        [JSONAuthor.mk [GoRune.invalid 255] 1 1 1] := by
  decide

/-- C18, amended. For every sequence of AuthorStats whose names are valid
UTF-8, `formatJSONOutput` reports no error and writes a text that ends with a
line feed and that, parsed back as JSON, is the array of the objects with the
keys name, lines, commits, files and the values of the sequence, in its order:
decoding that array gives the sequence itself. -/
theorem formatJSONOutput_roundtrip (results : List AuthorStats) :
    (formatJSONOutput results).2 = none ∧
      (formatJSONOutput results).1.data.getLast? = some '\n' ∧
      parseJson (formatJSONOutput results).1 = some (Json.arr (results.map statsJson)) ∧
      (parseJson (formatJSONOutput results).1).bind decodeAuthors = some results := by
  refine ⟨rfl, ?_, parseJson_formatJSONOutput results, ?_⟩
  · simp [formatJSONOutput, formatJSONOutputRaw]
  · rw [parseJson_formatJSONOutput]
    exact decodeAuthors_statsJson results

end Gitfame
